import Mathlib

/-!
Verification of the cel-fmt formatting core and its web UI entry point.

The repository ships the web UI driver (`docs/app.js`) directly; the
formatting core (expression model, precedence table, layout engine and
formatter facade) is the Rust crate the UI loads as a WASM unit, and its
sources are not part of this tree.  The core is therefore modelled here
from its specification: the expression model over the operator/list
fragment (literals, identifiers, binary operators, list literals), the
precedence table, the two-phase layout engine (single-line fast path,
kind-specific breaking), and the facade that parses and renders.  The UI
driver `formatCode` is embedded directly from `docs/app.js`.
-/

namespace CelFmt

/-- Modelled from the spec: the binary operator set of the precedence table
(logical, equality, relational, `in`, additive, multiplicative). -/
inductive BinOp where
  | lor | land | eq | ne | lt | le | gt | ge | inOp | add | sub | mul | div | mod
deriving DecidableEq, Repr

/-- Modelled from the spec: associativity tags of the precedence table. -/
inductive Assoc where
  | left | right | none
deriving DecidableEq, Repr

/-- Modelled from the spec: binding strength, lowest to highest:
ternary (1) < `||` (2) < `&&` (3) < equality (4) < relational (5) < `in` (6)
< additive (7) < multiplicative (8) < unary (9) < postfix (10). -/
def BinOp.prec : BinOp → Nat
  | .lor => 2
  | .land => 3
  | .eq | .ne => 4
  | .lt | .le | .gt | .ge => 5
  | .inOp => 6
  | .add | .sub => 7
  | .mul | .div | .mod => 8

/-- Modelled from the spec: every CEL binary operator is left-associative. -/
def BinOp.assoc : BinOp → Assoc := fun _ => .left

/-- Modelled from the spec: the textual rendering of each binary operator. -/
def BinOp.str : BinOp → String
  | .mul => "*"
  | .div => "/"
  | .mod => "%"
  | .add => "+"
  | .sub => "-"
  | .inOp => "in"
  | .lt => "<"
  | .gt => ">"
  | .le => "<="
  | .ge => ">="
  | .eq => "=="
  | .ne => "!="
  | .land => "&&"
  | .lor => "||"

mutual
/-- Modelled from the spec: the expression model over the operator/list
fragment — integer literals, identifiers, binary expressions, and list
literals.  Unary, ternary, member, index, call, map/struct and
comprehension nodes are not part of the modelled fragment. -/
inductive Expr where
  | lit (n : Nat)
  | ident (name : String)
  | binary (op : BinOp) (l r : Expr)
  | listE (elems : ExprList)
deriving DecidableEq, Repr

/-- Modelled from the spec: an ordered sequence of element expressions. -/
inductive ExprList where
  | nil
  | cons (e : Expr) (es : ExprList)
deriving DecidableEq, Repr
end

/-- Binding strength of a node: binary nodes use the operator's strength,
atoms (literals, identifiers, list literals) bind like postfix plus one. -/
def Expr.prec : Expr → Nat
  | .binary op _ _ => op.prec
  | _ => 11

/-- Structural slot an operand occupies in its parent binary node. -/
inductive Slot where
  | left | right
deriving DecidableEq, Repr

/-- Modelled from the spec: `needs_parens(child, parent_slot)` is true when
the child's binding strength is lower than the parent's, or equal with
associativity conflicting with the child's position (right operand of a
left-associative operator, left operand of a right-associative one). -/
def needs_parens (child : Expr) (parent : BinOp) (slot : Slot) : Bool :=
  child.prec < parent.prec ||
    (child.prec == parent.prec &&
      (match parent.assoc, slot with
       | .left, .right => true
       | .right, .left => true
       | _, _ => false))

/-- Decimal digit character for a value below ten. -/
def digitChar (d : Nat) : Char := Char.ofNat (48 + d)

/-- Decimal digit characters of `n`, most significant first; the first
argument is recursion fuel (any value at least `n` is enough). -/
def natDigits : Nat → Nat → List Char
  | 0, _ => []
  | fuel + 1, n => if n = 0 then [] else natDigits fuel (n / 10) ++ [digitChar (n % 10)]

/-- Modelled from the spec: canonical decimal rendering of an integer
literal, most significant digit first. -/
def renderNat (n : Nat) : String :=
  if n = 0 then "0" else ⟨natDigits n n⟩

mutual
/-- Modelled from the spec: the canonical single-line form — all children
inline, one space around binary operators, comma-space between list
elements, parenthesization decided solely by `needs_parens`. -/
def renderSL : Expr → String
  | .lit n => renderNat n
  | .ident s => s
  | .binary op l r =>
      (if needs_parens l op .left then "(" ++ renderSL l ++ ")" else renderSL l) ++
        " " ++ op.str ++ " " ++
        (if needs_parens r op .right then "(" ++ renderSL r ++ ")" else renderSL r)
  | .listE es => "[" ++ renderSLElems es ++ "]"
termination_by structural e => e

/-- Comma-space separated single-line rendering of list elements. -/
def renderSLElems : ExprList → String
  | .nil => ""
  | .cons e .nil => renderSL e
  | .cons e es => renderSL e ++ ", " ++ renderSLElems es
termination_by structural es => es
end

/-- Render an operand in its slot, wrapping in parentheses exactly when
`needs_parens` requires it. -/
def renderOperand (e : Expr) (parent : BinOp) (slot : Slot) : String :=
  if needs_parens e parent slot then "(" ++ renderSL e ++ ")" else renderSL e

/-- Modelled from the spec: the configuration surface — `max_width`,
`indent_width`, `use_tabs`, `trailing_comma`. -/
structure FormatOptions where
  maxWidth : Nat
  indentWidth : Nat
  useTabs : Bool
  trailingComma : Bool
deriving DecidableEq, Repr

/-- An output line of the layout engine: indentation depth paired with the
line's content (the indentation itself is rendered by the facade). -/
abbrev Line := Nat × String

/-- Append a suffix to the content of the last line of a block. -/
def appendToLast (suf : String) : List Line → List Line
  | [] => []
  | [(d, s)] => [(d, s ++ suf)]
  | l :: ls => l :: appendToLast suf ls

/-- Prepend a text to the content of the first line of a block. -/
def prependToFirst (pre : String) : List Line → List Line
  | [] => []
  | (d, s) :: ls => (d, pre ++ s) :: ls

/-- Wrap a rendered block in literal parentheses: an opening parenthesis at
the start of its first line, a closing one at the end of its last line. -/
def wrapParens (ls : List Line) : List Line :=
  appendToLast ")" (prependToFirst "(" ls)

mutual
/-- Modelled from the spec: the layout engine.  Try the single-line form
first and emit it when `indent_depth * indent_width` plus its length (plus
the text the parent will attach to this block's first and last lines,
threaded as `pre` and `suf`) fits within `max_width`; otherwise break with
kind-specific policy: binary nodes put the operator at the end of the line
preceding the right operand and indent the right operand one level deeper;
lists put one element per line at the next depth with the closing bracket
returned to the current depth; atoms cannot break.  Parenthesization
consults `needs_parens` only, identically to the single-line path. -/
def renderLines (o : FormatOptions) (d pre suf : Nat) : Expr → List Line
  | .lit n =>
      [(d, renderNat n)]
  | .ident s =>
      [(d, s)]
  | .binary op l r =>
      let sl := renderSL (.binary op l r)
      if d * o.indentWidth + sl.length + pre + suf ≤ o.maxWidth then [(d, sl)]
      else
        let ll :=
          if needs_parens l op .left then
            wrapParens (renderLines o d (pre + 1) (op.str.length + 2) l)
          else
            renderLines o d pre (op.str.length + 1) l
        let rl :=
          if needs_parens r op .right then
            wrapParens (renderLines o (d + 1) 1 (suf + 1) r)
          else
            renderLines o (d + 1) 0 suf r
        appendToLast (" " ++ op.str) ll ++ rl
  | .listE es =>
      let sl := renderSL (.listE es)
      if d * o.indentWidth + sl.length + pre + suf ≤ o.maxWidth then [(d, sl)]
      else (d, "[") :: renderElemsLines o (d + 1) es ++ [(d, "]")]
termination_by structural e => e

/-- Wrapped list elements, one per line: every element but the last is
followed by a comma; the last receives one exactly when `trailing_comma`
is set. -/
def renderElemsLines (o : FormatOptions) (d : Nat) : ExprList → List Line
  | .nil => []
  | .cons e .nil =>
      if o.trailingComma then appendToLast "," (renderLines o d 0 1 e)
      else renderLines o d 0 0 e
  | .cons e es =>
      appendToLast "," (renderLines o d 0 1 e) ++ renderElemsLines o d es
termination_by structural es => es
end

/-- Indentation text for a depth: one tab per level when `use_tabs` is set,
otherwise `indent_width` spaces per level. -/
def indentText (o : FormatOptions) (d : Nat) : String :=
  if o.useTabs then ⟨List.replicate d '\t'⟩ else ⟨List.replicate (d * o.indentWidth) ' '⟩

/-- A full output line: indentation followed by the line's content. -/
def lineText (o : FormatOptions) (l : Line) : String :=
  indentText o l.1 ++ l.2

/-- Join lines so that every line is terminated by a single newline. -/
def joinNL : List String → String
  | [] => ""
  | [l] => l ++ "\n"
  | l :: ls => l ++ "\n" ++ joinNL ls

/-- Modelled from the spec: drive the layout engine from indent depth 0 and
join the lines with the platform-neutral terminator, with a single trailing
newline. -/
def renderText (o : FormatOptions) (e : Expr) : String :=
  joinNL ((renderLines o 0 0 0 e).map (lineText o))

/-- Whitespace characters the external parser skips between tokens:
space, newline, tab and carriage return. -/
def isWsC (c : Char) : Bool :=
  c.toNat = 32 || c.toNat = 10 || c.toNat = 9 || c.toNat = 13

/-- Decimal digit characters. -/
def isDigitC (c : Char) : Bool := 48 ≤ c.toNat && c.toNat ≤ 57

/-- Characters that may start an identifier: ASCII letters and the
underscore. -/
def isAlphaC (c : Char) : Bool :=
  (97 ≤ c.toNat && c.toNat ≤ 122) || (65 ≤ c.toNat && c.toNat ≤ 90) || c.toNat = 95

/-- Characters that may continue an identifier. -/
def isIdentC (c : Char) : Bool := isAlphaC c || isDigitC c

/-- Numeric value of a decimal digit character. -/
def digitVal (c : Char) : Nat := c.toNat - 48

/-- Value of a most-significant-first run of decimal digit characters. -/
def readNat (cs : List Char) : Nat := cs.foldl (fun a c => 10 * a + digitVal c) 0

/-- Modelled from the spec: tokens of the external parser over the
modelled fragment. -/
inductive Tok where
  | num (n : Nat)
  | id (s : String)
  | op (o : BinOp)
  | lpar | rpar | lbrk | rbrk | comma
deriving DecidableEq, Repr

/-- Modelled from the spec: the external parser's lexer over the modelled
fragment — maximal-munch tokenization skipping whitespace, with `in` a
keyword rather than an identifier.  The first argument is recursion fuel;
any value above the character count is enough. -/
def lexF : Nat → List Char → Option (List Tok)
  | 0, _ => none
  | _ + 1, [] => some []
  | fuel + 1, c :: cs =>
    if isWsC c then lexF fuel cs
    else if isDigitC c then
      (lexF fuel (cs.dropWhile isDigitC)).map
        (fun ts => .num (readNat (c :: cs.takeWhile isDigitC)) :: ts)
    else if isAlphaC c then
      (lexF fuel (cs.dropWhile isIdentC)).map
        (fun ts =>
          (if (⟨c :: cs.takeWhile isIdentC⟩ : String) = "in" then Tok.op .inOp
           else Tok.id ⟨c :: cs.takeWhile isIdentC⟩) :: ts)
    else if c = '|' then
      if cs.head? = some '|' then (lexF fuel cs.tail).map (.op .lor :: ·) else none
    else if c = '&' then
      if cs.head? = some '&' then (lexF fuel cs.tail).map (.op .land :: ·) else none
    else if c = '=' then
      if cs.head? = some '=' then (lexF fuel cs.tail).map (.op .eq :: ·) else none
    else if c = '!' then
      if cs.head? = some '=' then (lexF fuel cs.tail).map (.op .ne :: ·) else none
    else if c = '<' then
      if cs.head? = some '=' then (lexF fuel cs.tail).map (.op .le :: ·)
      else (lexF fuel cs).map (.op .lt :: ·)
    else if c = '>' then
      if cs.head? = some '=' then (lexF fuel cs.tail).map (.op .ge :: ·)
      else (lexF fuel cs).map (.op .gt :: ·)
    else if c = '+' then (lexF fuel cs).map (.op .add :: ·)
    else if c = '-' then (lexF fuel cs).map (.op .sub :: ·)
    else if c = '*' then (lexF fuel cs).map (.op .mul :: ·)
    else if c = '/' then (lexF fuel cs).map (.op .div :: ·)
    else if c = '%' then (lexF fuel cs).map (.op .mod :: ·)
    else if c = '(' then (lexF fuel cs).map (.lpar :: ·)
    else if c = ')' then (lexF fuel cs).map (.rpar :: ·)
    else if c = '[' then (lexF fuel cs).map (.lbrk :: ·)
    else if c = ']' then (lexF fuel cs).map (.rbrk :: ·)
    else if c = ',' then (lexF fuel cs).map (.comma :: ·)
    else none

/-- The lexer at its canonical fuel. -/
def lex (cs : List Char) : Option (List Tok) := lexF (cs.length + 1) cs

/-- Does the token list start with a closing bracket?  Used for the
optional trailing comma inside list literals. -/
def startsRbrk : List Tok → Bool
  | .rbrk :: _ => true
  | _ => false

mutual
/-- Modelled from the spec: atoms of the external parser — integer
literals, identifiers, parenthesized expressions and list literals (with
an optional trailing comma inside brackets).  Fuel-indexed; the canonical
fuel is supplied by `parseToks`. -/
def parseAtomF : Nat → List Tok → Option (Expr × List Tok)
  | 0, _ => none
  | fuel + 1, ts =>
    match ts with
    | .num n :: ts' => some (.lit n, ts')
    | .id s :: ts' => some (.ident s, ts')
    | .lpar :: ts' =>
      match parseBinF fuel 0 ts' with
      | some (e, .rpar :: ts'') => some (e, ts'')
      | _ => none
    | .lbrk :: ts' =>
      if startsRbrk ts' then some (.listE .nil, ts'.tail)
      else
        match parseElemsF fuel ts' with
        | some (es, .rbrk :: ts'') => some (.listE es, ts'')
        | _ => none
    | _ => none

/-- Modelled from the spec: precedence-climbing parse of a binary
expression whose top operator binds at least as strongly as `min`. -/
def parseBinF : Nat → Nat → List Tok → Option (Expr × List Tok)
  | 0, _, _ => none
  | fuel + 1, min, ts =>
    match parseAtomF fuel ts with
    | some (l, ts1) => parseLoopF fuel min l ts1
    | none => none

/-- Left-associative fold of the operators the climbing level admits. -/
def parseLoopF : Nat → Nat → Expr → List Tok → Option (Expr × List Tok)
  | 0, _, _, _ => none
  | fuel + 1, min, acc, ts =>
    match ts with
    | .op o :: ts' =>
      if min ≤ o.prec then
        match parseBinF fuel (o.prec + 1) ts' with
        | some (r, ts2) => parseLoopF fuel min (.binary o acc r) ts2
        | none => none
      else some (acc, ts)
    | _ => some (acc, ts)

/-- Comma-separated list elements, accepting one optional trailing comma
directly before the closing bracket. -/
def parseElemsF : Nat → List Tok → Option (ExprList × List Tok)
  | 0, _ => none
  | fuel + 1, ts =>
    match parseBinF fuel 0 ts with
    | none => none
    | some (e, rest) =>
      match rest with
      | .comma :: ts' =>
        if startsRbrk ts' then some (.cons e .nil, ts')
        else
          match parseElemsF fuel ts' with
          | some (es, r) => some (.cons e es, r)
          | none => none
      | _ => some (.cons e .nil, rest)
end

/-- The token parser at its canonical fuel: a parse succeeds when the whole
token list is one expression. -/
def parseToks (ts : List Tok) : Option Expr :=
  match parseBinF (4 * ts.length + 5) 0 ts with
  | some (e, []) => some e
  | _ => none

/-- Modelled from the spec: a parse failure's diagnostic — message and
position. -/
structure ParseError where
  message : String
  position : Nat
deriving DecidableEq, Repr

/-- Modelled from the spec: the external parser — lex then parse, with a
diagnostic on failure. -/
def parseCel (source : String) : Except ParseError Expr :=
  match lex source.toList with
  | none => .error ⟨"unrecognized character", 0⟩
  | some ts =>
    match parseToks ts with
    | some e => .ok e
    | none => .error ⟨"syntax error", 0⟩

/-- Modelled from the spec: the formatter facade — invoke the external
parser, propagate its failure unmodified, otherwise drive the layout
engine from indent depth 0. -/
def format_with_options (source : String) (o : FormatOptions) : Except ParseError String :=
  match parseCel source with
  | .error err => .error err
  | .ok e => .ok (renderText o e)

/-- Identifier character lists: a leading alphabetic (or underscore)
character followed by identifier characters. -/
def validIdentChars : List Char → Bool
  | [] => false
  | c :: cs => isAlphaC c && cs.all isIdentC

/-- A valid identifier: well-formed characters and not the keyword `in`. -/
def validIdent (s : String) : Bool := validIdentChars s.toList && !(s == "in")

mutual
/-- Well-formedness of an expression for the round-trip theorems: every
identifier in it is lexically valid. -/
def Expr.valid : Expr → Bool
  | .lit _ => true
  | .ident s => validIdent s
  | .binary _ l r => l.valid && r.valid
  | .listE es => es.valid
termination_by structural e => e

/-- Well-formedness of a list of element expressions. -/
def ExprList.valid : ExprList → Bool
  | .nil => true
  | .cons e es => e.valid && es.valid
termination_by structural es => es
end

/-- Wrap a token stream in parentheses when the flag says so. -/
def parenWrap (b : Bool) (W : List Tok) : List Tok :=
  if b then .lpar :: W ++ [.rpar] else W

mutual
/-- The token stream of the canonical single-line form of an expression. -/
def toks : Expr → List Tok
  | .lit n => [.num n]
  | .ident s => [.id s]
  | .binary op l r =>
      parenWrap (needs_parens l op .left) (toks l) ++
        .op op :: parenWrap (needs_parens r op .right) (toks r)
  | .listE es => .lbrk :: toksElems es ++ [.rbrk]
termination_by structural e => e

/-- The token stream of comma-separated single-line list elements. -/
def toksElems : ExprList → List Tok
  | .nil => []
  | .cons e .nil => toks e
  | .cons e es => toks e ++ .comma :: toksElems es
termination_by structural es => es
end

mutual
/-- Token streams an expression may render to: the single-line and the
broken layout agree except that a broken list may carry one trailing comma
before its closing bracket, so the relation admits both. -/
inductive TokensOf : Expr → List Tok → Prop where
  | lit (n : Nat) : TokensOf (.lit n) [.num n]
  | ident (s : String) : TokensOf (.ident s) [.id s]
  | binary (op : BinOp) (l r : Expr) (Wl Wr : List Tok) :
      TokensOf l Wl → TokensOf r Wr →
      TokensOf (.binary op l r)
        (parenWrap (needs_parens l op .left) Wl ++
          .op op :: parenWrap (needs_parens r op .right) Wr)
  | list (es : ExprList) (W : List Tok) :
      TokensOfElems es W → TokensOf (.listE es) (.lbrk :: W ++ [.rbrk])

/-- Token streams of a sequence of list elements: comma-separated, with an
optional single trailing comma after the last element. -/
inductive TokensOfElems : ExprList → List Tok → Prop where
  | nil : TokensOfElems .nil []
  | single (e : Expr) (W : List Tok) : TokensOf e W → TokensOfElems (.cons e .nil) W
  | singleTrail (e : Expr) (W : List Tok) :
      TokensOf e W → TokensOfElems (.cons e .nil) (W ++ [.comma])
  | cons (e : Expr) (es : ExprList) (W W' : List Tok) :
      TokensOf e W → TokensOfElems es W' → es ≠ .nil →
      TokensOfElems (.cons e es) (W ++ .comma :: W')
end

/-- The climbing loop stops on this continuation: it does not begin with an
operator the level still admits. -/
def Stops (min : Nat) (ts : List Tok) : Prop :=
  match ts with
  | .op o :: _ => o.prec < min
  | _ => True

/-- Stop condition the round-trip lemma threads for a rendered expression:
nothing may extend the expression's own top-level operator chain. -/
def StopsFor (e : Expr) (ts : List Tok) : Prop :=
  match e with
  | .binary op _ _ => Stops (op.prec + 1) ts
  | _ => True

/-- The atom parser converges to a result at some fuel. -/
def PA (ts : List Tok) (r : Expr × List Tok) : Prop :=
  ∃ f, parseAtomF f ts = some r

/-- The climbing parser converges to a result at some fuel. -/
def PB (min : Nat) (ts : List Tok) (r : Expr × List Tok) : Prop :=
  ∃ f, parseBinF f min ts = some r

/-- The climbing loop converges to a result at some fuel. -/
def PL (min : Nat) (acc : Expr) (ts : List Tok) (r : Expr × List Tok) : Prop :=
  ∃ f, parseLoopF f min acc ts = some r

/-- The element parser converges to a result at some fuel. -/
def PE (ts : List Tok) (r : ExprList × List Tok) : Prop :=
  ∃ f, parseElemsF f ts = some r

/-- Token lists that begin like an atom: a literal, an identifier, an
opening parenthesis or an opening bracket. -/
def StartsAtom : List Tok → Prop
  | .num _ :: _ => True
  | .id _ :: _ => True
  | .lpar :: _ => True
  | .lbrk :: _ => True
  | _ => False

/-- Token lists that begin with an operator token. -/
def startsOp : List Tok → Bool
  | .op _ :: _ => true
  | _ => false

/-- A continuation is a clean token boundary when it does not begin with an
identifier character (so trailing numbers and identifiers cannot merge). -/
def SepOK (s : List Char) : Prop := ∀ c, s.head? = some c → isIdentC c = false

/-- The character stream of the continuation lines of a block: each line is
preceded by a newline and consists of its indentation then its content. -/
def flattenT (o : FormatOptions) : List Line → List Char
  | [] => []
  | (d, str) :: ls => '\n' :: ((indentText o d).toList ++ str.toList ++ flattenT o ls)

/-- The character stream of a block of lines: the first line is its indentation
followed by its content, and subsequent lines are preceded by a newline. -/
def flattenL (o : FormatOptions) : List Line → List Char
  | [] => []
  | (d, str) :: ls => (indentText o d).toList ++ str.toList ++ flattenT o ls

/-- Tokens that carry only lexically valid payloads: an identifier token
holds a valid identifier; every other token is unconstrained. -/
def TokValid : Tok → Bool
  | .id w => validIdent w
  | _ => true

/-- No newline occurs among these characters. -/
def noNL (cs : List Char) : Bool := cs.all (fun c => !(c == '\n'))

/-- The final character (if any) is neither whitespace nor a comma: the
shape of the last character of a rendered expression. -/
def lastOK (cs : List Char) : Bool :=
  match cs.getLast? with
  | some c => !(c == '\n') && !(c == ' ') && !(c == '\t') && !(c == ',')
  | none => true

/-- The final character (if any) is not whitespace (a comma is allowed):
the shape of the last character of any emitted line's content. -/
def softLastOK (cs : List Char) : Bool :=
  match cs.getLast? with
  | some c => !(c == '\n') && !(c == ' ') && !(c == '\t')
  | none => true

/-- A well-shaped output line content: nonempty, newline-free, and not
ending in whitespace. -/
def GoodLine (l : Line) : Prop :=
  l.2.toList ≠ [] ∧ noNL l.2.toList = true ∧ softLastOK l.2.toList = true

/-- A three-element literal list, the shape the trailing-comma contract is
stated over. -/
def threeList (a b c : Expr) : ExprList := .cons a (.cons b (.cons c .nil))

mutual
/-- Formalization of the claim's proviso that a legal break point exists
wherever one is needed: mirrors the layout engine's break policy and
requires exactly its unbreakable units — atoms and brackets — to fit in
the slots the engine gives them. -/
def atomsFit (o : FormatOptions) (d pre suf : Nat) : Expr → Bool
  | .lit n => decide (d * o.indentWidth + (renderNat n).length + pre + suf ≤ o.maxWidth)
  | .ident s => decide (d * o.indentWidth + s.length + pre + suf ≤ o.maxWidth)
  | .binary op l r =>
      decide (d * o.indentWidth + (renderSL (.binary op l r)).length + pre + suf
        ≤ o.maxWidth) ||
      ((if needs_parens l op .left then atomsFit o d (pre + 1) (op.str.length + 2) l
        else atomsFit o d pre (op.str.length + 1) l) &&
       (if needs_parens r op .right then atomsFit o (d + 1) 1 (suf + 1) r
        else atomsFit o (d + 1) 0 suf r))
  | .listE es =>
      decide (d * o.indentWidth + (renderSL (.listE es)).length + pre + suf
        ≤ o.maxWidth) ||
      (decide (d * o.indentWidth + 1 + pre ≤ o.maxWidth) &&
       decide (d * o.indentWidth + 1 + suf ≤ o.maxWidth) &&
       atomsFitElems o (d + 1) es)
termination_by structural e => e

/-- Element-list side of `atomsFit`: the slots mirror the one-per-line
policy, including the comma reserve. -/
def atomsFitElems (o : FormatOptions) (d : Nat) : ExprList → Bool
  | .nil => true
  | .cons e .nil =>
      if o.trailingComma then atomsFit o d 0 1 e else atomsFit o d 0 0 e
  | .cons e es => atomsFit o d 0 1 e && atomsFitElems o d es
termination_by structural es => es
end

/-- Per-line width bounds of a block: the first line carries the parent's
prefix reserve, the last line the suffix reserve, interior lines none. -/
def BoundsOK (o : FormatOptions) (pre suf : Nat) : List Line → Prop
  | [] => True
  | l :: rest =>
      l.1 * o.indentWidth + l.2.length + pre + (if rest = [] then suf else 0)
        ≤ o.maxWidth ∧
      BoundsOK o 0 suf rest

/-- JavaScript `String.prototype.trim`: remove leading and trailing
whitespace. -/
def jsTrim (s : String) : String :=
  ⟨(((s.toList.dropWhile isWsC).reverse.dropWhile isWsC).reverse)⟩

/-- JavaScript `parseInt` at radix 10: skip leading whitespace, accept an
optional sign, read a leading run of decimal digits; `none` models `NaN`. -/
def jsParseInt (s : String) : Option Int :=
  match s.toList.dropWhile isWsC with
  | '-' :: rest =>
    let ds := rest.takeWhile isDigitC
    if ds.isEmpty then none else some (-(readNat ds : Int))
  | '+' :: rest =>
    let ds := rest.takeWhile isDigitC
    if ds.isEmpty then none else some (readNat ds : Int)
  | rest =>
    let ds := rest.takeWhile isDigitC
    if ds.isEmpty then none else some (readNat ds : Int)

/-- JavaScript `x || d` over a possibly-NaN number: the default replaces
`NaN` and `0`, the only falsy values `parseInt` can produce. -/
def jsOrDefault (v : Option Int) (d : Int) : Int :=
  match v with
  | none => d
  | some n => if n = 0 then d else n

/-- Modelled from the spec: the `useTabs` checkbox ships unchecked — the
HTML carrying the control's initial state is not in the tree. -/
def defaultUseTabs : Bool := false

/-- Modelled from the spec: the `trailingComma` checkbox ships checked —
the HTML carrying the control's initial state is not in the tree. -/
def defaultTrailingComma : Bool := true

/-- The DOM state `formatCode` reads and writes: the input, output, error
and configuration elements, plus the module-level `wasmReady` flag. -/
structure UIState where
  inputValue : String
  outputValue : String
  errorText : String
  errorVisible : Bool
  wasmReady : Bool
  maxWidthValue : String
  indentWidthValue : String
  useTabsChecked : Bool
  trailingCommaChecked : Bool
deriving DecidableEq, Repr

/-- `showError` from `docs/app.js`: set the error text and unhide it. -/
def showError (st : UIState) (message : String) : UIState :=
  { st with errorText := message, errorVisible := true }

/-- `hideError` from `docs/app.js`: hide the error element. -/
def hideError (st : UIState) : UIState :=
  { st with errorVisible := false }

/-- The effective `maxWidth` the UI passes to the formatter
(`parseInt(maxWidthInput.value) || 80`). -/
def effectiveMaxWidth (s : String) : Int := jsOrDefault (jsParseInt s) 80

/-- The effective `indentWidth` the UI passes to the formatter
(`parseInt(indentWidthInput.value) || 2`). -/
def effectiveIndentWidth (s : String) : Int := jsOrDefault (jsParseInt s) 2

/-- `formatCode` from `docs/app.js`, with the WASM export
`format_with_options` abstracted as `fmt` (a thrown error is an `Except`
error carrying `err.toString()`). -/
def formatCode (fmt : String → Int → Int → Bool → Bool → Except String String)
    (st : UIState) : UIState :=
  if !st.wasmReady then showError st "Formatter is still loading, please wait..."
  else
    let source := jsTrim st.inputValue
    if source = "" then hideError { st with outputValue := "" }
    else
      let maxWidth := effectiveMaxWidth st.maxWidthValue
      let indentWidth := effectiveIndentWidth st.indentWidthValue
      let useTabs := st.useTabsChecked
      let trailingComma := st.trailingCommaChecked
      match fmt source maxWidth indentWidth useTabs trailingComma with
      | .ok formatted => hideError { st with outputValue := formatted }
      | .error err => { showError st err with outputValue := "" }

/-- The single-line form of a binary node is its two operands rendered in
their slots around the spaced operator. -/
theorem renderSL_binary (op : BinOp) (l r : Expr) :
    renderSL (.binary op l r) =
      renderOperand l op .left ++ " " ++ op.str ++ " " ++ renderOperand r op .right := by
  rw [renderSL, renderOperand, renderOperand]

theorem ident_false_of_ws {c : Char} (h : isWsC c = true) : isIdentC c = false := by
  simp [isWsC] at h
  simp [isIdentC, isAlphaC, isDigitC]
  omega

theorem ws_false_of_digit {c : Char} (h : isDigitC c = true) : isWsC c = false := by
  simp [isDigitC] at h
  simp [isWsC]
  omega

theorem ws_false_of_alpha {c : Char} (h : isAlphaC c = true) : isWsC c = false := by
  simp [isAlphaC] at h
  simp [isWsC]
  omega

theorem digit_false_of_alpha {c : Char} (h : isAlphaC c = true) : isDigitC c = false := by
  simp [isAlphaC] at h
  simp [isDigitC]
  omega

theorem digit_false_of_not_ident {c : Char} (h : isIdentC c = false) : isDigitC c = false := by
  simp [isIdentC] at h
  exact h.2

theorem ident_true_of_digit {c : Char} (h : isDigitC c = true) : isIdentC c = true := by
  simp [isIdentC]
  exact Or.inr h

theorem ident_true_of_alpha {c : Char} (h : isAlphaC c = true) : isIdentC c = true := by
  simp [isIdentC]
  exact Or.inl h

theorem parseF_mono :
    ∀ f g, f ≤ g →
      (∀ ts r, parseAtomF f ts = some r → parseAtomF g ts = some r) ∧
      (∀ min ts r, parseBinF f min ts = some r → parseBinF g min ts = some r) ∧
      (∀ min acc ts r, parseLoopF f min acc ts = some r → parseLoopF g min acc ts = some r) ∧
      (∀ ts r, parseElemsF f ts = some r → parseElemsF g ts = some r) := by
  intro f
  induction f with
  | zero =>
    intro g hg
    exact ⟨fun ts r h => by simp [parseAtomF] at h,
           fun min ts r h => by simp [parseBinF] at h,
           fun min acc ts r h => by simp [parseLoopF] at h,
           fun ts r h => by simp [parseElemsF] at h⟩
  | succ f ih =>
    intro g hg
    obtain ⟨g', rfl⟩ : ∃ g', g = g' + 1 := ⟨g - 1, by omega⟩
    obtain ⟨ihA, ihB, ihL, ihE⟩ := ih g' (by omega)
    have stepA : ∀ ts r, parseAtomF (f + 1) ts = some r → parseAtomF (g' + 1) ts = some r := by
      intro ts r h
      rcases ts with _ | ⟨t, ts'⟩
      · simp [parseAtomF] at h
      · cases t with
        | num n => simpa [parseAtomF] using h
        | id s => simpa [parseAtomF] using h
        | op o => simp [parseAtomF] at h
        | rpar => simp [parseAtomF] at h
        | rbrk => simp [parseAtomF] at h
        | comma => simp [parseAtomF] at h
        | lpar =>
          rw [parseAtomF] at h ⊢
          cases hb : parseBinF f 0 ts' with
          | none => rw [hb] at h; exact absurd h (by simp)
          | some pr =>
            rw [hb] at h
            rw [ihB _ _ _ hb]
            exact h
        | lbrk =>
          rw [parseAtomF] at h ⊢
          by_cases hsr : startsRbrk ts'
          · rw [if_pos hsr] at h ⊢
            exact h
          · rw [if_neg hsr] at h ⊢
            cases he : parseElemsF f ts' with
            | none => rw [he] at h; exact absurd h (by simp)
            | some pr2 =>
              rw [he] at h
              rw [ihE _ _ he]
              exact h
    have stepB : ∀ min ts r, parseBinF (f + 1) min ts = some r →
        parseBinF (g' + 1) min ts = some r := by
      intro min ts r h
      rw [parseBinF] at h ⊢
      cases ha : parseAtomF f ts with
      | none => rw [ha] at h; exact absurd h (by simp)
      | some pr =>
        rw [ha] at h
        rw [ihA _ _ ha]
        obtain ⟨l, ts1⟩ := pr
        exact ihL _ _ _ _ h
    have stepL : ∀ min acc ts r, parseLoopF (f + 1) min acc ts = some r →
        parseLoopF (g' + 1) min acc ts = some r := by
      intro min acc ts r h
      rcases ts with _ | ⟨t, ts'⟩
      · simpa [parseLoopF] using h
      · cases t with
        | op o =>
          rw [parseLoopF] at h ⊢
          by_cases hp : min ≤ o.prec
          · rw [if_pos hp] at h ⊢
            cases hb : parseBinF f (o.prec + 1) ts' with
            | none => rw [hb] at h; exact absurd h (by simp)
            | some pr =>
              rw [hb] at h
              rw [ihB _ _ _ hb]
              obtain ⟨rr, ts2⟩ := pr
              exact ihL _ _ _ _ h
          · rw [if_neg hp] at h ⊢
            exact h
        | num n => simpa [parseLoopF] using h
        | id s => simpa [parseLoopF] using h
        | lpar => simpa [parseLoopF] using h
        | rpar => simpa [parseLoopF] using h
        | lbrk => simpa [parseLoopF] using h
        | rbrk => simpa [parseLoopF] using h
        | comma => simpa [parseLoopF] using h
    have stepE : ∀ ts r, parseElemsF (f + 1) ts = some r → parseElemsF (g' + 1) ts = some r := by
      intro ts r h
      rw [parseElemsF] at h ⊢
      cases hb : parseBinF f 0 ts with
      | none => rw [hb] at h; exact absurd h (by simp)
      | some pr =>
        obtain ⟨e, rest⟩ := pr
        rw [hb] at h
        rw [ihB _ _ _ hb]
        rcases rest with _ | ⟨t3, ts3⟩
        · exact h
        · cases t3 with
          | comma =>
            have h2 : (if startsRbrk ts3 then some (ExprList.cons e .nil, ts3)
                else
                  match parseElemsF f ts3 with
                  | some (es, rr) => some (.cons e es, rr)
                  | none => none) = some r := h
            show (if startsRbrk ts3 then some (ExprList.cons e .nil, ts3)
                else
                  match parseElemsF g' ts3 with
                  | some (es, rr) => some (.cons e es, rr)
                  | none => none) = some r
            by_cases hsr : startsRbrk ts3
            · rw [if_pos hsr] at h2 ⊢
              exact h2
            · rw [if_neg hsr] at h2 ⊢
              cases he : parseElemsF f ts3 with
              | none => rw [he] at h2; exact absurd h2 (by simp)
              | some pr2 =>
                rw [he] at h2
                rw [ihE _ _ he]
                exact h2
          | num n => exact h
          | id s2 => exact h
          | op o2 => exact h
          | lpar => exact h
          | rpar => exact h
          | lbrk => exact h
          | rbrk => exact h
    exact ⟨stepA, stepB, stepL, stepE⟩

theorem startsAtom_append {W X : List Tok} (h : StartsAtom W) : StartsAtom (W ++ X) := by
  rcases W with _ | ⟨t, W'⟩
  · exact absurd h (by simp [StartsAtom])
  · cases t <;> simpa [StartsAtom] using h

theorem startsAtom_not_rbrk {W : List Tok} (h : StartsAtom W) : startsRbrk W = false := by
  rcases W with _ | ⟨t, W'⟩
  · rfl
  · cases t <;> first | rfl | exact absurd h (by simp [StartsAtom])

theorem tokensOf_startsAtom {e : Expr} {W : List Tok} (h : TokensOf e W) : StartsAtom W := by
  cases h with
  | lit n => trivial
  | ident s => trivial
  | binary op l r Wl Wr hl hr =>
    have hWl := tokensOf_startsAtom hl
    rw [parenWrap]
    by_cases hb : needs_parens l op .left
    · rw [if_pos hb]
      trivial
    · rw [if_neg hb]
      exact startsAtom_append hWl
  | list es W he => trivial

theorem stops_mono {m m' : Nat} {ts : List Tok} (h : Stops m ts) (hle : m ≤ m') : Stops m' ts := by
  rcases ts with _ | ⟨t, ts'⟩
  · trivial
  · cases t <;> simp [Stops] at h ⊢ <;> omega

theorem stops_nonop {m : Nat} {ts : List Tok} (h : startsOp ts = false) : Stops m ts := by
  rcases ts with _ | ⟨t, ts'⟩
  · trivial
  · cases t <;> first | trivial | simp [startsOp] at h

theorem stopsFor_of_stops {e : Expr} {m : Nat} {ts : List Tok}
    (hs : Stops m ts) (hm : m ≤ e.prec + 1) : StopsFor e ts := by
  cases e with
  | binary op l r =>
    have : op.prec + 1 = Expr.prec (.binary op l r) + 1 := rfl
    exact stops_mono hs (by rw [this]; omega)
  | lit n => trivial
  | ident s => trivial
  | listE es => trivial

theorem stopsFor_nonop {e : Expr} {ts : List Tok} (h : startsOp ts = false) : StopsFor e ts :=
  stopsFor_of_stops (stops_nonop (m := 0) h) (by omega)

theorem stopsFor_op_le {e : Expr} {o : BinOp} {ts : List Tok} (h : o.prec ≤ e.prec) :
    StopsFor e (.op o :: ts) := by
  cases e with
  | binary op l r =>
    simp only [Expr.prec] at h
    simp only [StopsFor, Stops]
    omega
  | lit n => trivial
  | ident s => trivial
  | listE es => trivial

theorem not_needs_parens_left {l : Expr} {op : BinOp}
    (h : ¬needs_parens l op .left = true) : op.prec ≤ l.prec := by
  simp [needs_parens, BinOp.assoc] at h
  omega

theorem not_needs_parens_right {r : Expr} {op : BinOp}
    (h : ¬needs_parens r op .right = true) : op.prec + 1 ≤ r.prec := by
  simp [needs_parens, BinOp.assoc] at h
  omega

theorem PL_stop {min : Nat} {acc : Expr} {ts : List Tok} (h : Stops min ts) :
    PL min acc ts (acc, ts) := by
  refine ⟨1, ?_⟩
  rcases ts with _ | ⟨t, ts'⟩
  · rfl
  · cases t with
    | op o =>
      simp only [Stops] at h
      rw [parseLoopF, if_neg (by omega)]
    | num n => rfl
    | id s => rfl
    | lpar => rfl
    | rpar => rfl
    | lbrk => rfl
    | rbrk => rfl
    | comma => rfl

theorem PB_step {min : Nat} {ts ts1 : List Tok} {l : Expr} {v : Expr × List Tok}
    (ha : PA ts (l, ts1)) (hl : PL min l ts1 v) : PB min ts v := by
  obtain ⟨f1, ha⟩ := ha
  obtain ⟨f2, hl⟩ := hl
  refine ⟨f1 + f2 + 1, ?_⟩
  rw [parseBinF, (parseF_mono f1 (f1 + f2) (by omega)).1 _ _ ha]
  exact (parseF_mono f2 (f1 + f2) (by omega)).2.2.1 _ _ _ _ hl

theorem PL_opstep {min : Nat} {o : BinOp} {ts' ts2 : List Tok} {acc r : Expr}
    {v : Expr × List Tok} (hp : min ≤ o.prec) (hb : PB (o.prec + 1) ts' (r, ts2))
    (hl : PL min (.binary o acc r) ts2 v) : PL min acc (.op o :: ts') v := by
  obtain ⟨f1, hb⟩ := hb
  obtain ⟨f2, hl⟩ := hl
  refine ⟨f1 + f2 + 1, ?_⟩
  rw [parseLoopF, if_pos hp, (parseF_mono f1 (f1 + f2) (by omega)).2.1 _ _ _ hb]
  exact (parseF_mono f2 (f1 + f2) (by omega)).2.2.1 _ _ _ _ hl

theorem PA_num (n : Nat) (ts : List Tok) : PA (.num n :: ts) (.lit n, ts) := ⟨1, rfl⟩

theorem PA_id (s : String) (ts : List Tok) : PA (.id s :: ts) (.ident s, ts) := ⟨1, rfl⟩

theorem PA_paren {ts' ts'' : List Tok} {e : Expr} (hb : PB 0 ts' (e, .rpar :: ts'')) :
    PA (.lpar :: ts') (e, ts'') := by
  obtain ⟨f, hb⟩ := hb
  exact ⟨f + 1, by rw [parseAtomF, hb]⟩

theorem PA_listNil (ts'' : List Tok) : PA (.lbrk :: .rbrk :: ts'') (.listE .nil, ts'') := ⟨1, rfl⟩

theorem PA_list {ts' ts'' : List Tok} {es : ExprList} (hsr : startsRbrk ts' = false)
    (he : PE ts' (es, .rbrk :: ts'')) : PA (.lbrk :: ts') (.listE es, ts'') := by
  obtain ⟨f, he⟩ := he
  refine ⟨f + 1, ?_⟩
  rw [parseAtomF, if_neg (by simp [hsr]), he]

theorem PE_last {ts rest : List Tok} {e : Expr} (hb : PB 0 ts (e, rest))
    (hnc : ∀ ts', rest ≠ .comma :: ts') : PE ts (.cons e .nil, rest) := by
  obtain ⟨f, hb⟩ := hb
  refine ⟨f + 1, ?_⟩
  rw [parseElemsF, hb]
  rcases rest with _ | ⟨t, rest'⟩
  · rfl
  · cases t with
    | comma => exact absurd rfl (hnc rest')
    | num n => rfl
    | id s => rfl
    | op o => rfl
    | lpar => rfl
    | rpar => rfl
    | lbrk => rfl
    | rbrk => rfl

theorem PE_trail {ts ts' : List Tok} {e : Expr} (hb : PB 0 ts (e, .comma :: ts'))
    (hsr : startsRbrk ts' = true) : PE ts (.cons e .nil, ts') := by
  obtain ⟨f, hb⟩ := hb
  refine ⟨f + 1, ?_⟩
  rw [parseElemsF, hb]
  show (if startsRbrk ts' then some (ExprList.cons e .nil, ts')
      else
        match parseElemsF f ts' with
        | some (es, r) => some (.cons e es, r)
        | none => none) = some (ExprList.cons e .nil, ts')
  rw [if_pos hsr]

theorem PE_cons {ts ts' rest : List Tok} {e : Expr} {es' : ExprList}
    (hb : PB 0 ts (e, .comma :: ts')) (hsr : startsRbrk ts' = false)
    (he : PE ts' (es', rest)) : PE ts (.cons e es', rest) := by
  obtain ⟨f1, hb⟩ := hb
  obtain ⟨f2, he⟩ := he
  refine ⟨f1 + f2 + 1, ?_⟩
  rw [parseElemsF, (parseF_mono f1 (f1 + f2) (by omega)).2.1 _ _ _ hb]
  show (if startsRbrk ts' then some (ExprList.cons e .nil, ts')
      else
        match parseElemsF (f1 + f2) ts' with
        | some (es, r) => some (.cons e es, r)
        | none => none) = some (ExprList.cons e es', rest)
  rw [if_neg (by simp [hsr]), (parseF_mono f2 (f1 + f2) (by omega)).2.2.2 _ _ he]

theorem parseF_consume :
    ∀ f,
      (∀ ts e rest, parseAtomF f ts = some (e, rest) → rest.length < ts.length) ∧
      (∀ min ts r, parseBinF f min ts = some r → r.2.length < ts.length) ∧
      (∀ min acc ts r, parseLoopF f min acc ts = some r → r.2.length ≤ ts.length) ∧
      (∀ ts r, parseElemsF f ts = some r → r.2.length < ts.length) := by
  intro f
  induction f with
  | zero =>
    exact ⟨fun ts e rest h => by simp [parseAtomF] at h,
           fun min ts r h => by simp [parseBinF] at h,
           fun min acc ts r h => by simp [parseLoopF] at h,
           fun ts r h => by simp [parseElemsF] at h⟩
  | succ f ih =>
    obtain ⟨ihA, ihB, ihL, ihE⟩ := ih
    have stepA : ∀ ts e rest, parseAtomF (f + 1) ts = some (e, rest) →
        rest.length < ts.length := by
      intro ts e rest h
      rcases ts with _ | ⟨t, ts'⟩
      · simp [parseAtomF] at h
      · cases t with
        | num n =>
          rw [parseAtomF] at h
          cases h
          simp
        | id s =>
          rw [parseAtomF] at h
          cases h
          simp
        | op o => simp [parseAtomF] at h
        | rpar => simp [parseAtomF] at h
        | rbrk => simp [parseAtomF] at h
        | comma => simp [parseAtomF] at h
        | lpar =>
          rw [parseAtomF] at h
          cases hb : parseBinF f 0 ts' with
          | none => rw [hb] at h; exact absurd h (by simp)
          | some pr =>
            obtain ⟨e2, rest2⟩ := pr
            rw [hb] at h
            have hlen := ihB _ _ _ hb
            rcases rest2 with _ | ⟨t2, rest3⟩
            · exact absurd h (by simp)
            · cases t2 with
              | rpar =>
                cases h
                simp at hlen ⊢
                omega
              | num n => exact absurd h (by simp)
              | id s => exact absurd h (by simp)
              | op o => exact absurd h (by simp)
              | lpar => exact absurd h (by simp)
              | lbrk => exact absurd h (by simp)
              | rbrk => exact absurd h (by simp)
              | comma => exact absurd h (by simp)
        | lbrk =>
          rw [parseAtomF] at h
          by_cases hsr : startsRbrk ts'
          · rw [if_pos hsr] at h
            cases h
            rcases ts' with _ | ⟨t2, ts''⟩
            · simp [startsRbrk] at hsr
            · simp [List.tail]
              omega
          · rw [if_neg hsr] at h
            cases he : parseElemsF f ts' with
            | none => rw [he] at h; exact absurd h (by simp)
            | some pr =>
              obtain ⟨es2, rest2⟩ := pr
              rw [he] at h
              have hlen := ihE _ _ he
              rcases rest2 with _ | ⟨t2, rest3⟩
              · exact absurd h (by simp)
              · cases t2 with
                | rbrk =>
                  cases h
                  simp at hlen ⊢
                  omega
                | num n => exact absurd h (by simp)
                | id s => exact absurd h (by simp)
                | op o => exact absurd h (by simp)
                | lpar => exact absurd h (by simp)
                | lbrk => exact absurd h (by simp)
                | rpar => exact absurd h (by simp)
                | comma => exact absurd h (by simp)
    have stepB : ∀ min ts r, parseBinF (f + 1) min ts = some r → r.2.length < ts.length := by
      intro min ts r h
      rw [parseBinF] at h
      cases ha : parseAtomF f ts with
      | none => rw [ha] at h; exact absurd h (by simp)
      | some pr =>
        obtain ⟨l, ts1⟩ := pr
        rw [ha] at h
        have h1 := ihA _ _ _ ha
        have h2 := ihL _ _ _ _ h
        omega
    have stepL : ∀ min acc ts r, parseLoopF (f + 1) min acc ts = some r →
        r.2.length ≤ ts.length := by
      intro min acc ts r h
      rcases ts with _ | ⟨t, ts'⟩
      · have h2 : some ((acc, ([] : List Tok))) = some r := h
        cases h2
        simp
      · cases t with
        | op o =>
          rw [parseLoopF] at h
          by_cases hp : min ≤ o.prec
          · rw [if_pos hp] at h
            cases hb : parseBinF f (o.prec + 1) ts' with
            | none => rw [hb] at h; exact absurd h (by simp)
            | some pr =>
              obtain ⟨rr, ts2⟩ := pr
              rw [hb] at h
              have h1 := ihB _ _ _ hb
              have h2 := ihL _ _ _ _ h
              simp at h1 ⊢
              omega
          · rw [if_neg hp] at h
            cases h
            exact Nat.le_refl _
        | num n =>
          have h2 : some ((acc, Tok.num n :: ts')) = some r := h
          cases h2
          exact Nat.le_refl _
        | id s =>
          have h2 : some ((acc, Tok.id s :: ts')) = some r := h
          cases h2
          exact Nat.le_refl _
        | lpar =>
          have h2 : some ((acc, Tok.lpar :: ts')) = some r := h
          cases h2
          exact Nat.le_refl _
        | rpar =>
          have h2 : some ((acc, Tok.rpar :: ts')) = some r := h
          cases h2
          exact Nat.le_refl _
        | lbrk =>
          have h2 : some ((acc, Tok.lbrk :: ts')) = some r := h
          cases h2
          exact Nat.le_refl _
        | rbrk =>
          have h2 : some ((acc, Tok.rbrk :: ts')) = some r := h
          cases h2
          exact Nat.le_refl _
        | comma =>
          have h2 : some ((acc, Tok.comma :: ts')) = some r := h
          cases h2
          exact Nat.le_refl _
    have stepE : ∀ ts r, parseElemsF (f + 1) ts = some r → r.2.length < ts.length := by
      intro ts r h
      rw [parseElemsF] at h
      cases hb : parseBinF f 0 ts with
      | none => rw [hb] at h; exact absurd h (by simp)
      | some pr =>
        obtain ⟨e, rest⟩ := pr
        rw [hb] at h
        have h1 := ihB _ _ _ hb
        rcases rest with _ | ⟨t3, ts3⟩
        · cases h; simpa using h1
        · cases t3 with
          | comma =>
            have h2 : (if startsRbrk ts3 then some (ExprList.cons e .nil, ts3)
                else
                  match parseElemsF f ts3 with
                  | some (es, rr) => some (.cons e es, rr)
                  | none => none) = some r := h
            simp only [List.length_cons] at h1
            by_cases hsr : startsRbrk ts3
            · rw [if_pos hsr] at h2
              cases h2
              simp
              omega
            · rw [if_neg hsr] at h2
              cases he : parseElemsF f ts3 with
              | none => rw [he] at h2; exact absurd h2 (by simp)
              | some pr2 =>
                obtain ⟨es2, rest2⟩ := pr2
                rw [he] at h2
                have h3 := ihE _ _ he
                cases h2
                simp at h3 ⊢
                omega
          | num n => cases h; simpa using h1
          | id s2 => cases h; simpa using h1
          | op o2 => cases h; simpa using h1
          | lpar => cases h; simpa using h1
          | rpar => cases h; simpa using h1
          | lbrk => cases h; simpa using h1
          | rbrk => cases h; simpa using h1
    exact ⟨stepA, stepB, stepL, stepE⟩

theorem parseF_norm :
    ∀ f,
      (∀ ts r, parseAtomF f ts = some r →
        ∀ g, 4 * ts.length + 2 ≤ g → parseAtomF g ts = some r) ∧
      (∀ min ts r, parseBinF f min ts = some r →
        ∀ g, 4 * ts.length + 3 ≤ g → parseBinF g min ts = some r) ∧
      (∀ min acc ts r, parseLoopF f min acc ts = some r →
        ∀ g, 4 * ts.length + 4 ≤ g → parseLoopF g min acc ts = some r) ∧
      (∀ ts r, parseElemsF f ts = some r →
        ∀ g, 4 * ts.length + 4 ≤ g → parseElemsF g ts = some r) := by
  intro f
  induction f with
  | zero =>
    exact ⟨fun ts r h => by simp [parseAtomF] at h,
           fun min ts r h => by simp [parseBinF] at h,
           fun min acc ts r h => by simp [parseLoopF] at h,
           fun ts r h => by simp [parseElemsF] at h⟩
  | succ f ih =>
    obtain ⟨ihA, ihB, ihL, ihE⟩ := ih
    obtain ⟨hcA, hcB, hcL, hcE⟩ := parseF_consume f
    have stepA : ∀ ts r, parseAtomF (f + 1) ts = some r →
        ∀ g, 4 * ts.length + 2 ≤ g → parseAtomF g ts = some r := by
      intro ts r h g hg
      obtain ⟨g', rfl⟩ : ∃ g', g = g' + 1 := ⟨g - 1, by omega⟩
      rcases ts with _ | ⟨t, ts'⟩
      · simp [parseAtomF] at h
      · simp only [List.length_cons] at hg
        cases t with
        | num n =>
          have h2 : some ((Expr.lit n, ts')) = some r := h
          cases h2
          rfl
        | id s =>
          have h2 : some ((Expr.ident s, ts')) = some r := h
          cases h2
          rfl
        | op o => simp [parseAtomF] at h
        | rpar => simp [parseAtomF] at h
        | rbrk => simp [parseAtomF] at h
        | comma => simp [parseAtomF] at h
        | lpar =>
          rw [parseAtomF] at h ⊢
          cases hb : parseBinF f 0 ts' with
          | none => rw [hb] at h; exact absurd h (by simp)
          | some pr =>
            rw [hb] at h
            rw [ihB _ _ _ hb g' (by omega)]
            exact h
        | lbrk =>
          rw [parseAtomF] at h ⊢
          by_cases hsr : startsRbrk ts'
          · rw [if_pos hsr] at h ⊢
            exact h
          · rw [if_neg hsr] at h ⊢
            cases he : parseElemsF f ts' with
            | none => rw [he] at h; exact absurd h (by simp)
            | some pr2 =>
              rw [he] at h
              rw [ihE _ _ he g' (by omega)]
              exact h
    have stepB : ∀ min ts r, parseBinF (f + 1) min ts = some r →
        ∀ g, 4 * ts.length + 3 ≤ g → parseBinF g min ts = some r := by
      intro min ts r h g hg
      obtain ⟨g', rfl⟩ : ∃ g', g = g' + 1 := ⟨g - 1, by omega⟩
      rw [parseBinF] at h ⊢
      cases ha : parseAtomF f ts with
      | none => rw [ha] at h; exact absurd h (by simp)
      | some pr =>
        obtain ⟨l, ts1⟩ := pr
        rw [ha] at h
        rw [ihA _ _ ha g' (by omega)]
        have hlen : ts1.length < ts.length := hcA _ _ _ ha
        exact ihL _ _ _ _ h g' (by omega)
    have stepL : ∀ min acc ts r, parseLoopF (f + 1) min acc ts = some r →
        ∀ g, 4 * ts.length + 4 ≤ g → parseLoopF g min acc ts = some r := by
      intro min acc ts r h g hg
      obtain ⟨g', rfl⟩ : ∃ g', g = g' + 1 := ⟨g - 1, by omega⟩
      rcases ts with _ | ⟨t, ts'⟩
      · have h2 : some ((acc, ([] : List Tok))) = some r := h
        cases h2
        rfl
      · simp only [List.length_cons] at hg
        cases t with
        | op o =>
          rw [parseLoopF] at h ⊢
          by_cases hp : min ≤ o.prec
          · rw [if_pos hp] at h ⊢
            cases hb : parseBinF f (o.prec + 1) ts' with
            | none => rw [hb] at h; exact absurd h (by simp)
            | some pr =>
              obtain ⟨rr, ts2⟩ := pr
              rw [hb] at h
              rw [ihB _ _ _ hb g' (by omega)]
              have hlen : ts2.length < ts'.length := hcB _ _ _ hb
              exact ihL _ _ _ _ h g' (by omega)
          · rw [if_neg hp] at h ⊢
            exact h
        | num n =>
          have h2 : some ((acc, Tok.num n :: ts')) = some r := h
          cases h2
          rfl
        | id s =>
          have h2 : some ((acc, Tok.id s :: ts')) = some r := h
          cases h2
          rfl
        | lpar =>
          have h2 : some ((acc, Tok.lpar :: ts')) = some r := h
          cases h2
          rfl
        | rpar =>
          have h2 : some ((acc, Tok.rpar :: ts')) = some r := h
          cases h2
          rfl
        | lbrk =>
          have h2 : some ((acc, Tok.lbrk :: ts')) = some r := h
          cases h2
          rfl
        | rbrk =>
          have h2 : some ((acc, Tok.rbrk :: ts')) = some r := h
          cases h2
          rfl
        | comma =>
          have h2 : some ((acc, Tok.comma :: ts')) = some r := h
          cases h2
          rfl
    have stepE : ∀ ts r, parseElemsF (f + 1) ts = some r →
        ∀ g, 4 * ts.length + 4 ≤ g → parseElemsF g ts = some r := by
      intro ts r h g hg
      obtain ⟨g', rfl⟩ : ∃ g', g = g' + 1 := ⟨g - 1, by omega⟩
      rw [parseElemsF] at h ⊢
      cases hb : parseBinF f 0 ts with
      | none => rw [hb] at h; exact absurd h (by simp)
      | some pr =>
        obtain ⟨e, rest⟩ := pr
        rw [hb] at h
        rw [ihB _ _ _ hb g' (by omega)]
        have hlen : rest.length < ts.length := hcB _ _ _ hb
        rcases rest with _ | ⟨t3, ts3⟩
        · exact h
        · cases t3 with
          | comma =>
            have h2 : (if startsRbrk ts3 then some (ExprList.cons e .nil, ts3)
                else
                  match parseElemsF f ts3 with
                  | some (es, rr) => some (.cons e es, rr)
                  | none => none) = some r := h
            show (if startsRbrk ts3 then some (ExprList.cons e .nil, ts3)
                else
                  match parseElemsF g' ts3 with
                  | some (es, rr) => some (.cons e es, rr)
                  | none => none) = some r
            by_cases hsr : startsRbrk ts3
            · rw [if_pos hsr] at h2 ⊢
              exact h2
            · rw [if_neg hsr] at h2 ⊢
              cases he : parseElemsF f ts3 with
              | none => rw [he] at h2; exact absurd h2 (by simp)
              | some pr2 =>
                rw [he] at h2
                simp only [List.length_cons] at hlen
                rw [ihE _ _ he g' (by omega)]
                exact h2
          | num n => exact h
          | id s2 => exact h
          | op o2 => exact h
          | lpar => exact h
          | rpar => exact h
          | lbrk => exact h
          | rbrk => exact h
    exact ⟨stepA, stepB, stepL, stepE⟩

theorem paren_helper {e : Expr} {W : List Tok}
    (bare : ∀ min s v, min ≤ e.prec → StopsFor e s → PL min e s v → PB min (W ++ s) v) :
    ∀ (min : Nat) (s : List Tok) (v : Expr × List Tok),
      PL min e s v → PB min (.lpar :: (W ++ .rpar :: s)) v := by
  intro min s v hv
  have hb : PB 0 (W ++ .rpar :: s) (e, .rpar :: s) :=
    bare 0 _ _ (Nat.zero_le _) (by exact stopsFor_nonop rfl) (PL_stop (by exact stops_nonop rfl))
  exact PB_step (PA_paren hb) hv

mutual
theorem parse_tokensOf {e : Expr} {W : List Tok} (h : TokensOf e W) :
    ∀ min s v, min ≤ e.prec → StopsFor e s → PL min e s v → PB min (W ++ s) v := by
  cases h with
  | lit n =>
    intro min s v hmin hstop hv
    exact PB_step (PA_num n s) hv
  | ident st =>
    intro min s v hmin hstop hv
    exact PB_step (PA_id st s) hv
  | binary op l r Wl Wr hl hr =>
    intro min s v hmin hstop hv
    have hminp : min ≤ op.prec := hmin
    have hstop' : Stops (op.prec + 1) s := hstop
    have hrstream : PB (op.prec + 1) (parenWrap (needs_parens r op .right) Wr ++ s) (r, s) := by
      by_cases hbr : needs_parens r op .right = true
      · rw [parenWrap, if_pos hbr]
        have hres := paren_helper (parse_tokensOf hr) (op.prec + 1) s (r, s) (PL_stop hstop')
        simpa [List.append_assoc] using hres
      · rw [parenWrap, if_neg hbr]
        have hmr : op.prec + 1 ≤ r.prec := not_needs_parens_right hbr
        exact parse_tokensOf hr (op.prec + 1) s (r, s) hmr
          (stopsFor_of_stops hstop' (by omega)) (PL_stop hstop')
    have hloop : PL min l (.op op :: (parenWrap (needs_parens r op .right) Wr ++ s)) v :=
      PL_opstep hminp hrstream hv
    by_cases hbl : needs_parens l op .left = true
    · rw [parenWrap, if_pos hbl]
      have hres := paren_helper (parse_tokensOf hl) min
        (.op op :: (parenWrap (needs_parens r op .right) Wr ++ s)) v hloop
      simpa [List.append_assoc] using hres
    · rw [parenWrap, if_neg hbl]
      have hopl : op.prec ≤ l.prec := not_needs_parens_left hbl
      have hres := parse_tokensOf hl min
        (.op op :: (parenWrap (needs_parens r op .right) Wr ++ s)) v
        (le_trans hminp hopl) (stopsFor_op_le hopl) hloop
      simpa [List.append_assoc] using hres
  | list es W he =>
    intro min s v hmin hstop hv
    rcases parse_tokensOfElems he with ⟨rfl, rfl⟩ | ⟨hsa, hpe⟩
    · have hres := PB_step (PA_listNil s) hv
      simpa using hres
    · have hpa : PA (.lbrk :: (W ++ .rbrk :: s)) (.listE es, s) :=
        PA_list (startsAtom_not_rbrk (startsAtom_append hsa)) (hpe s)
      have hres := PB_step hpa hv
      simpa [List.append_assoc] using hres

theorem parse_tokensOfElems {es : ExprList} {W : List Tok} (h : TokensOfElems es W) :
    (es = .nil ∧ W = []) ∨
      (StartsAtom W ∧ ∀ s, PE (W ++ .rbrk :: s) (es, .rbrk :: s)) := by
  match h with
  | .nil => exact Or.inl ⟨rfl, rfl⟩
  | .single e We he =>
    refine Or.inr ⟨tokensOf_startsAtom he, fun s => ?_⟩
    have hb : PB 0 (We ++ .rbrk :: s) (e, .rbrk :: s) :=
      parse_tokensOf he 0 _ _ (Nat.zero_le _) (by exact stopsFor_nonop rfl) (PL_stop (by exact stops_nonop rfl))
    exact PE_last hb (fun ts' h' => by cases h')
  | .singleTrail e We he =>
    refine Or.inr ⟨startsAtom_append (tokensOf_startsAtom he), fun s => ?_⟩
    have hb : PB 0 ((We ++ [.comma]) ++ .rbrk :: s) (e, .comma :: .rbrk :: s) := by
      have hres := parse_tokensOf he 0 (.comma :: .rbrk :: s) (e, .comma :: .rbrk :: s)
        (Nat.zero_le _) (by exact stopsFor_nonop rfl) (PL_stop (by exact stops_nonop rfl))
      simpa [List.append_assoc] using hres
    exact PE_trail hb rfl
  | .cons e es' We W' he hes' hne =>
    rcases parse_tokensOfElems hes' with ⟨hnil, _⟩ | ⟨hsa', hpe'⟩
    · exact absurd hnil hne
    · refine Or.inr ⟨startsAtom_append (tokensOf_startsAtom he), fun s => ?_⟩
      have hb : PB 0 ((We ++ .comma :: W') ++ .rbrk :: s)
          (e, .comma :: (W' ++ .rbrk :: s)) := by
        have hres := parse_tokensOf he 0 (.comma :: (W' ++ .rbrk :: s))
          (e, .comma :: (W' ++ .rbrk :: s))
          (Nat.zero_le _) (by exact stopsFor_nonop rfl) (PL_stop (by exact stops_nonop rfl))
        simpa [List.append_assoc] using hres
      exact PE_cons hb (startsAtom_not_rbrk (startsAtom_append hsa')) (hpe' s)
end

theorem lexF_congr (cs : List Char) (f1 f2 : Nat) (h1 : cs.length < f1) (h2 : cs.length < f2) :
    lexF f1 cs = lexF f2 cs := by
  obtain ⟨g1, rfl⟩ : ∃ g, f1 = g + 1 := ⟨f1 - 1, by omega⟩
  obtain ⟨g2, rfl⟩ : ∃ g, f2 = g + 1 := ⟨f2 - 1, by omega⟩
  rcases cs with _ | ⟨c, cs'⟩
  · rfl
  · simp only [List.length_cons] at h1 h2
    have hd : (cs'.dropWhile isDigitC).length ≤ cs'.length := (List.dropWhile_sublist _).length_le
    have hi : (cs'.dropWhile isIdentC).length ≤ cs'.length := (List.dropWhile_sublist _).length_le
    have ht : cs'.tail.length ≤ cs'.length := by
      rcases cs' with _ | ⟨x, xs⟩ <;> simp
    rw [lexF, lexF]
    by_cases hc1 : isWsC c = true
    · rw [if_pos hc1, if_pos hc1]
      exact lexF_congr cs' g1 g2 (by omega) (by omega)
    rw [if_neg hc1, if_neg hc1]
    by_cases hc2 : isDigitC c = true
    · rw [if_pos hc2, if_pos hc2]
      exact congrArg _ (lexF_congr (cs'.dropWhile isDigitC) g1 g2 (by omega) (by omega))
    rw [if_neg hc2, if_neg hc2]
    by_cases hc3 : isAlphaC c = true
    · rw [if_pos hc3, if_pos hc3]
      exact congrArg _ (lexF_congr (cs'.dropWhile isIdentC) g1 g2 (by omega) (by omega))
    rw [if_neg hc3, if_neg hc3]
    by_cases hc4 : c = '|'
    · rw [if_pos hc4, if_pos hc4]
      by_cases hc5 : cs'.head? = some '|'
      · rw [if_pos hc5, if_pos hc5]
        exact congrArg _ (lexF_congr cs'.tail g1 g2 (by omega) (by omega))
      · rw [if_neg hc5, if_neg hc5]
    rw [if_neg hc4, if_neg hc4]
    by_cases hc6 : c = '&'
    · rw [if_pos hc6, if_pos hc6]
      by_cases hc7 : cs'.head? = some '&'
      · rw [if_pos hc7, if_pos hc7]
        exact congrArg _ (lexF_congr cs'.tail g1 g2 (by omega) (by omega))
      · rw [if_neg hc7, if_neg hc7]
    rw [if_neg hc6, if_neg hc6]
    by_cases hc8 : c = '='
    · rw [if_pos hc8, if_pos hc8]
      by_cases hc9 : cs'.head? = some '='
      · rw [if_pos hc9, if_pos hc9]
        exact congrArg _ (lexF_congr cs'.tail g1 g2 (by omega) (by omega))
      · rw [if_neg hc9, if_neg hc9]
    rw [if_neg hc8, if_neg hc8]
    by_cases hc10 : c = '!'
    · rw [if_pos hc10, if_pos hc10]
      by_cases hc11 : cs'.head? = some '='
      · rw [if_pos hc11, if_pos hc11]
        exact congrArg _ (lexF_congr cs'.tail g1 g2 (by omega) (by omega))
      · rw [if_neg hc11, if_neg hc11]
    rw [if_neg hc10, if_neg hc10]
    by_cases hc12 : c = '<'
    · rw [if_pos hc12, if_pos hc12]
      by_cases hc13 : cs'.head? = some '='
      · rw [if_pos hc13, if_pos hc13]
        exact congrArg _ (lexF_congr cs'.tail g1 g2 (by omega) (by omega))
      · rw [if_neg hc13, if_neg hc13]
        exact congrArg _ (lexF_congr cs' g1 g2 (by omega) (by omega))
    rw [if_neg hc12, if_neg hc12]
    by_cases hc14 : c = '>'
    · rw [if_pos hc14, if_pos hc14]
      by_cases hc15 : cs'.head? = some '='
      · rw [if_pos hc15, if_pos hc15]
        exact congrArg _ (lexF_congr cs'.tail g1 g2 (by omega) (by omega))
      · rw [if_neg hc15, if_neg hc15]
        exact congrArg _ (lexF_congr cs' g1 g2 (by omega) (by omega))
    rw [if_neg hc14, if_neg hc14]
    by_cases hc16 : c = '+'
    · rw [if_pos hc16, if_pos hc16]
      exact congrArg _ (lexF_congr cs' g1 g2 (by omega) (by omega))
    rw [if_neg hc16, if_neg hc16]
    by_cases hc17 : c = '-'
    · rw [if_pos hc17, if_pos hc17]
      exact congrArg _ (lexF_congr cs' g1 g2 (by omega) (by omega))
    rw [if_neg hc17, if_neg hc17]
    by_cases hc18 : c = '*'
    · rw [if_pos hc18, if_pos hc18]
      exact congrArg _ (lexF_congr cs' g1 g2 (by omega) (by omega))
    rw [if_neg hc18, if_neg hc18]
    by_cases hc19 : c = '/'
    · rw [if_pos hc19, if_pos hc19]
      exact congrArg _ (lexF_congr cs' g1 g2 (by omega) (by omega))
    rw [if_neg hc19, if_neg hc19]
    by_cases hc20 : c = '%'
    · rw [if_pos hc20, if_pos hc20]
      exact congrArg _ (lexF_congr cs' g1 g2 (by omega) (by omega))
    rw [if_neg hc20, if_neg hc20]
    by_cases hc21 : c = '('
    · rw [if_pos hc21, if_pos hc21]
      exact congrArg _ (lexF_congr cs' g1 g2 (by omega) (by omega))
    rw [if_neg hc21, if_neg hc21]
    by_cases hc22 : c = ')'
    · rw [if_pos hc22, if_pos hc22]
      exact congrArg _ (lexF_congr cs' g1 g2 (by omega) (by omega))
    rw [if_neg hc22, if_neg hc22]
    by_cases hc23 : c = '['
    · rw [if_pos hc23, if_pos hc23]
      exact congrArg _ (lexF_congr cs' g1 g2 (by omega) (by omega))
    rw [if_neg hc23, if_neg hc23]
    by_cases hc24 : c = ']'
    · rw [if_pos hc24, if_pos hc24]
      exact congrArg _ (lexF_congr cs' g1 g2 (by omega) (by omega))
    rw [if_neg hc24, if_neg hc24]
    by_cases hc25 : c = ','
    · rw [if_pos hc25, if_pos hc25]
      exact congrArg _ (lexF_congr cs' g1 g2 (by omega) (by omega))
    rw [if_neg hc25, if_neg hc25]
termination_by f1
decreasing_by all_goals
  simp_wf
  omega

theorem digitChar_digit {d : Nat} (h : d < 10) : isDigitC (digitChar d) = true := by
  interval_cases d <;> decide

theorem digitVal_digitChar {d : Nat} (h : d < 10) : digitVal (digitChar d) = d := by
  interval_cases d <;> decide

theorem foldl_digits_rev : ∀ (L : List Nat), (∀ d ∈ L, d < 10) → ∀ acc,
    ((L.map digitChar).reverse).foldl (fun a c => 10 * a + digitVal c) acc
      = Nat.ofDigits 10 L + acc * 10 ^ L.length := by
  intro L
  induction L with
  | nil =>
    intro _ acc
    simp [Nat.ofDigits_nil]
  | cons d L ih =>
    intro hL acc
    rw [List.map_cons, List.reverse_cons, List.foldl_append]
    rw [ih (fun x hx => hL x (List.mem_cons_of_mem _ hx)) acc]
    simp only [List.foldl_cons, List.foldl_nil]
    rw [digitVal_digitChar (hL d (List.mem_cons_self _ _))]
    rw [Nat.ofDigits_cons, List.length_cons, pow_succ]
    ring

theorem natDigits_eq : ∀ (fuel n : Nat), n ≤ fuel →
    natDigits fuel n = ((Nat.digits 10 n).map digitChar).reverse := by
  intro fuel
  induction fuel with
  | zero =>
    intro n hn
    interval_cases n
    simp [natDigits]
  | succ fuel ih =>
    intro n hn
    by_cases h0 : n = 0
    · subst h0
      simp [natDigits]
    · rw [natDigits, if_neg h0]
      have hdiv : n / 10 < n := Nat.div_lt_self (Nat.pos_of_ne_zero h0) (by norm_num)
      rw [ih (n / 10) (by omega)]
      rw [Nat.digits_def' (by norm_num : (1 : ℕ) < 10) (Nat.pos_of_ne_zero h0)]
      rw [List.map_cons, List.reverse_cons]

theorem readNat_renderNat (n : Nat) : readNat (renderNat n).toList = n := by
  by_cases h0 : n = 0
  · subst h0
    decide
  · rw [renderNat, if_neg h0]
    show readNat (natDigits n n) = n
    rw [natDigits_eq n n (Nat.le_refl n), readNat,
      foldl_digits_rev _ (fun d hd => Nat.digits_lt_base (by norm_num) hd) 0]
    simp [Nat.ofDigits_digits]

theorem renderNat_digits {n : Nat} : ∀ c ∈ (renderNat n).toList, isDigitC c = true := by
  by_cases h0 : n = 0
  · subst h0
    intro c hc
    simp [renderNat] at hc
    subst hc
    decide
  · rw [renderNat, if_neg h0]
    intro c hc
    have hc' : c ∈ natDigits n n := hc
    rw [natDigits_eq n n (Nat.le_refl n)] at hc'
    rw [List.mem_reverse] at hc'
    obtain ⟨d, hd, rfl⟩ := List.mem_map.mp hc'
    exact digitChar_digit (Nat.digits_lt_base (by norm_num) hd)

theorem renderNat_ne_nil (n : Nat) : (renderNat n).toList ≠ [] := by
  by_cases h0 : n = 0
  · subst h0
    decide
  · rw [renderNat, if_neg h0]
    show natDigits n n ≠ []
    rw [natDigits_eq n n (Nat.le_refl n)]
    simp [Nat.digits_ne_nil_iff_ne_zero, h0]

theorem lexF_step_ws {fuel : Nat} {c : Char} {cs : List Char} (h : isWsC c = true) :
    lexF (fuel + 1) (c :: cs) = lexF fuel cs := by
  rw [lexF, if_pos h]

theorem lexF_step_digit {fuel : Nat} {c : Char} {cs : List Char} (h : isDigitC c = true) :
    lexF (fuel + 1) (c :: cs) =
      (lexF fuel (cs.dropWhile isDigitC)).map
        (fun ts => .num (readNat (c :: cs.takeWhile isDigitC)) :: ts) := by
  rw [lexF, if_neg (by simp [ws_false_of_digit h]), if_pos h]

theorem lexF_step_alpha {fuel : Nat} {c : Char} {cs : List Char} (h : isAlphaC c = true) :
    lexF (fuel + 1) (c :: cs) =
      (lexF fuel (cs.dropWhile isIdentC)).map
        (fun ts =>
          (if (⟨c :: cs.takeWhile isIdentC⟩ : String) = "in" then Tok.op .inOp
           else Tok.id ⟨c :: cs.takeWhile isIdentC⟩) :: ts) := by
  rw [lexF, if_neg (by simp [ws_false_of_alpha h]), if_neg (by simp [digit_false_of_alpha h]),
    if_pos h]

theorem lexF_step_lor {fuel : Nat} {cs : List Char} :
    lexF (fuel + 1) ('|' :: '|' :: cs) = (lexF fuel cs).map (.op .lor :: ·) := by
  rw [lexF]
  simp +decide

theorem lexF_step_land {fuel : Nat} {cs : List Char} :
    lexF (fuel + 1) ('&' :: '&' :: cs) = (lexF fuel cs).map (.op .land :: ·) := by
  rw [lexF]
  simp +decide

theorem lexF_step_eq {fuel : Nat} {cs : List Char} :
    lexF (fuel + 1) ('=' :: '=' :: cs) = (lexF fuel cs).map (.op .eq :: ·) := by
  rw [lexF]
  simp +decide

theorem lexF_step_ne {fuel : Nat} {cs : List Char} :
    lexF (fuel + 1) ('!' :: '=' :: cs) = (lexF fuel cs).map (.op .ne :: ·) := by
  rw [lexF]
  simp +decide

theorem lexF_step_le {fuel : Nat} {cs : List Char} :
    lexF (fuel + 1) ('<' :: '=' :: cs) = (lexF fuel cs).map (.op .le :: ·) := by
  rw [lexF]
  simp +decide

theorem lexF_step_ge {fuel : Nat} {cs : List Char} :
    lexF (fuel + 1) ('>' :: '=' :: cs) = (lexF fuel cs).map (.op .ge :: ·) := by
  rw [lexF]
  simp +decide

theorem lexF_step_lt {fuel : Nat} {cs : List Char} (h : cs.head? ≠ some '=') :
    lexF (fuel + 1) ('<' :: cs) = (lexF fuel cs).map (.op .lt :: ·) := by
  rw [lexF]
  simp +decide [if_neg h]

theorem lexF_step_gt {fuel : Nat} {cs : List Char} (h : cs.head? ≠ some '=') :
    lexF (fuel + 1) ('>' :: cs) = (lexF fuel cs).map (.op .gt :: ·) := by
  rw [lexF]
  simp +decide [if_neg h]

theorem lexF_step_add {fuel : Nat} {cs : List Char} :
    lexF (fuel + 1) ('+' :: cs) = (lexF fuel cs).map (.op .add :: ·) := by
  rw [lexF]
  simp +decide

theorem lexF_step_sub {fuel : Nat} {cs : List Char} :
    lexF (fuel + 1) ('-' :: cs) = (lexF fuel cs).map (.op .sub :: ·) := by
  rw [lexF]
  simp +decide

theorem lexF_step_mul {fuel : Nat} {cs : List Char} :
    lexF (fuel + 1) ('*' :: cs) = (lexF fuel cs).map (.op .mul :: ·) := by
  rw [lexF]
  simp +decide

theorem lexF_step_div {fuel : Nat} {cs : List Char} :
    lexF (fuel + 1) ('/' :: cs) = (lexF fuel cs).map (.op .div :: ·) := by
  rw [lexF]
  simp +decide

theorem lexF_step_mod {fuel : Nat} {cs : List Char} :
    lexF (fuel + 1) ('%' :: cs) = (lexF fuel cs).map (.op .mod :: ·) := by
  rw [lexF]
  simp +decide

theorem lexF_step_lpar {fuel : Nat} {cs : List Char} :
    lexF (fuel + 1) ('(' :: cs) = (lexF fuel cs).map (.lpar :: ·) := by
  rw [lexF]
  simp +decide

theorem lexF_step_rpar {fuel : Nat} {cs : List Char} :
    lexF (fuel + 1) (')' :: cs) = (lexF fuel cs).map (.rpar :: ·) := by
  rw [lexF]
  simp +decide

theorem lexF_step_lbrk {fuel : Nat} {cs : List Char} :
    lexF (fuel + 1) ('[' :: cs) = (lexF fuel cs).map (.lbrk :: ·) := by
  rw [lexF]
  simp +decide

theorem lexF_step_rbrk {fuel : Nat} {cs : List Char} :
    lexF (fuel + 1) (']' :: cs) = (lexF fuel cs).map (.rbrk :: ·) := by
  rw [lexF]
  simp +decide

theorem lexF_step_comma {fuel : Nat} {cs : List Char} :
    lexF (fuel + 1) (',' :: cs) = (lexF fuel cs).map (.comma :: ·) := by
  rw [lexF]
  simp +decide

theorem sepOK_of_head {c : Char} {s : List Char} (h : isIdentC c = false) : SepOK (c :: s) := by
  intro x hx
  simp only [List.head?_cons, Option.some.injEq] at hx
  subst hx
  exact h

theorem sepOK_nil : SepOK [] := by
  intro x hx
  simp at hx

theorem takeWhile_append_all {p : Char → Bool} {xs ys : List Char}
    (h : ∀ x ∈ xs, p x = true) : (xs ++ ys).takeWhile p = xs ++ ys.takeWhile p := by
  induction xs with
  | nil => simp
  | cons x xs ih =>
    simp only [List.cons_append, List.takeWhile_cons, h x (by simp), if_true]
    rw [ih (fun y hy => h y (by simp [hy]))]

theorem dropWhile_append_all {p : Char → Bool} {xs ys : List Char}
    (h : ∀ x ∈ xs, p x = true) : (xs ++ ys).dropWhile p = ys.dropWhile p := by
  induction xs with
  | nil => simp
  | cons x xs ih =>
    simp only [List.cons_append, List.dropWhile_cons, h x (by simp), if_true]
    exact ih (fun y hy => h y (by simp [hy]))

theorem takeWhile_nil_of_head {p : Char → Bool} {ys : List Char}
    (h : ∀ c, ys.head? = some c → p c = false) : ys.takeWhile p = [] := by
  rcases ys with _ | ⟨y, ys'⟩
  · rfl
  · rw [List.takeWhile_cons_of_neg]
    simp [h y rfl]

theorem dropWhile_id_of_head {p : Char → Bool} {ys : List Char}
    (h : ∀ c, ys.head? = some c → p c = false) : ys.dropWhile p = ys := by
  rcases ys with _ | ⟨y, ys'⟩
  · rfl
  · rw [List.dropWhile_cons_of_neg]
    simp [h y rfl]

theorem string_mk_toList (w : String) : (⟨w.toList⟩ : String) = w := rfl

theorem lex_nil : lex [] = some [] := rfl

theorem lex_ws_cons {c : Char} {s : List Char} (h : isWsC c = true) : lex (c :: s) = lex s := by
  rw [lex, lex]
  simp only [List.length_cons]
  rw [lexF_step_ws h]

theorem lex_wsrun {ws s : List Char} (h : ∀ c ∈ ws, isWsC c = true) :
    lex (ws ++ s) = lex s := by
  induction ws with
  | nil => rfl
  | cons c ws' ih =>
    rw [List.cons_append, lex_ws_cons (h c (by simp))]
    exact ih (fun x hx => h x (by simp [hx]))

theorem lex_lpar (s : List Char) : lex ('(' :: s) = (lex s).map (.lpar :: ·) := by
  rw [lex, lex]
  simp only [List.length_cons]
  rw [lexF_step_lpar]

theorem lex_rpar (s : List Char) : lex (')' :: s) = (lex s).map (.rpar :: ·) := by
  rw [lex, lex]
  simp only [List.length_cons]
  rw [lexF_step_rpar]

theorem lex_lbrk (s : List Char) : lex ('[' :: s) = (lex s).map (.lbrk :: ·) := by
  rw [lex, lex]
  simp only [List.length_cons]
  rw [lexF_step_lbrk]

theorem lex_rbrk (s : List Char) : lex (']' :: s) = (lex s).map (.rbrk :: ·) := by
  rw [lex, lex]
  simp only [List.length_cons]
  rw [lexF_step_rbrk]

theorem lex_comma (s : List Char) : lex (',' :: s) = (lex s).map (.comma :: ·) := by
  rw [lex, lex]
  simp only [List.length_cons]
  rw [lexF_step_comma]

theorem lex_op (o : BinOp) (c : Char) (s : List Char) (hc : isWsC c = true) :
    lex (o.str.toList ++ c :: s) = (lex s).map (.op o :: ·) := by
  have hne : ∀ s' : List Char, (c :: s').head? ≠ some '=' := by
    intro s' hx
    simp only [List.head?_cons, Option.some.injEq] at hx
    subst hx
    exact absurd hc (by decide)
  cases o with
  | lor =>
    rw [show (BinOp.lor.str.toList ++ c :: s) = '|' :: '|' :: c :: s from rfl, lex, lex]
    simp only [List.length_cons]
    rw [lexF_step_lor, lexF_step_ws hc]
    rw [lexF_congr s (s.length + 1 + 1) (s.length + 1) (by omega) (by omega)]
  | land =>
    rw [show (BinOp.land.str.toList ++ c :: s) = '&' :: '&' :: c :: s from rfl, lex, lex]
    simp only [List.length_cons]
    rw [lexF_step_land, lexF_step_ws hc]
    rw [lexF_congr s (s.length + 1 + 1) (s.length + 1) (by omega) (by omega)]
  | eq =>
    rw [show (BinOp.eq.str.toList ++ c :: s) = '=' :: '=' :: c :: s from rfl, lex, lex]
    simp only [List.length_cons]
    rw [lexF_step_eq, lexF_step_ws hc]
    rw [lexF_congr s (s.length + 1 + 1) (s.length + 1) (by omega) (by omega)]
  | ne =>
    rw [show (BinOp.ne.str.toList ++ c :: s) = '!' :: '=' :: c :: s from rfl, lex, lex]
    simp only [List.length_cons]
    rw [lexF_step_ne, lexF_step_ws hc]
    rw [lexF_congr s (s.length + 1 + 1) (s.length + 1) (by omega) (by omega)]
  | le =>
    rw [show (BinOp.le.str.toList ++ c :: s) = '<' :: '=' :: c :: s from rfl, lex, lex]
    simp only [List.length_cons]
    rw [lexF_step_le, lexF_step_ws hc]
    rw [lexF_congr s (s.length + 1 + 1) (s.length + 1) (by omega) (by omega)]
  | ge =>
    rw [show (BinOp.ge.str.toList ++ c :: s) = '>' :: '=' :: c :: s from rfl, lex, lex]
    simp only [List.length_cons]
    rw [lexF_step_ge, lexF_step_ws hc]
    rw [lexF_congr s (s.length + 1 + 1) (s.length + 1) (by omega) (by omega)]
  | lt =>
    rw [show (BinOp.lt.str.toList ++ c :: s) = '<' :: c :: s from rfl, lex, lex]
    simp only [List.length_cons]
    rw [lexF_step_lt (hne s), lexF_step_ws hc]
  | gt =>
    rw [show (BinOp.gt.str.toList ++ c :: s) = '>' :: c :: s from rfl, lex, lex]
    simp only [List.length_cons]
    rw [lexF_step_gt (hne s), lexF_step_ws hc]
  | add =>
    rw [show (BinOp.add.str.toList ++ c :: s) = '+' :: c :: s from rfl, lex, lex]
    simp only [List.length_cons]
    rw [lexF_step_add, lexF_step_ws hc]
  | sub =>
    rw [show (BinOp.sub.str.toList ++ c :: s) = '-' :: c :: s from rfl, lex, lex]
    simp only [List.length_cons]
    rw [lexF_step_sub, lexF_step_ws hc]
  | mul =>
    rw [show (BinOp.mul.str.toList ++ c :: s) = '*' :: c :: s from rfl, lex, lex]
    simp only [List.length_cons]
    rw [lexF_step_mul, lexF_step_ws hc]
  | div =>
    rw [show (BinOp.div.str.toList ++ c :: s) = '/' :: c :: s from rfl, lex, lex]
    simp only [List.length_cons]
    rw [lexF_step_div, lexF_step_ws hc]
  | mod =>
    rw [show (BinOp.mod.str.toList ++ c :: s) = '%' :: c :: s from rfl, lex, lex]
    simp only [List.length_cons]
    rw [lexF_step_mod, lexF_step_ws hc]
  | inOp =>
    rw [show (BinOp.inOp.str.toList ++ c :: s) = 'i' :: 'n' :: c :: s from rfl, lex, lex]
    simp only [List.length_cons]
    rw [lexF_step_alpha (by decide)]
    have htw : ('n' :: c :: s).takeWhile isIdentC = ['n'] := by
      rw [List.takeWhile_cons_of_pos (by decide)]
      rw [takeWhile_nil_of_head]
      intro x hx
      simp only [List.head?_cons, Option.some.injEq] at hx
      subst hx
      exact ident_false_of_ws hc
    have hdw : ('n' :: c :: s).dropWhile isIdentC = c :: s := by
      rw [List.dropWhile_cons_of_pos (by decide)]
      rw [dropWhile_id_of_head]
      intro x hx
      simp only [List.head?_cons, Option.some.injEq] at hx
      subst hx
      exact ident_false_of_ws hc
    rw [htw, hdw, lexF_step_ws hc]
    rw [lexF_congr s (s.length + 1 + 1) (s.length + 1) (by omega) (by omega)]
    rw [if_pos (by decide)]

theorem lex_tok_num (n : Nat) (s : List Char) (hsep : SepOK s) :
    lex ((renderNat n).toList ++ s) = (lex s).map (.num n :: ·) := by
  have hdig := renderNat_digits (n := n)
  have hrd := readNat_renderNat n
  rcases hh : (renderNat n).toList with _ | ⟨c, rest⟩
  · exact absurd hh (renderNat_ne_nil n)
  · rw [hh] at hdig hrd
    rw [List.cons_append, lex, lex]
    simp only [List.length_cons]
    rw [lexF_step_digit (hdig c (by simp))]
    have hsd : ∀ x, s.head? = some x → isDigitC x = false :=
      fun x hx => digit_false_of_not_ident (hsep x hx)
    have htw : (rest ++ s).takeWhile isDigitC = rest := by
      rw [takeWhile_append_all (fun x hx => hdig x (by simp [hx]))]
      rw [takeWhile_nil_of_head hsd, List.append_nil]
    have hdw : (rest ++ s).dropWhile isDigitC = s := by
      rw [dropWhile_append_all (fun x hx => hdig x (by simp [hx]))]
      exact dropWhile_id_of_head hsd
    rw [htw, hdw, hrd]
    rw [lexF_congr s ((rest ++ s).length + 1) (s.length + 1)
      (by simp only [List.length_append]; omega) (by omega)]

theorem lex_tok_id (w : String) (s : List Char) (hv : validIdent w = true) (hsep : SepOK s) :
    lex (w.toList ++ s) = (lex s).map (.id w :: ·) := by
  rw [validIdent, Bool.and_eq_true] at hv
  obtain ⟨hvc, hne⟩ := hv
  rcases hh : w.toList with _ | ⟨c, rest⟩
  · rw [hh] at hvc
    simp [validIdentChars] at hvc
  · rw [hh] at hvc
    rw [validIdentChars] at hvc
    rw [Bool.and_eq_true] at hvc
    obtain ⟨halpha, hrest⟩ := hvc
    rw [List.cons_append, lex, lex]
    simp only [List.length_cons]
    rw [lexF_step_alpha halpha]
    have hsi : ∀ x, s.head? = some x → isIdentC x = false := hsep
    have htw : (rest ++ s).takeWhile isIdentC = rest := by
      rw [takeWhile_append_all (fun x hx => by
        have := List.all_eq_true.mp hrest x hx
        simpa using this)]
      rw [takeWhile_nil_of_head hsi, List.append_nil]
    have hdw : (rest ++ s).dropWhile isIdentC = s := by
      rw [dropWhile_append_all (fun x hx => by
        have := List.all_eq_true.mp hrest x hx
        simpa using this)]
      exact dropWhile_id_of_head hsi
    rw [htw, hdw]
    have hmk : (⟨c :: rest⟩ : String) = w := by
      rw [← hh]
      exact string_mk_toList w
    rw [hmk]
    rw [if_neg (by simpa using hne)]
    rw [lexF_congr s ((rest ++ s).length + 1) (s.length + 1)
      (by simp only [List.length_append]; omega) (by omega)]

theorem toList_append (a b : String) : (a ++ b).toList = a.toList ++ b.toList := rfl

theorem sepOK_space (s : List Char) : SepOK (' ' :: s) := sepOK_of_head (by decide)

theorem sepOK_rpar (s : List Char) : SepOK (')' :: s) := sepOK_of_head (by decide)

theorem sepOK_rbrk (s : List Char) : SepOK (']' :: s) := sepOK_of_head (by decide)

theorem sepOK_comma (s : List Char) : SepOK (',' :: s) := sepOK_of_head (by decide)

mutual
theorem lex_renderSL (e : Expr) (hv : e.valid = true) :
    ∀ s, SepOK s → lex ((renderSL e).toList ++ s) = (lex s).map (toks e ++ ·) := by
  match e with
  | .lit n =>
    intro s hs
    rw [renderSL, toks, lex_tok_num n s hs]
    rfl
  | .ident w =>
    intro s hs
    rw [renderSL, toks, lex_tok_id w s hv hs]
    rfl
  | .binary op l r =>
    intro s hs
    rw [Expr.valid, Bool.and_eq_true] at hv
    obtain ⟨hvl, hvr⟩ := hv
    rw [renderSL, toks]
    simp only [toList_append, List.append_assoc]
    rw [show (" " : String).toList = [' '] from rfl]
    simp only [List.cons_append, List.nil_append]
    have hright : lex ((if needs_parens r op .right then "(" ++ renderSL r ++ ")"
        else renderSL r).toList ++ s)
        = (lex s).map (parenWrap (needs_parens r op .right) (toks r) ++ ·) := by
      by_cases hbr : needs_parens r op .right = true
      · rw [if_pos hbr, parenWrap, if_pos hbr]
        simp only [toList_append, List.append_assoc]
        rw [show ("(" : String).toList = ['('] from rfl, show (")" : String).toList = [')']
          from rfl]
        simp only [List.cons_append, List.nil_append]
        rw [lex_lpar, lex_renderSL r hvr (')' :: s) (sepOK_rpar s), lex_rpar]
        cases lex s with
        | none => rfl
        | some ts => simp
      · rw [if_neg hbr, parenWrap, if_neg hbr]
        exact lex_renderSL r hvr s hs
    have hmid : lex (op.str.toList ++ ' ' ::
          ((if needs_parens r op .right then "(" ++ renderSL r ++ ")"
            else renderSL r).toList ++ s))
        = (lex s).map (fun ts => .op op :: (parenWrap (needs_parens r op .right) (toks r) ++ ts)) := by
      rw [lex_op op ' ' _ (by decide), hright]
      cases lex s with
      | none => rfl
      | some ts => simp
    by_cases hbl : needs_parens l op .left = true
    · rw [if_pos hbl, parenWrap, if_pos hbl]
      simp only [toList_append, List.append_assoc]
      rw [show ("(" : String).toList = ['('] from rfl, show (")" : String).toList = [')']
        from rfl]
      simp only [List.cons_append, List.nil_append]
      rw [lex_lpar, lex_renderSL l hvl _ (sepOK_rpar _), lex_rpar, lex_ws_cons (by decide),
        hmid]
      cases lex s with
      | none => rfl
      | some ts => simp
    · rw [if_neg hbl, parenWrap, if_neg hbl]
      rw [lex_renderSL l hvl _ (sepOK_space _), lex_ws_cons (by decide), hmid]
      cases lex s with
      | none => rfl
      | some ts => simp
  | .listE es =>
    intro s hs
    rw [renderSL, toks]
    simp only [toList_append, List.append_assoc]
    rw [show ("[" : String).toList = ['['] from rfl, show ("]" : String).toList = [']']
      from rfl]
    simp only [List.cons_append, List.nil_append]
    rw [lex_lbrk, lex_renderSLElems es hv (']' :: s) (sepOK_rbrk s), lex_rbrk]
    cases lex s with
    | none => rfl
    | some ts => simp

theorem lex_renderSLElems (es : ExprList) (hv : es.valid = true) :
    ∀ s, SepOK s →
      lex ((renderSLElems es).toList ++ s) = (lex s).map (toksElems es ++ ·) := by
  match es with
  | .nil =>
    intro s hs
    rw [renderSLElems, toksElems]
    rw [show ("" : String).toList = [] from rfl, List.nil_append]
    cases lex s with
    | none => rfl
    | some ts => simp
  | .cons e .nil =>
    intro s hs
    rw [ExprList.valid, Bool.and_eq_true] at hv
    rw [renderSLElems, toksElems]
    exact lex_renderSL e hv.1 s hs
  | .cons e (.cons e2 es2) =>
    intro s hs
    rw [ExprList.valid, Bool.and_eq_true] at hv
    obtain ⟨hve, hvrest⟩ := hv
    rw [renderSLElems, toksElems]
    all_goals try exact fun hx => by cases hx
    simp only [toList_append, List.append_assoc]
    rw [show (", " : String).toList = [',', ' '] from rfl]
    simp only [List.cons_append, List.nil_append]
    rw [lex_renderSL e hve _ (sepOK_comma _), lex_comma, lex_ws_cons (by decide),
      lex_renderSLElems (.cons e2 es2) hvrest s hs]
    cases lex s with
    | none => rfl
    | some ts => simp
end

theorem flattenT_cons (o : FormatOptions) (x : Line) (ls : List Line) :
    flattenT o (x :: ls) = '\n' :: flattenL o (x :: ls) := by
  obtain ⟨d, str⟩ := x
  rw [flattenT, flattenL]

theorem flattenL_append (o : FormatOptions) {X : List Line} (Y : List Line) (hX : X ≠ []) :
    flattenL o (X ++ Y) = flattenL o X ++ flattenT o Y := by
  induction X with
  | nil => exact absurd rfl hX
  | cons x X ih =>
    obtain ⟨d, str⟩ := x
    rcases X with _ | ⟨y, X'⟩
    · rw [List.cons_append, List.nil_append, flattenL, flattenL, flattenT]
      simp [List.append_assoc]
    · rw [List.cons_append, flattenL, flattenL]
      rw [List.cons_append, flattenT_cons, flattenT_cons]
      rw [show flattenL o (y :: (X' ++ Y)) = flattenL o ((y :: X') ++ Y) from rfl,
        ih (by simp)]
      simp [List.append_assoc]

theorem appendToLast_ne_nil {suf : String} {X : List Line} (hX : X ≠ []) :
    appendToLast suf X ≠ [] := by
  rcases X with _ | ⟨x, X'⟩
  · exact absurd rfl hX
  · obtain ⟨d, str⟩ := x
    rcases X' with _ | ⟨y, X''⟩
    · simp [appendToLast]
    · simp [appendToLast]

theorem prependToFirst_ne_nil {pre : String} {X : List Line} (hX : X ≠ []) :
    prependToFirst pre X ≠ [] := by
  rcases X with _ | ⟨x, X'⟩
  · exact absurd rfl hX
  · obtain ⟨d, str⟩ := x
    simp [prependToFirst]

theorem wrapParens_ne_nil {X : List Line} (hX : X ≠ []) : wrapParens X ≠ [] :=
  appendToLast_ne_nil (prependToFirst_ne_nil hX)

mutual
theorem flattenL_appendToLast (o : FormatOptions) (suf : String) :
    ∀ (X : List Line), X ≠ [] →
      flattenL o (appendToLast suf X) = flattenL o X ++ suf.toList := by
  intro X hX
  match X with
  | [(d, str)] =>
    have ha : appendToLast suf [(d, str)] = [(d, str ++ suf)] := rfl
    rw [ha]
    simp [flattenL, flattenT, toList_append, List.append_assoc]
  | (d, str) :: y :: X' =>
    have ha : appendToLast suf ((d, str) :: y :: X') =
        (d, str) :: appendToLast suf (y :: X') := rfl
    rw [ha, flattenL, flattenL,
      flattenT_appendToLast o suf (y :: X') (by simp)]
    simp [List.append_assoc]

theorem flattenT_appendToLast (o : FormatOptions) (suf : String) :
    ∀ (X : List Line), X ≠ [] →
      flattenT o (appendToLast suf X) = flattenT o X ++ suf.toList := by
  intro X hX
  match X with
  | [(d, str)] =>
    have ha : appendToLast suf [(d, str)] = [(d, str ++ suf)] := rfl
    rw [ha]
    simp [flattenT, toList_append, List.append_assoc]
  | (d, str) :: y :: X' =>
    have ha : appendToLast suf ((d, str) :: y :: X') =
        (d, str) :: appendToLast suf (y :: X') := rfl
    rw [ha, flattenT, flattenT,
      flattenT_appendToLast o suf (y :: X') (by simp)]
    simp [List.append_assoc]
end

theorem indent_ws (o : FormatOptions) (d : Nat) :
    ∀ c ∈ (indentText o d).toList, isWsC c = true := by
  intro c hc
  rw [indentText] at hc
  by_cases ht : o.useTabs
  · rw [if_pos ht] at hc
    have : c ∈ List.replicate d '\t' := hc
    rw [List.eq_of_mem_replicate this]
    decide
  · rw [if_neg ht] at hc
    have : c ∈ List.replicate (d * o.indentWidth) ' ' := hc
    rw [List.eq_of_mem_replicate this]
    decide

theorem lex_flatten_prep (o : FormatOptions) {X : List Line} (t : List Char) (hX : X ≠ []) :
    lex (flattenL o (prependToFirst "(" X) ++ t) =
      (lex (flattenL o X ++ t)).map (.lpar :: ·) := by
  rcases X with _ | ⟨x, X'⟩
  · exact absurd rfl hX
  · obtain ⟨d, str⟩ := x
    rw [prependToFirst, flattenL, flattenL]
    rw [show ("(" ++ str).toList = '(' :: str.toList from rfl]
    simp only [List.append_assoc, List.cons_append]
    rw [lex_wsrun (indent_ws o d), lex_lpar, lex_wsrun (indent_ws o d)]

theorem sepOK_nl (s : List Char) : SepOK ('\n' :: s) := sepOK_of_head (by decide)

theorem flattenT_of_ne (o : FormatOptions) {X : List Line} (hX : X ≠ []) :
    flattenT o X = '\n' :: flattenL o X := by
  rcases X with _ | ⟨x, X'⟩
  · exact absurd rfl hX
  · exact flattenT_cons o x X'

theorem flattenT_append (o : FormatOptions) {X : List Line} (Y : List Line) (hX : X ≠ []) :
    flattenT o (X ++ Y) = flattenT o X ++ flattenT o Y := by
  rcases X with _ | ⟨x, X'⟩
  · exact absurd rfl hX
  · rw [List.cons_append, flattenT_cons, flattenT_cons,
      show flattenL o (x :: (X' ++ Y)) = flattenL o ((x :: X') ++ Y) from rfl,
      flattenL_append o Y (by simp)]
    simp

theorem lex_wrapParens (o : FormatOptions) {X : List Line} (hX : X ≠ []) (t : List Char) :
    lex (flattenL o (wrapParens X) ++ t) =
      (lex (flattenL o X ++ ')' :: t)).map (.lpar :: ·) := by
  rw [wrapParens, flattenL_appendToLast o ")" _ (prependToFirst_ne_nil hX)]
  rw [show (")" : String).toList = [')'] from rfl, List.append_assoc, List.singleton_append]
  exact lex_flatten_prep o (')' :: t) hX

mutual
/-- The canonical single-line token stream is one of the streams the
`TokensOf` relation admits. -/
theorem TokensOf_toks (e : Expr) : TokensOf e (toks e) := by
  match e with
  | .lit n => rw [toks]; exact .lit n
  | .ident s => rw [toks]; exact .ident s
  | .binary op l r =>
    rw [toks]
    exact .binary op l r (toks l) (toks r) (TokensOf_toks l) (TokensOf_toks r)
  | .listE es =>
    rw [toks]
    exact .list es (toksElems es) (TokensOfElems_toksElems es)

/-- The canonical comma-separated element stream is admitted by
`TokensOfElems`. -/
theorem TokensOfElems_toksElems (es : ExprList) : TokensOfElems es (toksElems es) := by
  match es with
  | .nil => rw [toksElems]; exact .nil
  | .cons e .nil => rw [toksElems]; exact .single e (toks e) (TokensOf_toks e)
  | .cons e (.cons e2 es2) =>
    have ha : toksElems (.cons e (.cons e2 es2)) =
        toks e ++ .comma :: toksElems (.cons e2 es2) := rfl
    rw [ha]
    exact .cons e (.cons e2 es2) (toks e) (toksElems (.cons e2 es2))
      (TokensOf_toks e) (TokensOfElems_toksElems (.cons e2 es2)) (by intro hx; cases hx)
end

theorem appendToLast_eq_nil {suf : String} {X : List Line}
    (h : appendToLast suf X = []) : X = [] := by
  by_contra hX
  exact appendToLast_ne_nil hX h

mutual
/-- The layout engine never produces an empty block for an expression. -/
theorem renderLines_ne_nil (e : Expr) :
    ∀ o d pre suf, renderLines o d pre suf e ≠ [] := by
  intro o d pre suf
  match e with
  | .lit n => rw [renderLines]; simp
  | .ident s => rw [renderLines]; simp
  | .binary op l r =>
    rw [show renderLines o d pre suf (.binary op l r) =
      (if d * o.indentWidth + (renderSL (.binary op l r)).length + pre + suf ≤ o.maxWidth
       then [(d, renderSL (.binary op l r))]
       else appendToLast (" " ++ op.str)
          (if needs_parens l op .left then
            wrapParens (renderLines o d (pre + 1) (op.str.length + 2) l)
          else renderLines o d pre (op.str.length + 1) l) ++
          (if needs_parens r op .right then
            wrapParens (renderLines o (d + 1) 1 (suf + 1) r)
          else renderLines o (d + 1) 0 suf r)) from rfl]
    by_cases hfit : d * o.indentWidth + (renderSL (.binary op l r)).length + pre + suf ≤ o.maxWidth
    · rw [if_pos hfit]; simp
    · rw [if_neg hfit]
      intro hx
      rcases List.append_eq_nil.mp hx with ⟨h1, h2⟩
      by_cases hbl : needs_parens l op .left
      · rw [if_pos hbl] at h1
        exact wrapParens_ne_nil (renderLines_ne_nil l o d (pre + 1) (op.str.length + 2))
          (appendToLast_eq_nil h1)
      · rw [if_neg hbl] at h1
        exact renderLines_ne_nil l o d pre (op.str.length + 1) (appendToLast_eq_nil h1)
  | .listE es =>
    rw [show renderLines o d pre suf (.listE es) =
      (if d * o.indentWidth + (renderSL (.listE es)).length + pre + suf ≤ o.maxWidth
       then [(d, renderSL (.listE es))]
       else (d, "[") :: renderElemsLines o (d + 1) es ++ [(d, "]")]) from rfl]
    by_cases hfit : d * o.indentWidth + (renderSL (.listE es)).length + pre + suf ≤ o.maxWidth
    · rw [if_pos hfit]; simp
    · rw [if_neg hfit]; simp

/-- Wrapped list elements of a nonempty element list form a nonempty block. -/
theorem renderElemsLines_ne_nil (es : ExprList) (hne : es ≠ .nil) :
    ∀ o d, renderElemsLines o d es ≠ [] := by
  intro o d
  match es with
  | .nil => exact absurd rfl hne
  | .cons e .nil =>
    rw [renderElemsLines]
    by_cases ht : o.trailingComma
    · rw [if_pos ht]
      exact appendToLast_ne_nil (renderLines_ne_nil e o d 0 1)
    · rw [if_neg ht]
      exact renderLines_ne_nil e o d 0 0
  | .cons e (.cons e2 es2) =>
    have ha : renderElemsLines o d (.cons e (.cons e2 es2)) =
        appendToLast "," (renderLines o d 0 1 e) ++
          renderElemsLines o d (.cons e2 es2) := rfl
    rw [ha]
    intro hx
    rcases List.append_eq_nil.mp hx with ⟨h1, _⟩
    exact appendToLast_ne_nil (renderLines_ne_nil e o d 0 1) h1
end

/-- Lexing a one-line block that holds the single-line form: skip the
indentation, then lex the single-line text. -/
theorem lex_fastline (o : FormatOptions) (d : Nat) (e : Expr) (hv : e.valid = true)
    (s : List Char) (hs : SepOK s) :
    lex (flattenL o [(d, renderSL e)] ++ s) = (lex s).map (toks e ++ ·) := by
  rw [flattenL, flattenT, List.append_nil, List.append_assoc, lex_wsrun (indent_ws o d)]
  exact lex_renderSL e hv s hs

mutual
/-- Lexing the flattened output of the layout engine recovers a token
stream the `TokensOf` relation admits, for any indentation depth,
reserves, and separator-safe continuation. -/
theorem lex_renderLines (e : Expr) (hv : e.valid = true) :
    ∀ o d pre suf, ∃ W, TokensOf e W ∧ ∀ s, SepOK s →
      lex (flattenL o (renderLines o d pre suf e) ++ s) = (lex s).map (W ++ ·) := by
  match e with
  | .lit n =>
    intro o d pre suf
    refine ⟨toks (.lit n), TokensOf_toks _, fun s hs => ?_⟩
    rw [show renderLines o d pre suf (.lit n) = [(d, renderSL (.lit n))] from rfl]
    exact lex_fastline o d (.lit n) hv s hs
  | .ident w =>
    intro o d pre suf
    refine ⟨toks (.ident w), TokensOf_toks _, fun s hs => ?_⟩
    rw [show renderLines o d pre suf (.ident w) = [(d, renderSL (.ident w))] from rfl]
    exact lex_fastline o d (.ident w) hv s hs
  | .binary op l r =>
    intro o d pre suf
    rw [show renderLines o d pre suf (.binary op l r) =
      (if d * o.indentWidth + (renderSL (.binary op l r)).length + pre + suf ≤ o.maxWidth
       then [(d, renderSL (.binary op l r))]
       else appendToLast (" " ++ op.str)
          (if needs_parens l op .left then
            wrapParens (renderLines o d (pre + 1) (op.str.length + 2) l)
          else renderLines o d pre (op.str.length + 1) l) ++
          (if needs_parens r op .right then
            wrapParens (renderLines o (d + 1) 1 (suf + 1) r)
          else renderLines o (d + 1) 0 suf r)) from rfl]
    by_cases hfit :
        d * o.indentWidth + (renderSL (.binary op l r)).length + pre + suf ≤ o.maxWidth
    · rw [if_pos hfit]
      exact ⟨toks (.binary op l r), TokensOf_toks _,
        fun s hs => lex_fastline o d (.binary op l r) hv s hs⟩
    · rw [if_neg hfit]
      rw [Expr.valid, Bool.and_eq_true] at hv
      obtain ⟨hvl, hvr⟩ := hv
      have hllne : (if needs_parens l op .left then
          wrapParens (renderLines o d (pre + 1) (op.str.length + 2) l)
        else renderLines o d pre (op.str.length + 1) l) ≠ [] := by
        by_cases hbl : needs_parens l op .left = true
        · rw [if_pos hbl]
          exact wrapParens_ne_nil (renderLines_ne_nil l o d (pre + 1) (op.str.length + 2))
        · rw [if_neg hbl]
          exact renderLines_ne_nil l o d pre (op.str.length + 1)
      have hrlne : (if needs_parens r op .right then
          wrapParens (renderLines o (d + 1) 1 (suf + 1) r)
        else renderLines o (d + 1) 0 suf r) ≠ [] := by
        by_cases hbr : needs_parens r op .right = true
        · rw [if_pos hbr]
          exact wrapParens_ne_nil (renderLines_ne_nil r o (d + 1) 1 (suf + 1))
        · rw [if_neg hbr]
          exact renderLines_ne_nil r o (d + 1) 0 suf
      obtain ⟨Wl, hTWl, hL⟩ :
          ∃ Wl, TokensOf l Wl ∧ ∀ t, SepOK t →
            lex (flattenL o (if needs_parens l op .left then
                wrapParens (renderLines o d (pre + 1) (op.str.length + 2) l)
              else renderLines o d pre (op.str.length + 1) l) ++ t)
              = (lex t).map (parenWrap (needs_parens l op .left) Wl ++ ·) := by
        by_cases hbl : needs_parens l op .left = true
        · rw [if_pos hbl]
          obtain ⟨Wl, hT, hE⟩ := lex_renderLines l hvl o d (pre + 1) (op.str.length + 2)
          refine ⟨Wl, hT, fun t ht => ?_⟩
          rw [lex_wrapParens o (renderLines_ne_nil l o d (pre + 1) (op.str.length + 2)) t,
            hE (')' :: t) (sepOK_rpar t), lex_rpar, parenWrap, if_pos hbl]
          cases lex t with
          | none => rfl
          | some ts => simp
        · rw [if_neg hbl]
          obtain ⟨Wl, hT, hE⟩ := lex_renderLines l hvl o d pre (op.str.length + 1)
          exact ⟨Wl, hT, fun t ht => by rw [hE t ht, parenWrap, if_neg hbl]⟩
      obtain ⟨Wr, hTWr, hR⟩ :
          ∃ Wr, TokensOf r Wr ∧ ∀ t, SepOK t →
            lex (flattenL o (if needs_parens r op .right then
                wrapParens (renderLines o (d + 1) 1 (suf + 1) r)
              else renderLines o (d + 1) 0 suf r) ++ t)
              = (lex t).map (parenWrap (needs_parens r op .right) Wr ++ ·) := by
        by_cases hbr : needs_parens r op .right = true
        · rw [if_pos hbr]
          obtain ⟨Wr, hT, hE⟩ := lex_renderLines r hvr o (d + 1) 1 (suf + 1)
          refine ⟨Wr, hT, fun t ht => ?_⟩
          rw [lex_wrapParens o (renderLines_ne_nil r o (d + 1) 1 (suf + 1)) t,
            hE (')' :: t) (sepOK_rpar t), lex_rpar, parenWrap, if_pos hbr]
          cases lex t with
          | none => rfl
          | some ts => simp
        · rw [if_neg hbr]
          obtain ⟨Wr, hT, hE⟩ := lex_renderLines r hvr o (d + 1) 0 suf
          exact ⟨Wr, hT, fun t ht => by rw [hE t ht, parenWrap, if_neg hbr]⟩
      refine ⟨parenWrap (needs_parens l op .left) Wl ++
          .op op :: parenWrap (needs_parens r op .right) Wr,
        .binary op l r Wl Wr hTWl hTWr, fun s hs => ?_⟩
      rw [flattenL_append o _ (appendToLast_ne_nil hllne),
        flattenL_appendToLast o (" " ++ op.str) _ hllne,
        flattenT_of_ne o hrlne, toList_append,
        show (" " : String).toList = [' '] from rfl]
      simp only [List.append_assoc, List.cons_append, List.singleton_append, List.nil_append]
      rw [hL _ (sepOK_space _), lex_ws_cons (by decide), lex_op op '\n' _ (by decide),
        hR s hs]
      cases lex s with
      | none => rfl
      | some ts => simp
  | .listE es =>
    intro o d pre suf
    rw [show renderLines o d pre suf (.listE es) =
      (if d * o.indentWidth + (renderSL (.listE es)).length + pre + suf ≤ o.maxWidth
       then [(d, renderSL (.listE es))]
       else (d, "[") :: renderElemsLines o (d + 1) es ++ [(d, "]")]) from rfl]
    by_cases hfit :
        d * o.indentWidth + (renderSL (.listE es)).length + pre + suf ≤ o.maxWidth
    · rw [if_pos hfit]
      exact ⟨toks (.listE es), TokensOf_toks _,
        fun s hs => lex_fastline o d (.listE es) hv s hs⟩
    · rw [if_neg hfit]
      have hves : es.valid = true := hv
      match es with
      | .nil =>
        refine ⟨.lbrk :: [] ++ [.rbrk], .list .nil [] .nil, fun s hs => ?_⟩
        rw [show (d, "[") :: renderElemsLines o (d + 1) ExprList.nil ++ [(d, "]")] =
          [(d, "["), (d, "]")] from rfl]
        rw [flattenL, flattenT, flattenT,
          show ("[" : String).toList = ['['] from rfl,
          show ("]" : String).toList = [']'] from rfl]
        simp only [List.append_nil, List.append_assoc, List.cons_append,
          List.singleton_append, List.nil_append]
        rw [lex_wsrun (indent_ws o d), lex_lbrk, lex_ws_cons (by decide),
          lex_wsrun (indent_ws o d), lex_rbrk]
        cases lex s with
        | none => rfl
        | some ts => simp
      | .cons e1 es1 =>
        obtain ⟨W', hTW', hEW⟩ :=
          lex_renderElemsLines (.cons e1 es1) hves (by intro hx; cases hx) o (d + 1)
        refine ⟨.lbrk :: W' ++ [.rbrk], .list _ W' hTW', fun s hs => ?_⟩
        rw [flattenL_append o _ (by simp :
            ((d, "[") :: renderElemsLines o (d + 1) (.cons e1 es1)) ≠ []),
          flattenL,
          flattenT_of_ne o
            (renderElemsLines_ne_nil (.cons e1 es1) (by intro hx; cases hx) o (d + 1)),
          flattenT, flattenT,
          show ("[" : String).toList = ['['] from rfl,
          show ("]" : String).toList = [']'] from rfl]
        simp only [List.append_nil, List.append_assoc, List.cons_append,
          List.singleton_append, List.nil_append]
        rw [lex_wsrun (indent_ws o d), lex_lbrk, lex_ws_cons (by decide),
          hEW _ (sepOK_nl _), lex_ws_cons (by decide), lex_wsrun (indent_ws o d), lex_rbrk]
        cases lex s with
        | none => rfl
        | some ts => simp

/-- Lexing the flattened one-element-per-line block of a nonempty element
list recovers a stream `TokensOfElems` admits. -/
theorem lex_renderElemsLines (es : ExprList) (hv : es.valid = true) (hne : es ≠ .nil) :
    ∀ o d, ∃ W, TokensOfElems es W ∧ ∀ s, SepOK s →
      lex (flattenL o (renderElemsLines o d es) ++ s) = (lex s).map (W ++ ·) := by
  match es with
  | .nil => exact absurd rfl hne
  | .cons e .nil =>
    intro o d
    have hve : e.valid = true := by
      rw [ExprList.valid, Bool.and_eq_true] at hv
      exact hv.1
    rw [show renderElemsLines o d (.cons e ExprList.nil) =
      (if o.trailingComma then appendToLast "," (renderLines o d 0 1 e)
       else renderLines o d 0 0 e) from rfl]
    by_cases ht : o.trailingComma = true
    · rw [if_pos ht]
      obtain ⟨We, hTW, hEW⟩ := lex_renderLines e hve o d 0 1
      refine ⟨We ++ [.comma], .singleTrail e We hTW, fun s hs => ?_⟩
      rw [flattenL_appendToLast o "," _ (renderLines_ne_nil e o d 0 1),
        show ("," : String).toList = [','] from rfl,
        List.append_assoc, List.singleton_append,
        hEW _ (sepOK_comma _), lex_comma]
      cases lex s with
      | none => rfl
      | some ts => simp
    · rw [if_neg ht]
      obtain ⟨We, hTW, hEW⟩ := lex_renderLines e hve o d 0 0
      exact ⟨We, .single e We hTW, hEW⟩
  | .cons e (.cons e2 es2) =>
    intro o d
    rw [ExprList.valid, Bool.and_eq_true] at hv
    obtain ⟨hve, hvrest⟩ := hv
    rw [show renderElemsLines o d (.cons e (.cons e2 es2)) =
      appendToLast "," (renderLines o d 0 1 e) ++
        renderElemsLines o d (.cons e2 es2) from rfl]
    obtain ⟨We, hTWe, hEe⟩ := lex_renderLines e hve o d 0 1
    obtain ⟨W', hTW', hE'⟩ :=
      lex_renderElemsLines (.cons e2 es2) hvrest (by intro hx; cases hx) o d
    refine ⟨We ++ .comma :: W',
      .cons e _ We W' hTWe hTW' (by intro hx; cases hx), fun s hs => ?_⟩
    rw [flattenL_append o _ (appendToLast_ne_nil (renderLines_ne_nil e o d 0 1)),
      flattenL_appendToLast o "," _ (renderLines_ne_nil e o d 0 1),
      flattenT_of_ne o (renderElemsLines_ne_nil (.cons e2 es2) (by intro hx; cases hx) o d),
      show ("," : String).toList = [','] from rfl]
    simp only [List.append_assoc, List.cons_append, List.singleton_append, List.nil_append]
    rw [hEe _ (sepOK_comma _), lex_comma, lex_ws_cons (by decide), hE' s hs]
    cases lex s with
    | none => rfl
    | some ts => simp
end

theorem toList_mk (l : List Char) : (⟨l⟩ : String).toList = l := rfl

theorem lexF_tokValid :
    ∀ f cs ts, lexF f cs = some ts → ∀ t ∈ ts, TokValid t = true := by
  intro f
  induction f with
  | zero => intro cs ts h; simp [lexF] at h
  | succ f ih =>
    have step : ∀ (X : List Char) (T : Tok) (ts : List Tok),
        (lexF f X).map (T :: ·) = some ts → TokValid T = true →
        ∀ t ∈ ts, TokValid t = true := by
      intro X T ts h hT t ht
      cases hx : lexF f X with
      | none => rw [hx] at h; cases h
      | some ts0 =>
        rw [hx] at h
        simp only [Option.map_some'] at h
        cases h
        rcases List.mem_cons.mp ht with h1 | h2
        · rw [h1]; exact hT
        · exact ih X ts0 hx t h2
    intro cs ts h
    rcases cs with _ | ⟨c, cs'⟩
    · have h2 : some ([] : List Tok) = some ts := h
      cases h2
      intro t ht
      cases ht
    · rw [lexF] at h
      by_cases hc1 : isWsC c = true
      · rw [if_pos hc1] at h
        exact ih cs' ts h
      rw [if_neg hc1] at h
      by_cases hc2 : isDigitC c = true
      · rw [if_pos hc2] at h
        exact step _ _ _ h rfl
      rw [if_neg hc2] at h
      by_cases hc3 : isAlphaC c = true
      · rw [if_pos hc3] at h
        by_cases hin : (⟨c :: cs'.takeWhile isIdentC⟩ : String) = "in"
        · simp only [if_pos hin] at h
          exact step _ _ _ h rfl
        · simp only [if_neg hin] at h
          refine step _ _ _ h ?_
          rw [TokValid, validIdent, toList_mk, validIdentChars]
          simp only [Bool.and_eq_true, List.all_eq_true, decide_eq_true_eq]
          refine ⟨⟨hc3, fun x hx => List.mem_takeWhile_imp hx⟩, ?_⟩
          simp [hin]
      rw [if_neg hc3] at h
      by_cases hc4 : c = '|'
      · rw [if_pos hc4] at h
        by_cases hc5 : cs'.head? = some '|'
        · rw [if_pos hc5] at h
          exact step _ _ _ h rfl
        · rw [if_neg hc5] at h
          cases h
      rw [if_neg hc4] at h
      by_cases hc6 : c = '&'
      · rw [if_pos hc6] at h
        by_cases hc7 : cs'.head? = some '&'
        · rw [if_pos hc7] at h
          exact step _ _ _ h rfl
        · rw [if_neg hc7] at h
          cases h
      rw [if_neg hc6] at h
      by_cases hc8 : c = '='
      · rw [if_pos hc8] at h
        by_cases hc9 : cs'.head? = some '='
        · rw [if_pos hc9] at h
          exact step _ _ _ h rfl
        · rw [if_neg hc9] at h
          cases h
      rw [if_neg hc8] at h
      by_cases hc10 : c = '!'
      · rw [if_pos hc10] at h
        by_cases hc11 : cs'.head? = some '='
        · rw [if_pos hc11] at h
          exact step _ _ _ h rfl
        · rw [if_neg hc11] at h
          cases h
      rw [if_neg hc10] at h
      by_cases hc12 : c = '<'
      · rw [if_pos hc12] at h
        by_cases hc13 : cs'.head? = some '='
        · rw [if_pos hc13] at h
          exact step _ _ _ h rfl
        · rw [if_neg hc13] at h
          exact step _ _ _ h rfl
      rw [if_neg hc12] at h
      by_cases hc14 : c = '>'
      · rw [if_pos hc14] at h
        by_cases hc15 : cs'.head? = some '='
        · rw [if_pos hc15] at h
          exact step _ _ _ h rfl
        · rw [if_neg hc15] at h
          exact step _ _ _ h rfl
      rw [if_neg hc14] at h
      by_cases hc16 : c = '+'
      · rw [if_pos hc16] at h
        exact step _ _ _ h rfl
      rw [if_neg hc16] at h
      by_cases hc17 : c = '-'
      · rw [if_pos hc17] at h
        exact step _ _ _ h rfl
      rw [if_neg hc17] at h
      by_cases hc18 : c = '*'
      · rw [if_pos hc18] at h
        exact step _ _ _ h rfl
      rw [if_neg hc18] at h
      by_cases hc19 : c = '/'
      · rw [if_pos hc19] at h
        exact step _ _ _ h rfl
      rw [if_neg hc19] at h
      by_cases hc20 : c = '%'
      · rw [if_pos hc20] at h
        exact step _ _ _ h rfl
      rw [if_neg hc20] at h
      by_cases hc21 : c = '('
      · rw [if_pos hc21] at h
        exact step _ _ _ h rfl
      rw [if_neg hc21] at h
      by_cases hc22 : c = ')'
      · rw [if_pos hc22] at h
        exact step _ _ _ h rfl
      rw [if_neg hc22] at h
      by_cases hc23 : c = '['
      · rw [if_pos hc23] at h
        exact step _ _ _ h rfl
      rw [if_neg hc23] at h
      by_cases hc24 : c = ']'
      · rw [if_pos hc24] at h
        exact step _ _ _ h rfl
      rw [if_neg hc24] at h
      by_cases hc25 : c = ','
      · rw [if_pos hc25] at h
        exact step _ _ _ h rfl
      rw [if_neg hc25] at h
      cases h

theorem none_ne_some {α : Type} {a : α} (h : (none : Option α) = some a) : False :=
  Option.noConfusion h

theorem parseF_valid :
    ∀ f,
      (∀ ts r, parseAtomF f ts = some r → (∀ t ∈ ts, TokValid t = true) →
        (r.1.valid = true ∧ ∀ t ∈ r.2, TokValid t = true)) ∧
      (∀ min ts r, parseBinF f min ts = some r → (∀ t ∈ ts, TokValid t = true) →
        (r.1.valid = true ∧ ∀ t ∈ r.2, TokValid t = true)) ∧
      (∀ min acc ts r, parseLoopF f min acc ts = some r → acc.valid = true →
        (∀ t ∈ ts, TokValid t = true) →
        (r.1.valid = true ∧ ∀ t ∈ r.2, TokValid t = true)) ∧
      (∀ ts r, parseElemsF f ts = some r → (∀ t ∈ ts, TokValid t = true) →
        (ExprList.valid r.1 = true ∧ ∀ t ∈ r.2, TokValid t = true)) := by
  intro f
  induction f with
  | zero =>
    exact ⟨fun ts r h => by simp [parseAtomF] at h,
           fun min ts r h => by simp [parseBinF] at h,
           fun min acc ts r h => by simp [parseLoopF] at h,
           fun ts r h => by simp [parseElemsF] at h⟩
  | succ f ih =>
    obtain ⟨ihA, ihB, ihL, ihE⟩ := ih
    have tail_valid : ∀ (t0 : Tok) (ts : List Tok), (∀ t ∈ t0 :: ts, TokValid t = true) →
        ∀ t ∈ ts, TokValid t = true := fun t0 ts h t ht => h t (List.mem_cons_of_mem t0 ht)
    have stepA : ∀ ts r, parseAtomF (f + 1) ts = some r → (∀ t ∈ ts, TokValid t = true) →
        (r.1.valid = true ∧ ∀ t ∈ r.2, TokValid t = true) := by
      intro ts r h hts
      rcases ts with _ | ⟨t, ts'⟩
      · simp [parseAtomF] at h
      · cases t with
        | num n =>
          have h2 : some ((Expr.lit n, ts') : Expr × List Tok) = some r := h
          cases h2
          exact ⟨rfl, tail_valid _ _ hts⟩
        | id s =>
          have h2 : some ((Expr.ident s, ts') : Expr × List Tok) = some r := h
          cases h2
          refine ⟨?_, tail_valid _ _ hts⟩
          have hh := hts (.id s) (List.mem_cons_self _ _)
          rw [TokValid] at hh
          rw [Expr.valid]
          exact hh
        | op o => simp [parseAtomF] at h
        | rpar => simp [parseAtomF] at h
        | rbrk => simp [parseAtomF] at h
        | comma => simp [parseAtomF] at h
        | lpar =>
          rw [parseAtomF] at h
          cases hb : parseBinF f 0 ts' with
          | none => rw [hb] at h; exact absurd h (by simp)
          | some pr =>
            obtain ⟨e, rest⟩ := pr
            rw [hb] at h
            obtain ⟨hev, hrest⟩ := ihB 0 ts' (e, rest) hb (tail_valid _ _ hts)
            rcases rest with _ | ⟨t0, ts2⟩
            · exact (none_ne_some (show (none : Option (Expr × List Tok)) = some r from h)).elim
            · cases t0 with
              | rpar =>
                have h2 : some ((e, ts2) : Expr × List Tok) = some r := h
                cases h2
                exact ⟨hev, tail_valid _ _ hrest⟩
              | num n => exact (none_ne_some (show (none : Option (Expr × List Tok)) = some r from h)).elim
              | id s => exact (none_ne_some (show (none : Option (Expr × List Tok)) = some r from h)).elim
              | op o => exact (none_ne_some (show (none : Option (Expr × List Tok)) = some r from h)).elim
              | lpar => exact (none_ne_some (show (none : Option (Expr × List Tok)) = some r from h)).elim
              | lbrk => exact (none_ne_some (show (none : Option (Expr × List Tok)) = some r from h)).elim
              | rbrk => exact (none_ne_some (show (none : Option (Expr × List Tok)) = some r from h)).elim
              | comma => exact (none_ne_some (show (none : Option (Expr × List Tok)) = some r from h)).elim
        | lbrk =>
          rw [parseAtomF] at h
          by_cases hsr : startsRbrk ts' = true
          · rw [if_pos hsr] at h
            have h2 : some ((Expr.listE .nil, ts'.tail) : Expr × List Tok) = some r := h
            cases h2
            refine ⟨rfl, ?_⟩
            intro t ht
            exact tail_valid _ _ hts t (List.mem_of_mem_tail ht)
          · rw [if_neg hsr] at h
            cases he : parseElemsF f ts' with
            | none => rw [he] at h; exact absurd h (by simp)
            | some pr2 =>
              obtain ⟨es, rest⟩ := pr2
              rw [he] at h
              obtain ⟨hesv, hrest⟩ := ihE ts' (es, rest) he (tail_valid _ _ hts)
              rcases rest with _ | ⟨t0, ts2⟩
              · exact (none_ne_some (show (none : Option (Expr × List Tok)) = some r from h)).elim
              · cases t0 with
                | rbrk =>
                  have h2 : some ((Expr.listE es, ts2) : Expr × List Tok) = some r := h
                  cases h2
                  refine ⟨?_, tail_valid _ _ hrest⟩
                  rw [Expr.valid]
                  exact hesv
                | num n => exact (none_ne_some (show (none : Option (Expr × List Tok)) = some r from h)).elim
                | id s => exact (none_ne_some (show (none : Option (Expr × List Tok)) = some r from h)).elim
                | op o => exact (none_ne_some (show (none : Option (Expr × List Tok)) = some r from h)).elim
                | lpar => exact (none_ne_some (show (none : Option (Expr × List Tok)) = some r from h)).elim
                | lbrk => exact (none_ne_some (show (none : Option (Expr × List Tok)) = some r from h)).elim
                | rpar => exact (none_ne_some (show (none : Option (Expr × List Tok)) = some r from h)).elim
                | comma => exact (none_ne_some (show (none : Option (Expr × List Tok)) = some r from h)).elim
    have stepB : ∀ min ts r, parseBinF (f + 1) min ts = some r →
        (∀ t ∈ ts, TokValid t = true) →
        (r.1.valid = true ∧ ∀ t ∈ r.2, TokValid t = true) := by
      intro min ts r h hts
      rw [parseBinF] at h
      cases ha : parseAtomF f ts with
      | none => rw [ha] at h; exact absurd h (by simp)
      | some pr =>
        obtain ⟨l, ts1⟩ := pr
        rw [ha] at h
        obtain ⟨hlv, hts1⟩ := ihA ts (l, ts1) ha hts
        exact ihL min l ts1 r h hlv hts1
    have stepL : ∀ min acc ts r, parseLoopF (f + 1) min acc ts = some r →
        acc.valid = true → (∀ t ∈ ts, TokValid t = true) →
        (r.1.valid = true ∧ ∀ t ∈ r.2, TokValid t = true) := by
      intro min acc ts r h hacc hts
      rcases ts with _ | ⟨t, ts'⟩
      · have h2 : some ((acc, []) : Expr × List Tok) = some r := h
        cases h2
        exact ⟨hacc, hts⟩
      · cases t with
        | op o =>
          rw [parseLoopF] at h
          by_cases hp : min ≤ o.prec
          · rw [if_pos hp] at h
            cases hb : parseBinF f (o.prec + 1) ts' with
            | none => rw [hb] at h; exact absurd h (by simp)
            | some pr =>
              obtain ⟨rr, ts2⟩ := pr
              rw [hb] at h
              obtain ⟨hrv, hts2⟩ := ihB (o.prec + 1) ts' (rr, ts2) hb (tail_valid _ _ hts)
              refine ihL min (.binary o acc rr) ts2 r h ?_ hts2
              rw [Expr.valid, Bool.and_eq_true]
              exact ⟨hacc, hrv⟩
          · rw [if_neg hp] at h
            have h2 : some ((acc, Tok.op o :: ts') : Expr × List Tok) = some r := h
            cases h2
            exact ⟨hacc, hts⟩
        | num n =>
          have h2 : some ((acc, Tok.num n :: ts') : Expr × List Tok) = some r := h
          cases h2
          exact ⟨hacc, hts⟩
        | id s =>
          have h2 : some ((acc, Tok.id s :: ts') : Expr × List Tok) = some r := h
          cases h2
          exact ⟨hacc, hts⟩
        | lpar =>
          have h2 : some ((acc, Tok.lpar :: ts') : Expr × List Tok) = some r := h
          cases h2
          exact ⟨hacc, hts⟩
        | rpar =>
          have h2 : some ((acc, Tok.rpar :: ts') : Expr × List Tok) = some r := h
          cases h2
          exact ⟨hacc, hts⟩
        | lbrk =>
          have h2 : some ((acc, Tok.lbrk :: ts') : Expr × List Tok) = some r := h
          cases h2
          exact ⟨hacc, hts⟩
        | rbrk =>
          have h2 : some ((acc, Tok.rbrk :: ts') : Expr × List Tok) = some r := h
          cases h2
          exact ⟨hacc, hts⟩
        | comma =>
          have h2 : some ((acc, Tok.comma :: ts') : Expr × List Tok) = some r := h
          cases h2
          exact ⟨hacc, hts⟩
    have stepE : ∀ ts r, parseElemsF (f + 1) ts = some r →
        (∀ t ∈ ts, TokValid t = true) →
        (ExprList.valid r.1 = true ∧ ∀ t ∈ r.2, TokValid t = true) := by
      intro ts r h hts
      rw [parseElemsF] at h
      cases hb : parseBinF f 0 ts with
      | none => rw [hb] at h; exact absurd h (by simp)
      | some pr =>
        obtain ⟨e, rest⟩ := pr
        rw [hb] at h
        obtain ⟨hev, hrest⟩ := ihB 0 ts (e, rest) hb hts
        have hsingle : ∀ (u : List Tok), ExprList.valid (ExprList.cons e .nil) = true := by
          intro u
          rw [ExprList.valid, Bool.and_eq_true]
          exact ⟨hev, rfl⟩
        rcases rest with _ | ⟨t3, ts3⟩
        · have h2 : some ((ExprList.cons e .nil, []) : ExprList × List Tok) = some r := h
          cases h2
          exact ⟨hsingle [], hrest⟩
        · cases t3 with
          | comma =>
            have h2 : (if startsRbrk ts3 then some (ExprList.cons e .nil, ts3)
                else
                  match parseElemsF f ts3 with
                  | some (es, rr) => some (.cons e es, rr)
                  | none => none) = some r := h
            by_cases hsr : startsRbrk ts3 = true
            · rw [if_pos hsr] at h2
              cases h2
              exact ⟨hsingle [], tail_valid _ _ hrest⟩
            · rw [if_neg hsr] at h2
              cases he : parseElemsF f ts3 with
              | none => rw [he] at h2; exact absurd h2 (by simp)
              | some pr2 =>
                obtain ⟨es2, rest2⟩ := pr2
                rw [he] at h2
                have h3 : some ((ExprList.cons e es2, rest2) : ExprList × List Tok)
                    = some r := h2
                cases h3
                obtain ⟨hes2, hrest2⟩ := ihE ts3 (es2, rest2) he (tail_valid _ _ hrest)
                refine ⟨?_, hrest2⟩
                rw [ExprList.valid, Bool.and_eq_true]
                exact ⟨hev, hes2⟩
          | num n =>
            have h2 : some ((ExprList.cons e .nil, Tok.num n :: ts3) : ExprList × List Tok)
                = some r := h
            cases h2
            exact ⟨hsingle [], hrest⟩
          | id s =>
            have h2 : some ((ExprList.cons e .nil, Tok.id s :: ts3) : ExprList × List Tok)
                = some r := h
            cases h2
            exact ⟨hsingle [], hrest⟩
          | op o =>
            have h2 : some ((ExprList.cons e .nil, Tok.op o :: ts3) : ExprList × List Tok)
                = some r := h
            cases h2
            exact ⟨hsingle [], hrest⟩
          | lpar =>
            have h2 : some ((ExprList.cons e .nil, Tok.lpar :: ts3) : ExprList × List Tok)
                = some r := h
            cases h2
            exact ⟨hsingle [], hrest⟩
          | rpar =>
            have h2 : some ((ExprList.cons e .nil, Tok.rpar :: ts3) : ExprList × List Tok)
                = some r := h
            cases h2
            exact ⟨hsingle [], hrest⟩
          | lbrk =>
            have h2 : some ((ExprList.cons e .nil, Tok.lbrk :: ts3) : ExprList × List Tok)
                = some r := h
            cases h2
            exact ⟨hsingle [], hrest⟩
          | rbrk =>
            have h2 : some ((ExprList.cons e .nil, Tok.rbrk :: ts3) : ExprList × List Tok)
                = some r := h
            cases h2
            exact ⟨hsingle [], hrest⟩
    exact ⟨stepA, stepB, stepL, stepE⟩

/-- Any token stream the relation admits parses back, at canonical fuel,
to exactly the originating expression. -/
theorem parseToks_tokensOf {e : Expr} {W : List Tok} (h : TokensOf e W) :
    parseToks W = some e := by
  have hb : PB 0 (W ++ []) (e, []) :=
    parse_tokensOf h 0 [] (e, []) (Nat.zero_le _) (by exact stopsFor_nonop rfl)
      (PL_stop (by exact stops_nonop rfl))
  rw [List.append_nil] at hb
  obtain ⟨f, hf⟩ := hb
  have hc := (parseF_norm f).2.1 0 W (e, []) hf (4 * W.length + 5) (by omega)
  rw [parseToks, hc]

theorem joinNL_toList (o : FormatOptions) :
    ∀ (lines : List Line), lines ≠ [] →
      (joinNL (lines.map (lineText o))).toList = flattenL o lines ++ ['\n'] := by
  intro lines hne
  induction lines with
  | nil => exact absurd rfl hne
  | cons x ls ih =>
    obtain ⟨d, str⟩ := x
    rcases ls with _ | ⟨y, ls'⟩
    · rw [show joinNL (((d, str) :: []).map (lineText o)) = lineText o (d, str) ++ "\n"
        from rfl]
      rw [toList_append, lineText, toList_append, flattenL, flattenT]
      simp
    · rw [show joinNL (((d, str) :: y :: ls').map (lineText o)) =
        lineText o (d, str) ++ "\n" ++ joinNL ((y :: ls').map (lineText o)) from rfl]
      rw [toList_append, toList_append, lineText, toList_append, ih (by simp),
        show flattenL o ((d, str) :: y :: ls') =
          (indentText o d).toList ++ str.toList ++ flattenT o (y :: ls') from rfl,
        flattenT_cons o y ls']
      simp [List.append_assoc]

/-- The facade's output text is the flattened line block followed by the
single trailing newline. -/
theorem renderText_toList (o : FormatOptions) (e : Expr) :
    (renderText o e).toList = flattenL o (renderLines o 0 0 0 e) ++ ['\n'] := by
  rw [renderText]
  exact joinNL_toList o _ (renderLines_ne_nil e o 0 0 0)

/-- Parsing the facade's rendered text of a valid expression recovers that
expression exactly. -/
theorem parseCel_renderText (o : FormatOptions) (e : Expr) (hv : e.valid = true) :
    parseCel (renderText o e) = .ok e := by
  obtain ⟨W, hTW, hlex⟩ := lex_renderLines e hv o 0 0 0
  have hl : lex ((renderText o e).toList) = some W := by
    rw [renderText_toList, hlex ['\n'] (sepOK_nl []), lex_ws_cons (by decide), lex_nil]
    simp
  simp only [parseCel, hl, parseToks_tokensOf hTW]

/-- A successful parse only ever builds expressions whose identifiers are
lexically valid, because the lexer only emits valid identifier tokens. -/
theorem parseCel_valid {s : String} {e : Expr} (h : parseCel s = .ok e) :
    e.valid = true := by
  rw [parseCel] at h
  cases hl : lex s.toList with
  | none => rw [hl] at h; exact absurd h (by simp)
  | some ts =>
    rw [hl] at h
    have h' : (match parseToks ts with
        | some e => (Except.ok e : Except ParseError Expr)
        | none => Except.error ⟨"syntax error", 0⟩) = Except.ok e := h
    cases hp : parseToks ts with
    | none => rw [hp] at h'; exact absurd h' (by simp)
    | some e2 =>
      rw [hp] at h'
      have h2 : (Except.ok e2 : Except ParseError Expr) = .ok e := h'
      cases h2
      rw [parseToks] at hp
      cases hb : parseBinF (4 * ts.length + 5) 0 ts with
      | none => rw [hb] at hp; exact absurd hp (by simp)
      | some pr =>
        obtain ⟨e3, rest⟩ := pr
        rw [hb] at hp
        rcases rest with _ | ⟨t0, ts2⟩
        · have h3 : some e3 = some e := hp
          cases h3
          exact ((parseF_valid _).2.1 0 ts (e, []) hb (lexF_tokValid _ _ _ hl)).1
        · exact (none_ne_some (show (none : Option Expr) = some e from hp)).elim

theorem identC_charOK {c : Char} (h : isIdentC c = true) :
    (!(c == '\n') && !(c == ' ') && !(c == '\t') && !(c == ',')) = true := by
  simp only [Bool.and_eq_true, Bool.not_eq_true', beq_eq_false_iff_ne, ne_eq]
  refine ⟨⟨⟨?_, ?_⟩, ?_⟩, ?_⟩ <;> · intro he; subst he; revert h; decide

theorem digitC_charOK {c : Char} (h : isDigitC c = true) :
    (!(c == '\n') && !(c == ' ') && !(c == '\t') && !(c == ',')) = true :=
  identC_charOK (ident_true_of_digit h)

theorem validIdent_chars {w : String} (hv : validIdent w = true) :
    ∀ c ∈ w.toList, isIdentC c = true := by
  rw [validIdent, Bool.and_eq_true] at hv
  obtain ⟨hvc, _⟩ := hv
  rcases hh : w.toList with _ | ⟨c0, rest⟩
  · intro c hc; simp at hc
  · rw [hh, validIdentChars, Bool.and_eq_true] at hvc
    intro c hc
    rcases List.mem_cons.mp hc with h1 | h2
    · rw [h1]; exact ident_true_of_alpha hvc.1
    · exact (List.all_eq_true.mp hvc.2) c h2

theorem noNL_append {a b : List Char} (ha : noNL a = true) (hb : noNL b = true) :
    noNL (a ++ b) = true := by
  rw [noNL] at ha hb ⊢
  rw [List.all_append, ha, hb]
  rfl

theorem noNL_all {cs : List Char}
    (h : ∀ c ∈ cs, (!(c == '\n') && !(c == ' ') && !(c == '\t') && !(c == ',')) = true) :
    noNL cs = true := by
  rw [noNL, List.all_eq_true]
  intro c hc
  have := h c hc
  simp only [Bool.and_eq_true] at this
  exact this.1.1.1

theorem lastOK_append {a b : List Char} (hb : b ≠ []) (h : lastOK b = true) :
    lastOK (a ++ b) = true := by
  rw [lastOK] at h ⊢
  rw [List.getLast?_append_of_ne_nil a hb]
  exact h

theorem softLastOK_append {a b : List Char} (hb : b ≠ []) (h : softLastOK b = true) :
    softLastOK (a ++ b) = true := by
  rw [softLastOK] at h ⊢
  rw [List.getLast?_append_of_ne_nil a hb]
  exact h

theorem softLastOK_of_lastOK {cs : List Char} (h : lastOK cs = true) :
    softLastOK cs = true := by
  rw [lastOK] at h
  rw [softLastOK]
  cases hg : cs.getLast? with
  | none => rfl
  | some c =>
    rw [hg] at h
    have h2 : (!(c == '\n') && !(c == ' ') && !(c == '\t') && !(c == ',')) = true := h
    simp only [Bool.and_eq_true] at h2
    show (!(c == '\n') && !(c == ' ') && !(c == '\t')) = true
    rw [h2.1.1.1, h2.1.1.2, h2.1.2]
    rfl

theorem lastOK_of_mem {cs : List Char} (hne : cs ≠ [])
    (h : ∀ c ∈ cs, (!(c == '\n') && !(c == ' ') && !(c == '\t') && !(c == ',')) = true) :
    lastOK cs = true := by
  rw [lastOK]
  cases hg : cs.getLast? with
  | none => rfl
  | some c => exact h c (List.mem_of_mem_getLast? hg)

theorem opStr_facts (op : BinOp) :
    op.str.toList ≠ [] ∧ noNL op.str.toList = true ∧ lastOK op.str.toList = true := by
  cases op <;> exact ⟨by decide, by decide, by decide⟩

mutual
/-- The single-line rendering of a valid expression is nonempty, contains
no newline, and ends in a hard character (no whitespace, no comma). -/
theorem goodSL (e : Expr) (hv : e.valid = true) :
    (renderSL e).toList ≠ [] ∧ noNL (renderSL e).toList = true ∧
      lastOK (renderSL e).toList = true := by
  match e with
  | .lit n =>
    rw [show renderSL (.lit n) = renderNat n from rfl]
    refine ⟨renderNat_ne_nil n, noNL_all ?_, lastOK_of_mem (renderNat_ne_nil n) ?_⟩ <;>
      exact fun c hc => digitC_charOK (renderNat_digits c hc)
  | .ident w =>
    rw [show renderSL (.ident w) = w from rfl]
    have hvw : validIdent w = true := hv
    have hne : w.toList ≠ [] := by
      intro hx
      rw [validIdent, Bool.and_eq_true] at hvw
      have := hvw.1
      rw [hx] at this
      exact absurd this (by decide)
    refine ⟨hne, noNL_all ?_, lastOK_of_mem hne ?_⟩ <;>
      exact fun c hc => identC_charOK (validIdent_chars hvw c hc)
  | .binary op l r =>
    rw [Expr.valid, Bool.and_eq_true] at hv
    obtain ⟨hvl, hvr⟩ := hv
    obtain ⟨hlne, hlnl, _⟩ := goodSL l hvl
    obtain ⟨hrne, hrnl, hrlast⟩ := goodSL r hvr
    rw [renderSL]
    have hLnl : noNL (if needs_parens l op .left then "(" ++ renderSL l ++ ")"
        else renderSL l).toList = true := by
      by_cases hbl : needs_parens l op .left = true
      · rw [if_pos hbl, toList_append, toList_append]
        exact noNL_append (noNL_append (by decide) hlnl) (by decide)
      · rw [if_neg hbl]; exact hlnl
    have hR : (if needs_parens r op .right then "(" ++ renderSL r ++ ")"
          else renderSL r).toList ≠ [] ∧
        noNL (if needs_parens r op .right then "(" ++ renderSL r ++ ")"
          else renderSL r).toList = true ∧
        lastOK (if needs_parens r op .right then "(" ++ renderSL r ++ ")"
          else renderSL r).toList = true := by
      by_cases hbr : needs_parens r op .right = true
      · rw [if_pos hbr, toList_append, toList_append]
        exact ⟨by simp, noNL_append (noNL_append (by decide) hrnl) (by decide),
          lastOK_append (by decide) (by decide)⟩
      · rw [if_neg hbr]; exact ⟨hrne, hrnl, hrlast⟩
    obtain ⟨hRne, hRnl, hRlast⟩ := hR
    rw [toList_append, toList_append, toList_append, toList_append]
    refine ⟨by simp [hRne], ?_, lastOK_append hRne hRlast⟩
    exact noNL_append (noNL_append (noNL_append (noNL_append hLnl (by decide))
      (opStr_facts op).2.1) (by decide)) hRnl
  | .listE es =>
    have hves : es.valid = true := hv
    obtain ⟨hnl, _⟩ := goodSLElems es hves
    rw [renderSL, toList_append, toList_append]
    refine ⟨by simp, ?_, lastOK_append (by decide) (by decide)⟩
    exact noNL_append (noNL_append (by decide) hnl) (by decide)

/-- The single-line rendering of valid list elements contains no newline;
when the element list is nonempty it is also nonempty and ends hard. -/
theorem goodSLElems (es : ExprList) (hv : es.valid = true) :
    noNL (renderSLElems es).toList = true ∧
      (es ≠ .nil → (renderSLElems es).toList ≠ [] ∧
        lastOK (renderSLElems es).toList = true) := by
  match es with
  | .nil => exact ⟨by decide, fun hx => absurd rfl hx⟩
  | .cons e .nil =>
    rw [ExprList.valid, Bool.and_eq_true] at hv
    obtain ⟨hne, hnl, hlast⟩ := goodSL e hv.1
    rw [renderSLElems]
    exact ⟨hnl, fun _ => ⟨hne, hlast⟩⟩
  | .cons e (.cons e2 es2) =>
    rw [ExprList.valid, Bool.and_eq_true] at hv
    obtain ⟨hve, hvrest⟩ := hv
    obtain ⟨hne, hnl, _⟩ := goodSL e hve
    obtain ⟨hrnl, hrrest⟩ := goodSLElems (.cons e2 es2) hvrest
    obtain ⟨hrne, hrlast⟩ := hrrest (by intro hx; cases hx)
    rw [show renderSLElems (.cons e (.cons e2 es2)) =
      renderSL e ++ ", " ++ renderSLElems (.cons e2 es2) from rfl]
    rw [toList_append, toList_append]
    refine ⟨noNL_append (noNL_append hnl (by decide)) hrnl, fun _ => ?_⟩
    exact ⟨by simp [hrne], lastOK_append hrne hrlast⟩
end

theorem mem_appendToLast (suf : String) :
    ∀ (X : List Line) (l : Line), l ∈ appendToLast suf X →
      l ∈ X ∨ ∃ l0 ∈ X, l = (l0.1, l0.2 ++ suf) := by
  intro X
  match X with
  | [] => intro l hl; rw [appendToLast] at hl; cases hl
  | [(d, s)] =>
    intro l hl
    have hl2 : l ∈ [(d, s ++ suf)] := hl
    rcases List.mem_singleton.mp hl2 with h1
    exact Or.inr ⟨(d, s), List.mem_singleton.mpr rfl, h1⟩
  | (d, s) :: y :: X' =>
    intro l hl
    have hl2 : l ∈ (d, s) :: appendToLast suf (y :: X') := hl
    rcases List.mem_cons.mp hl2 with h1 | h2
    · exact Or.inl (h1 ▸ List.mem_cons_self _ _)
    · rcases mem_appendToLast suf (y :: X') l h2 with h3 | ⟨l0, hl0, he⟩
      · exact Or.inl (List.mem_cons_of_mem _ h3)
      · exact Or.inr ⟨l0, List.mem_cons_of_mem _ hl0, he⟩

theorem mem_prependToFirst (pre : String) :
    ∀ (X : List Line) (l : Line), l ∈ prependToFirst pre X →
      l ∈ X ∨ ∃ l0 ∈ X, l = (l0.1, pre ++ l0.2) := by
  intro X
  match X with
  | [] => intro l hl; rw [prependToFirst] at hl; cases hl
  | (d, s) :: X' =>
    intro l hl
    have hl2 : l ∈ (d, pre ++ s) :: X' := hl
    rcases List.mem_cons.mp hl2 with h1 | h2
    · exact Or.inr ⟨(d, s), List.mem_cons_self _ _, h1⟩
    · exact Or.inl (List.mem_cons_of_mem _ h2)

/-- Appending a nonempty, newline-free, hard-ending suffix to a line's
content keeps the line well shaped. -/
theorem goodLine_appendStr {l0 : Line} {suf : String} (h : GoodLine l0)
    (hs1 : suf.toList ≠ []) (hs2 : noNL suf.toList = true)
    (hs3 : softLastOK suf.toList = true) :
    GoodLine (l0.1, l0.2 ++ suf) := by
  obtain ⟨hne, hnl, _⟩ := h
  refine ⟨?_, ?_, ?_⟩
  · show (l0.2 ++ suf).toList ≠ []
    rw [toList_append]
    exact fun hx => hs1 (List.append_eq_nil.mp hx).2
  · show noNL (l0.2 ++ suf).toList = true
    rw [toList_append]
    exact noNL_append hnl hs2
  · show softLastOK (l0.2 ++ suf).toList = true
    rw [toList_append]
    exact softLastOK_append hs1 hs3

theorem goodLine_prependStr {l0 : Line} {pre : String} (h : GoodLine l0)
    (hp : noNL pre.toList = true) :
    GoodLine (l0.1, pre ++ l0.2) := by
  obtain ⟨hne, hnl, hlast⟩ := h
  refine ⟨?_, ?_, ?_⟩
  · show (pre ++ l0.2).toList ≠ []
    rw [toList_append]
    exact fun hx => hne (List.append_eq_nil.mp hx).2
  · show noNL (pre ++ l0.2).toList = true
    rw [toList_append]
    exact noNL_append hp hnl
  · show softLastOK (pre ++ l0.2).toList = true
    rw [toList_append]
    exact softLastOK_append hne hlast

theorem goodLines_appendToLast {suf : String} {X : List Line}
    (hX : ∀ l ∈ X, GoodLine l) (hs1 : suf.toList ≠ [])
    (hs2 : noNL suf.toList = true) (hs3 : softLastOK suf.toList = true) :
    ∀ l ∈ appendToLast suf X, GoodLine l := by
  intro l hl
  rcases mem_appendToLast suf X l hl with h1 | ⟨l0, hl0, he⟩
  · exact hX l h1
  · rw [he]
    exact goodLine_appendStr (hX l0 hl0) hs1 hs2 hs3

theorem goodLines_wrapParens {X : List Line} (hX : ∀ l ∈ X, GoodLine l) :
    ∀ l ∈ wrapParens X, GoodLine l := by
  intro l hl
  rw [wrapParens] at hl
  refine goodLines_appendToLast ?_ (by decide) (by decide) (by decide) l hl
  intro l2 hl2
  rcases mem_prependToFirst "(" X l2 hl2 with h1 | ⟨l0, hl0, he⟩
  · exact hX l2 h1
  · rw [he]
    exact goodLine_prependStr (hX l0 hl0) (by decide)

mutual
/-- Every line the layout engine emits for a valid expression is well
shaped: nonempty content, no embedded newline, no trailing whitespace. -/
theorem goodLines (e : Expr) (hv : e.valid = true) :
    ∀ o d pre suf, ∀ l ∈ renderLines o d pre suf e, GoodLine l := by
  intro o d pre suf
  match e with
  | .lit n =>
    intro l hl
    have hl2 : l ∈ [(d, renderSL (.lit n))] := hl
    rcases List.mem_singleton.mp hl2 with h1
    obtain ⟨hne, hnl, hlast⟩ := goodSL (.lit n) hv
    exact h1 ▸ ⟨hne, hnl, softLastOK_of_lastOK hlast⟩
  | .ident w =>
    intro l hl
    have hl2 : l ∈ [(d, renderSL (.ident w))] := hl
    rcases List.mem_singleton.mp hl2 with h1
    obtain ⟨hne, hnl, hlast⟩ := goodSL (.ident w) hv
    exact h1 ▸ ⟨hne, hnl, softLastOK_of_lastOK hlast⟩
  | .binary op l r =>
    rw [show renderLines o d pre suf (.binary op l r) =
      (if d * o.indentWidth + (renderSL (.binary op l r)).length + pre + suf ≤ o.maxWidth
       then [(d, renderSL (.binary op l r))]
       else appendToLast (" " ++ op.str)
          (if needs_parens l op .left then
            wrapParens (renderLines o d (pre + 1) (op.str.length + 2) l)
          else renderLines o d pre (op.str.length + 1) l) ++
          (if needs_parens r op .right then
            wrapParens (renderLines o (d + 1) 1 (suf + 1) r)
          else renderLines o (d + 1) 0 suf r)) from rfl]
    by_cases hfit :
        d * o.indentWidth + (renderSL (.binary op l r)).length + pre + suf ≤ o.maxWidth
    · rw [if_pos hfit]
      intro ln hln
      have hl2 : ln ∈ [(d, renderSL (.binary op l r))] := hln
      rcases List.mem_singleton.mp hl2 with h1
      obtain ⟨hne, hnl, hlast⟩ := goodSL (.binary op l r) hv
      exact h1 ▸ ⟨hne, hnl, softLastOK_of_lastOK hlast⟩
    · rw [if_neg hfit]
      rw [Expr.valid, Bool.and_eq_true] at hv
      obtain ⟨hvl, hvr⟩ := hv
      have hq1 : (" " ++ op.str).toList ≠ [] := by
        rw [toList_append]; simp
      have hq2 : noNL (" " ++ op.str).toList = true := by
        rw [toList_append]; exact noNL_append (by decide) (opStr_facts op).2.1
      have hq3 : softLastOK (" " ++ op.str).toList = true := by
        rw [toList_append]
        exact softLastOK_append (opStr_facts op).1
          (softLastOK_of_lastOK (opStr_facts op).2.2)
      intro ln hln
      rcases List.mem_append.mp hln with h1 | h2
      · refine goodLines_appendToLast ?_ hq1 hq2 hq3 ln h1
        by_cases hbl : needs_parens l op .left = true
        · rw [if_pos hbl]
          exact goodLines_wrapParens (goodLines l hvl o d (pre + 1) (op.str.length + 2))
        · rw [if_neg hbl]
          exact goodLines l hvl o d pre (op.str.length + 1)
      · revert h2
        by_cases hbr : needs_parens r op .right = true
        · rw [if_pos hbr]
          exact fun h2 =>
            goodLines_wrapParens (goodLines r hvr o (d + 1) 1 (suf + 1)) ln h2
        · rw [if_neg hbr]
          exact fun h2 => goodLines r hvr o (d + 1) 0 suf ln h2
  | .listE es =>
    rw [show renderLines o d pre suf (.listE es) =
      (if d * o.indentWidth + (renderSL (.listE es)).length + pre + suf ≤ o.maxWidth
       then [(d, renderSL (.listE es))]
       else (d, "[") :: renderElemsLines o (d + 1) es ++ [(d, "]")]) from rfl]
    by_cases hfit :
        d * o.indentWidth + (renderSL (.listE es)).length + pre + suf ≤ o.maxWidth
    · rw [if_pos hfit]
      intro ln hln
      have hl2 : ln ∈ [(d, renderSL (.listE es))] := hln
      rcases List.mem_singleton.mp hl2 with h1
      obtain ⟨hne, hnl, hlast⟩ := goodSL (.listE es) hv
      exact h1 ▸ ⟨hne, hnl, softLastOK_of_lastOK hlast⟩
    · rw [if_neg hfit]
      have hves : es.valid = true := hv
      intro ln hln
      rcases List.mem_cons.mp hln with h1 | h2
      · rw [h1]
        exact ⟨show ("[" : String).toList ≠ [] by decide,
          show noNL ("[" : String).toList = true by decide,
          show softLastOK ("[" : String).toList = true by decide⟩
      · rcases List.mem_append.mp h2 with h3 | h4
        · exact goodElemsLines es hves o (d + 1) ln h3
        · rcases List.mem_singleton.mp h4 with h5
          rw [h5]
          exact ⟨show ("]" : String).toList ≠ [] by decide,
            show noNL ("]" : String).toList = true by decide,
            show softLastOK ("]" : String).toList = true by decide⟩

/-- Every line emitted for a wrapped element list is well shaped. -/
theorem goodElemsLines (es : ExprList) (hv : es.valid = true) :
    ∀ o d, ∀ l ∈ renderElemsLines o d es, GoodLine l := by
  intro o d
  match es with
  | .nil => intro l hl; rw [renderElemsLines] at hl; cases hl
  | .cons e .nil =>
    rw [ExprList.valid, Bool.and_eq_true] at hv
    rw [show renderElemsLines o d (.cons e ExprList.nil) =
      (if o.trailingComma then appendToLast "," (renderLines o d 0 1 e)
       else renderLines o d 0 0 e) from rfl]
    by_cases ht : o.trailingComma = true
    · rw [if_pos ht]
      exact goodLines_appendToLast (goodLines e hv.1 o d 0 1)
        (by decide) (by decide) (by decide)
    · rw [if_neg ht]
      exact goodLines e hv.1 o d 0 0
  | .cons e (.cons e2 es2) =>
    rw [ExprList.valid, Bool.and_eq_true] at hv
    obtain ⟨hve, hvrest⟩ := hv
    rw [show renderElemsLines o d (.cons e (.cons e2 es2)) =
      appendToLast "," (renderLines o d 0 1 e) ++
        renderElemsLines o d (.cons e2 es2) from rfl]
    intro l hl
    rcases List.mem_append.mp hl with h1 | h2
    · exact goodLines_appendToLast (goodLines e hve o d 0 1)
        (by decide) (by decide) (by decide) l h1
    · exact goodElemsLines (.cons e2 es2) hvrest o d l h2
end

/-- The last character of a flattened block comes from the last character
of one of its line contents. -/
theorem flattenL_getLast (o : FormatOptions) :
    ∀ (lines : List Line), (∀ l ∈ lines, l.2.toList ≠ []) →
      ∀ c, (flattenL o lines).getLast? = some c →
        ∃ l ∈ lines, l.2.toList.getLast? = some c := by
  intro lines
  induction lines with
  | nil => intro _ c hc; rw [flattenL] at hc; simp at hc
  | cons x ls ih =>
    obtain ⟨d, s⟩ := x
    intro hne c hc
    rw [flattenL] at hc
    rcases ls with _ | ⟨y, ls'⟩
    · rw [flattenT, List.append_nil] at hc
      rw [List.getLast?_append_of_ne_nil _ (hne (d, s) (List.mem_cons_self _ _))] at hc
      exact ⟨(d, s), List.mem_cons_self _ _, hc⟩
    · rw [flattenT_cons] at hc
      have hfne : flattenL o (y :: ls') ≠ [] := by
        obtain ⟨dy, sy⟩ := y
        rw [flattenL]
        intro hx
        rcases List.append_eq_nil.mp hx with ⟨h1, _⟩
        rcases List.append_eq_nil.mp h1 with ⟨_, h2⟩
        exact hne (dy, sy) (List.mem_cons_of_mem _ (List.mem_cons_self _ _)) h2
      rw [List.getLast?_append_of_ne_nil _
        (by simp : ('\n' :: flattenL o (y :: ls')) ≠ [])] at hc
      rw [show ('\n' :: flattenL o (y :: ls')) = ['\n'] ++ flattenL o (y :: ls') from rfl,
        List.getLast?_append_of_ne_nil _ hfne] at hc
      obtain ⟨l2, hl2, he⟩ := ih (fun l hl => hne l (List.mem_cons_of_mem _ hl)) c hc
      exact ⟨l2, List.mem_cons_of_mem _ hl2, he⟩

theorem appendToLast_getLast (suf : String) :
    ∀ (X : List Line), X ≠ [] →
      ∀ l, (appendToLast suf X).getLast? = some l →
        ∃ l0, X.getLast? = some l0 ∧ l = (l0.1, l0.2 ++ suf) := by
  intro X hX
  match X with
  | [(d, s)] =>
    intro l hl
    have hl2 : ([(d, s ++ suf)] : List Line).getLast? = some l := hl
    simp only [List.getLast?_singleton, Option.some.injEq] at hl2
    exact ⟨(d, s), rfl, hl2.symm⟩
  | (d, s) :: y :: X' =>
    intro l hl
    have ha : appendToLast suf ((d, s) :: y :: X') =
        (d, s) :: appendToLast suf (y :: X') := rfl
    rw [ha, show ((d, s) :: appendToLast suf (y :: X')) =
        [(d, s)] ++ appendToLast suf (y :: X') from rfl,
      List.getLast?_append_of_ne_nil _ (appendToLast_ne_nil (by simp))] at hl
    obtain ⟨l0, hl0, he⟩ := appendToLast_getLast suf (y :: X') (by simp) l hl
    refine ⟨l0, ?_, he⟩
    rw [show ((d, s) :: y :: X') = [(d, s)] ++ (y :: X') from rfl,
      List.getLast?_append_of_ne_nil _ (by simp)]
    exact hl0

/-- The last line of any rendered block ends in a hard character: no
whitespace and, in particular, no comma. -/
theorem lastLine_renderLines (e : Expr) (hv : e.valid = true) :
    ∀ o d pre suf l, (renderLines o d pre suf e).getLast? = some l →
      l.2.toList ≠ [] ∧ lastOK l.2.toList = true := by
  intro o d pre suf l
  match e with
  | .lit n =>
    intro hl
    have hl2 : ([(d, renderSL (.lit n))] : List Line).getLast? = some l := hl
    simp only [List.getLast?_singleton, Option.some.injEq] at hl2
    obtain ⟨hne, _, hlast⟩ := goodSL (.lit n) hv
    rw [← hl2]
    exact ⟨hne, hlast⟩
  | .ident w =>
    intro hl
    have hl2 : ([(d, renderSL (.ident w))] : List Line).getLast? = some l := hl
    simp only [List.getLast?_singleton, Option.some.injEq] at hl2
    obtain ⟨hne, _, hlast⟩ := goodSL (.ident w) hv
    rw [← hl2]
    exact ⟨hne, hlast⟩
  | .binary op l1 r =>
    rw [show renderLines o d pre suf (.binary op l1 r) =
      (if d * o.indentWidth + (renderSL (.binary op l1 r)).length + pre + suf ≤ o.maxWidth
       then [(d, renderSL (.binary op l1 r))]
       else appendToLast (" " ++ op.str)
          (if needs_parens l1 op .left then
            wrapParens (renderLines o d (pre + 1) (op.str.length + 2) l1)
          else renderLines o d pre (op.str.length + 1) l1) ++
          (if needs_parens r op .right then
            wrapParens (renderLines o (d + 1) 1 (suf + 1) r)
          else renderLines o (d + 1) 0 suf r)) from rfl]
    by_cases hfit :
        d * o.indentWidth + (renderSL (.binary op l1 r)).length + pre + suf ≤ o.maxWidth
    · rw [if_pos hfit]
      intro hl
      simp only [List.getLast?_singleton, Option.some.injEq] at hl
      obtain ⟨hne, _, hlast⟩ := goodSL (.binary op l1 r) hv
      rw [← hl]
      exact ⟨hne, hlast⟩
    · rw [if_neg hfit]
      rw [Expr.valid, Bool.and_eq_true] at hv
      obtain ⟨_, hvr⟩ := hv
      have hrlne : (if needs_parens r op .right then
          wrapParens (renderLines o (d + 1) 1 (suf + 1) r)
        else renderLines o (d + 1) 0 suf r) ≠ [] := by
        by_cases hbr : needs_parens r op .right = true
        · rw [if_pos hbr]
          exact wrapParens_ne_nil (renderLines_ne_nil r o (d + 1) 1 (suf + 1))
        · rw [if_neg hbr]
          exact renderLines_ne_nil r o (d + 1) 0 suf
      intro hl
      rw [List.getLast?_append_of_ne_nil _ hrlne] at hl
      revert hl
      by_cases hbr : needs_parens r op .right = true
      · rw [if_pos hbr]
        intro hl
        rw [wrapParens] at hl
        obtain ⟨l0, _, he⟩ := appendToLast_getLast ")" _
          (prependToFirst_ne_nil (renderLines_ne_nil r o (d + 1) 1 (suf + 1))) l hl
        rw [he]
        refine ⟨?_, ?_⟩
        · show (l0.2 ++ ")").toList ≠ []
          rw [toList_append]
          simp
        · show lastOK (l0.2 ++ ")").toList = true
          rw [toList_append]
          exact lastOK_append (by decide) (by decide)
      · rw [if_neg hbr]
        exact lastLine_renderLines r hvr o (d + 1) 0 suf l
  | .listE es =>
    rw [show renderLines o d pre suf (.listE es) =
      (if d * o.indentWidth + (renderSL (.listE es)).length + pre + suf ≤ o.maxWidth
       then [(d, renderSL (.listE es))]
       else (d, "[") :: renderElemsLines o (d + 1) es ++ [(d, "]")]) from rfl]
    by_cases hfit :
        d * o.indentWidth + (renderSL (.listE es)).length + pre + suf ≤ o.maxWidth
    · rw [if_pos hfit]
      intro hl
      simp only [List.getLast?_singleton, Option.some.injEq] at hl
      obtain ⟨hne, _, hlast⟩ := goodSL (.listE es) hv
      rw [← hl]
      exact ⟨hne, hlast⟩
    · rw [if_neg hfit]
      intro hl
      rw [show ((d, "[") :: renderElemsLines o (d + 1) es ++ [(d, "]")] : List Line) =
          ((d, "[") :: renderElemsLines o (d + 1) es) ++ [(d, "]")] from rfl,
        List.getLast?_append_of_ne_nil _ (by simp)] at hl
      simp only [List.getLast?_singleton, Option.some.injEq] at hl
      rw [← hl]
      exact ⟨show ("]" : String).toList ≠ [] by decide,
        show lastOK ("]" : String).toList = true by decide⟩

theorem boundsOK_appendToLast {o : FormatOptions} {q : String} {pre suf s1 : Nat} :
    ∀ {X : List Line}, BoundsOK o pre s1 X → q.length + suf ≤ s1 →
      BoundsOK o pre suf (appendToLast q X) := by
  intro X
  match X with
  | [] => intro _ _; rw [appendToLast]; trivial
  | [(d, s)] =>
    intro h he
    rw [BoundsOK] at h
    rw [show appendToLast q [(d, s)] = [(d, s ++ q)] from rfl, BoundsOK]
    refine ⟨?_, trivial⟩
    have hb : d * o.indentWidth + s.length + pre + s1 ≤ o.maxWidth := by
      have h1 := h.1
      rw [if_pos rfl] at h1
      exact h1
    show d * o.indentWidth + (s ++ q).length + pre +
      (if ([] : List Line) = [] then suf else 0) ≤ o.maxWidth
    rw [if_pos rfl]
    have hlen : (s ++ q).length = s.length + q.length := by
      show (s ++ q).toList.length = _
      rw [toList_append, List.length_append]
      rfl
    rw [hlen]
    omega
  | (d, s) :: y :: X' =>
    intro h he
    rw [BoundsOK] at h
    rw [show appendToLast q ((d, s) :: y :: X') =
      (d, s) :: appendToLast q (y :: X') from rfl, BoundsOK]
    obtain ⟨hb, hrest⟩ := h
    refine ⟨?_, boundsOK_appendToLast hrest he⟩
    rw [if_neg (by simp)] at hb
    rw [if_neg (appendToLast_ne_nil (by simp))]
    exact hb

theorem boundsOK_prependToFirst {o : FormatOptions} {p : String} {pre suf p1 : Nat} :
    ∀ {X : List Line}, BoundsOK o p1 suf X → p.length + pre ≤ p1 →
      BoundsOK o pre suf (prependToFirst p X) := by
  intro X
  match X with
  | [] => intro _ _; rw [prependToFirst]; trivial
  | (d, s) :: rest =>
    intro h he
    rw [BoundsOK] at h
    rw [prependToFirst, BoundsOK]
    obtain ⟨hb, hrest⟩ := h
    refine ⟨?_, hrest⟩
    have hb2 : d * o.indentWidth + s.length + p1 +
        (if rest = [] then suf else 0) ≤ o.maxWidth := hb
    show d * o.indentWidth + (p ++ s).length + pre +
      (if rest = [] then suf else 0) ≤ o.maxWidth
    have hlen : (p ++ s).length = p.length + s.length := by
      show (p ++ s).toList.length = _
      rw [toList_append, List.length_append]
      rfl
    rw [hlen]
    omega

theorem boundsOK_wrapParens {o : FormatOptions} {pre suf p1 s1 : Nat} {X : List Line}
    (h : BoundsOK o p1 s1 X) (hp : 1 + pre ≤ p1) (hs : 1 + suf ≤ s1) :
    BoundsOK o pre suf (wrapParens X) := by
  rw [wrapParens]
  exact boundsOK_appendToLast (boundsOK_prependToFirst h (by simpa using hp))
    (by simpa using hs)

theorem boundsOK_append {o : FormatOptions} {pre suf : Nat} :
    ∀ {X Y : List Line}, X ≠ [] → Y ≠ [] → BoundsOK o pre 0 X → BoundsOK o 0 suf Y →
      BoundsOK o pre suf (X ++ Y) := by
  intro X
  match X with
  | [] => intro Y hXne _ _ _; exact absurd rfl hXne
  | (d, s) :: X' =>
    intro Y hXne hYne hX hY
    rw [BoundsOK] at hX
    rw [List.cons_append, BoundsOK]
    obtain ⟨hb, hrest⟩ := hX
    rcases X' with _ | ⟨x2, X''⟩
    · rw [if_pos rfl] at hb
      refine ⟨?_, by rw [List.nil_append]; exact hY⟩
      rw [if_neg (by simp [hYne])]
      omega
    · rw [if_neg (by simp)] at hb
      refine ⟨?_, boundsOK_append (by simp) hYne hrest hY⟩
      rw [if_neg (by simp [hYne])]
      omega

theorem boundsOK_mem {o : FormatOptions} :
    ∀ {pre suf : Nat} {X : List Line}, BoundsOK o pre suf X →
      ∀ l ∈ X, l.1 * o.indentWidth + l.2.length ≤ o.maxWidth := by
  intro pre suf X
  match X with
  | [] => intro _ l hl; cases hl
  | x :: X' =>
    intro h l hl
    rw [BoundsOK] at h
    rcases List.mem_cons.mp hl with h1 | h2
    · rw [h1]
      have hb := h.1
      rcases X' with _ | _
      · rw [if_pos rfl] at hb; omega
      · rw [if_neg (by simp)] at hb; omega
    · exact boundsOK_mem h.2 l h2

mutual
/-- When every unbreakable unit fits its slot, every emitted line respects
the width limit: the first line including the parent's prefix reserve, the
last including its suffix reserve, interior lines plainly. -/
theorem renderLines_bounds (e : Expr) :
    ∀ o d pre suf, atomsFit o d pre suf e = true →
      BoundsOK o pre suf (renderLines o d pre suf e) := by
  intro o d pre suf hfitA
  match e with
  | .lit n =>
    rw [show renderLines o d pre suf (.lit n) = [(d, renderNat n)] from rfl, BoundsOK]
    refine ⟨?_, trivial⟩
    rw [if_pos rfl]
    exact of_decide_eq_true hfitA
  | .ident w =>
    rw [show renderLines o d pre suf (.ident w) = [(d, w)] from rfl, BoundsOK]
    refine ⟨?_, trivial⟩
    rw [if_pos rfl]
    exact of_decide_eq_true hfitA
  | .binary op l r =>
    rw [show renderLines o d pre suf (.binary op l r) =
      (if d * o.indentWidth + (renderSL (.binary op l r)).length + pre + suf ≤ o.maxWidth
       then [(d, renderSL (.binary op l r))]
       else appendToLast (" " ++ op.str)
          (if needs_parens l op .left then
            wrapParens (renderLines o d (pre + 1) (op.str.length + 2) l)
          else renderLines o d pre (op.str.length + 1) l) ++
          (if needs_parens r op .right then
            wrapParens (renderLines o (d + 1) 1 (suf + 1) r)
          else renderLines o (d + 1) 0 suf r)) from rfl]
    by_cases hfit :
        d * o.indentWidth + (renderSL (.binary op l r)).length + pre + suf ≤ o.maxWidth
    · rw [if_pos hfit, BoundsOK]
      refine ⟨?_, trivial⟩
      rw [if_pos rfl]
      exact hfit
    · rw [if_neg hfit]
      have hAB : ((if needs_parens l op .left then
            atomsFit o d (pre + 1) (op.str.length + 2) l
          else atomsFit o d pre (op.str.length + 1) l) &&
          (if needs_parens r op .right then atomsFit o (d + 1) 1 (suf + 1) r
          else atomsFit o (d + 1) 0 suf r)) = true := by
        have h2 : (decide (d * o.indentWidth + (renderSL (.binary op l r)).length +
            pre + suf ≤ o.maxWidth) ||
            ((if needs_parens l op .left then
                atomsFit o d (pre + 1) (op.str.length + 2) l
              else atomsFit o d pre (op.str.length + 1) l) &&
            (if needs_parens r op .right then atomsFit o (d + 1) 1 (suf + 1) r
              else atomsFit o (d + 1) 0 suf r))) = true := hfitA
        rw [Bool.or_eq_true] at h2
        rcases h2 with h3 | h3
        · exact absurd (of_decide_eq_true h3) hfit
        · exact h3
      rw [Bool.and_eq_true] at hAB
      obtain ⟨hA, hB⟩ := hAB
      have hll : BoundsOK o pre (op.str.length + 1)
          (if needs_parens l op .left then
            wrapParens (renderLines o d (pre + 1) (op.str.length + 2) l)
          else renderLines o d pre (op.str.length + 1) l) := by
        by_cases hbl : needs_parens l op .left = true
        · rw [if_pos hbl]
          rw [if_pos hbl] at hA
          exact boundsOK_wrapParens
            (renderLines_bounds l o d (pre + 1) (op.str.length + 2) hA)
            (by omega) (by omega)
        · rw [if_neg hbl]
          rw [if_neg hbl] at hA
          exact renderLines_bounds l o d pre (op.str.length + 1) hA
      have hrl : BoundsOK o 0 suf
          (if needs_parens r op .right then
            wrapParens (renderLines o (d + 1) 1 (suf + 1) r)
          else renderLines o (d + 1) 0 suf r) := by
        by_cases hbr : needs_parens r op .right = true
        · rw [if_pos hbr]
          rw [if_pos hbr] at hB
          exact boundsOK_wrapParens
            (renderLines_bounds r o (d + 1) 1 (suf + 1) hB)
            (by omega) (by omega)
        · rw [if_neg hbr]
          rw [if_neg hbr] at hB
          exact renderLines_bounds r o (d + 1) 0 suf hB
      have hllne : (if needs_parens l op .left then
          wrapParens (renderLines o d (pre + 1) (op.str.length + 2) l)
        else renderLines o d pre (op.str.length + 1) l) ≠ [] := by
        by_cases hbl : needs_parens l op .left = true
        · rw [if_pos hbl]
          exact wrapParens_ne_nil (renderLines_ne_nil l o d (pre + 1) (op.str.length + 2))
        · rw [if_neg hbl]
          exact renderLines_ne_nil l o d pre (op.str.length + 1)
      have hrlne : (if needs_parens r op .right then
          wrapParens (renderLines o (d + 1) 1 (suf + 1) r)
        else renderLines o (d + 1) 0 suf r) ≠ [] := by
        by_cases hbr : needs_parens r op .right = true
        · rw [if_pos hbr]
          exact wrapParens_ne_nil (renderLines_ne_nil r o (d + 1) 1 (suf + 1))
        · rw [if_neg hbr]
          exact renderLines_ne_nil r o (d + 1) 0 suf
      refine boundsOK_append (appendToLast_ne_nil hllne) hrlne ?_ hrl
      refine boundsOK_appendToLast hll ?_
      have hq : (" " ++ op.str).length = 1 + op.str.length := by
        show (" " ++ op.str).toList.length = _
        rw [toList_append, List.length_append]
        rfl
      omega
  | .listE es =>
    rw [show renderLines o d pre suf (.listE es) =
      (if d * o.indentWidth + (renderSL (.listE es)).length + pre + suf ≤ o.maxWidth
       then [(d, renderSL (.listE es))]
       else (d, "[") :: renderElemsLines o (d + 1) es ++ [(d, "]")]) from rfl]
    by_cases hfit :
        d * o.indentWidth + (renderSL (.listE es)).length + pre + suf ≤ o.maxWidth
    · rw [if_pos hfit, BoundsOK]
      refine ⟨?_, trivial⟩
      rw [if_pos rfl]
      exact hfit
    · rw [if_neg hfit]
      have hBr : (decide (d * o.indentWidth + 1 + pre ≤ o.maxWidth) &&
          decide (d * o.indentWidth + 1 + suf ≤ o.maxWidth) &&
          atomsFitElems o (d + 1) es) = true := by
        have h2 : (decide (d * o.indentWidth + (renderSL (.listE es)).length +
            pre + suf ≤ o.maxWidth) ||
            (decide (d * o.indentWidth + 1 + pre ≤ o.maxWidth) &&
             decide (d * o.indentWidth + 1 + suf ≤ o.maxWidth) &&
             atomsFitElems o (d + 1) es)) = true := hfitA
        rw [Bool.or_eq_true] at h2
        rcases h2 with h3 | h3
        · exact absurd (of_decide_eq_true h3) hfit
        · exact h3
      rw [Bool.and_eq_true, Bool.and_eq_true] at hBr
      obtain ⟨⟨hb1, hb2⟩, hE⟩ := hBr
      have hb1' := of_decide_eq_true hb1
      have hb2' := of_decide_eq_true hb2
      rw [show ((d, "[") :: renderElemsLines o (d + 1) es ++ [(d, "]")] : List Line) =
        (d, "[") :: (renderElemsLines o (d + 1) es ++ [(d, "]")]) from rfl, BoundsOK]
      refine ⟨?_, ?_⟩
      · rw [if_neg (by simp)]
        show d * o.indentWidth + ("[" : String).length + pre + 0 ≤ o.maxWidth
        rw [show ("[" : String).length = 1 from rfl]
        omega
      · have hlast : BoundsOK o 0 suf ([(d, "]")] : List Line) := by
          rw [BoundsOK]
          refine ⟨?_, trivial⟩
          rw [if_pos rfl]
          show d * o.indentWidth + ("]" : String).length + 0 + suf ≤ o.maxWidth
          rw [show ("]" : String).length = 1 from rfl]
          omega
        rcases hEnil : renderElemsLines o (d + 1) es with _ | ⟨x, E'⟩
        · rw [List.nil_append]
          exact hlast
        · rw [← hEnil]
          refine boundsOK_append (by rw [hEnil]; simp) (by simp) ?_ hlast
          exact renderElemsLines_bounds es o (d + 1) hE

/-- Element blocks of a wrapped list respect the width limit on every
line, the comma reserve included. -/
theorem renderElemsLines_bounds (es : ExprList) :
    ∀ o d, atomsFitElems o d es = true → BoundsOK o 0 0 (renderElemsLines o d es) := by
  intro o d hfitA
  match es with
  | .nil =>
    rw [show renderElemsLines o d ExprList.nil = [] from rfl]
    trivial
  | .cons e .nil =>
    rw [show renderElemsLines o d (.cons e ExprList.nil) =
      (if o.trailingComma then appendToLast "," (renderLines o d 0 1 e)
       else renderLines o d 0 0 e) from rfl]
    have h2 : (if o.trailingComma then atomsFit o d 0 1 e
        else atomsFit o d 0 0 e) = true := hfitA
    by_cases ht : o.trailingComma = true
    · rw [if_pos ht]
      rw [if_pos ht] at h2
      refine boundsOK_appendToLast (renderLines_bounds e o d 0 1 h2) ?_
      rw [show ("," : String).length = 1 from rfl]
    · rw [if_neg ht]
      rw [if_neg ht] at h2
      exact renderLines_bounds e o d 0 0 h2
  | .cons e (.cons e2 es2) =>
    rw [show renderElemsLines o d (.cons e (.cons e2 es2)) =
      appendToLast "," (renderLines o d 0 1 e) ++
        renderElemsLines o d (.cons e2 es2) from rfl]
    have h2 : (atomsFit o d 0 1 e && atomsFitElems o d (.cons e2 es2)) = true := hfitA
    rw [Bool.and_eq_true] at h2
    obtain ⟨hA, hE⟩ := h2
    refine boundsOK_append
      (appendToLast_ne_nil (renderLines_ne_nil e o d 0 1))
      (renderElemsLines_ne_nil (.cons e2 es2) (by intro hx; cases hx) o d) ?_
      (renderElemsLines_bounds (.cons e2 es2) o d hE)
    refine boundsOK_appendToLast (renderLines_bounds e o d 0 1 hA) ?_
    rw [show ("," : String).length = 1 from rfl]
end

theorem dropWhile_eq_self_of_head {α : Type} (p : α → Bool) (l : List α) (a : α)
    (hh : l.head? = some a) (ha : p a = false) : l.dropWhile p = l := by
  cases l with
  | nil => rfl
  | cons x xs =>
    simp only [List.head?_cons, Option.some.injEq] at hh
    subst hh
    simp [List.dropWhile_cons, ha]

theorem dropWhile_self_dropWhile {α : Type} (p : α → Bool) (l : List α) :
    (l.dropWhile p).dropWhile p = l.dropWhile p := by
  cases h : l.dropWhile p with
  | nil => rfl
  | cons a t =>
    have hnot := List.head?_dropWhile_not p l
    rw [h] at hnot
    simp only [List.head?_cons] at hnot
    simp [List.dropWhile_cons, hnot]

theorem trimChars_idem (w : Char → Bool) (l : List Char) :
    let t := fun cs : List Char => ((cs.dropWhile w).reverse.dropWhile w).reverse
    t (t l) = t l := by
  intro t
  show ((((((l.dropWhile w).reverse.dropWhile w).reverse).dropWhile w).reverse).dropWhile w).reverse
      = ((l.dropWhile w).reverse.dropWhile w).reverse
  set A := l.dropWhile w with hA
  set B := A.reverse.dropWhile w with hB
  by_cases hBe : B = []
  · simp [hBe]
  · have hBne : B.reverse ≠ [] := by simpa using hBe
    have hRd : B.reverse.dropWhile w = B.reverse := by
      have hsplit : A.reverse.takeWhile w ++ B = A.reverse := by
        rw [hB]; exact List.takeWhile_append_dropWhile ..
      have hAeq : A = B.reverse ++ (A.reverse.takeWhile w).reverse := by
        have := congrArg List.reverse hsplit
        simpa [List.reverse_append] using this.symm
      have hhead : A.head? = B.reverse.head? := by
        rw [hAeq, List.head?_append_of_ne_nil _ hBne]
      cases hh : B.reverse.head? with
      | none =>
        rw [List.head?_eq_none_iff] at hh
        exact absurd hh hBne
      | some a =>
        have hha : A.head? = some a := by rw [hhead, hh]
        have hfail : w a = false := by
          have hnot := List.head?_dropWhile_not w l
          rw [← hA] at hnot
          rw [hha] at hnot
          exact hnot
        exact dropWhile_eq_self_of_head w _ a hh hfail
    rw [hRd, List.reverse_reverse, hB, dropWhile_self_dropWhile]

theorem jsTrim_idem (s : String) : jsTrim (jsTrim s) = jsTrim s := by
  have h := trimChars_idem isWsC s.toList
  simp only at h
  unfold jsTrim
  congr 1

/-- The WASM facade's two outcomes, C7. -/
theorem format_two_outcomes (s : String) (o : FormatOptions) :
    (∃ e, parseCel s = .ok e ∧ format_with_options s o = .ok (renderText o e)) ∨
    (∃ d, parseCel s = .error d ∧ format_with_options s o = .error d) := by
  unfold format_with_options
  cases h : parseCel s with
  | ok e => exact .inl ⟨e, rfl, rfl⟩
  | error d => exact .inr ⟨d, rfl, rfl⟩

theorem formatCode_ready_eq (fmt : String → Int → Int → Bool → Bool → Except String String)
    (st : UIState) (hready : st.wasmReady = true) :
    formatCode fmt st =
      if jsTrim st.inputValue = "" then hideError { st with outputValue := "" }
      else
        match fmt (jsTrim st.inputValue) (effectiveMaxWidth st.maxWidthValue)
            (effectiveIndentWidth st.indentWidthValue)
            st.useTabsChecked st.trailingCommaChecked with
        | .ok formatted => hideError { st with outputValue := formatted }
        | .error err => { showError st err with outputValue := "" } := by
  unfold formatCode
  rw [hready]
  rfl

/-- Option defaults of the UI caller, C8: an empty width field yields 80
columns, an empty indent field yields 2 columns (both positive), the
checkbox defaults are false for tabs and true for trailing commas, and
`formatCode` invokes the formatter with exactly these effective values. -/
theorem formatCode_option_defaults (fmt : String → Int → Int → Bool → Bool → Except String String)
    (st : UIState) (hready : st.wasmReady = true) (hne : ¬jsTrim st.inputValue = "")
    (hmw : st.maxWidthValue = "") (hiw : st.indentWidthValue = "") :
    effectiveMaxWidth st.maxWidthValue = 80 ∧
    effectiveIndentWidth st.indentWidthValue = 2 ∧
    (0 : Int) < 80 ∧ (0 : Int) < 2 ∧
    defaultUseTabs = false ∧ defaultTrailingComma = true ∧
    formatCode fmt st =
      (match fmt (jsTrim st.inputValue) 80 2 st.useTabsChecked st.trailingCommaChecked with
       | .ok formatted => hideError { st with outputValue := formatted }
       | .error err => { showError st err with outputValue := "" }) := by
  have h80 : effectiveMaxWidth st.maxWidthValue = 80 := by rw [hmw]; rfl
  have h2 : effectiveIndentWidth st.indentWidthValue = 2 := by rw [hiw]; rfl
  refine ⟨h80, h2, by decide, by decide, rfl, rfl, ?_⟩
  rw [formatCode_ready_eq fmt st hready, if_neg hne, h80, h2]

/-- Witness for `formatCode_option_defaults` at a concrete state. -/
theorem formatCode_option_defaults_witness :
    (⟨"x", "", "", false, true, "", "", false, true⟩ : UIState).wasmReady = true ∧
    ¬jsTrim (⟨"x", "", "", false, true, "", "", false, true⟩ : UIState).inputValue = "" ∧
    (effectiveMaxWidth "" = 80 ∧ effectiveIndentWidth "" = 2 ∧
      (0 : Int) < 80 ∧ (0 : Int) < 2 ∧
      defaultUseTabs = false ∧ defaultTrailingComma = true ∧
      formatCode (fun s _ _ _ _ => .ok s) ⟨"x", "", "", false, true, "", "", false, true⟩ =
        (match (fun (s : String) (_ : Int) (_ : Int) (_ : Bool) (_ : Bool) =>
                  (Except.ok s : Except String String)) (jsTrim "x") 80 2 false true with
         | .ok formatted =>
            hideError { (⟨"x", "", "", false, true, "", "", false, true⟩ : UIState) with
              outputValue := formatted }
         | .error err =>
            { showError (⟨"x", "", "", false, true, "", "", false, true⟩ : UIState) err with
              outputValue := "" })) :=
  ⟨rfl, by decide,
    formatCode_option_defaults (fun s _ _ _ _ => .ok s)
      ⟨"x", "", "", false, true, "", "", false, true⟩ rfl (by decide) rfl rfl⟩

/-- Counterexample to C9 as stated: before the WASM module has loaded, a
completed `formatCode` call on empty input shows the loading error and
leaves stale output in place instead of clearing it and hiding the error. -/
theorem formatCode_empty_input_counterexample :
    jsTrim (⟨"", "stale", "", false, false, "80", "2", false, true⟩ : UIState).inputValue = "" ∧
    (formatCode (fun s _ _ _ _ => .ok s)
        ⟨"", "stale", "", false, false, "80", "2", false, true⟩).outputValue = "stale" ∧
    (formatCode (fun s _ _ _ _ => .ok s)
        ⟨"", "stale", "", false, false, "80", "2", false, true⟩).errorVisible = true := by
  refine ⟨by decide, ?_, ?_⟩ <;> rfl

/-- Empty-input behaviour of `formatCode` once the module is ready, C9
amended: with `wasmReady` set, a whitespace-only input clears the output
and hides the error without invoking the formatter (the result is the same
for every formatter), and every input is trimmed before being passed on,
so trimming the input beforehand cannot change the observable result. -/
theorem formatCode_empty_input_ready
    (fmt fmt' : String → Int → Int → Bool → Bool → Except String String)
    (st : UIState) (hready : st.wasmReady = true) :
    (jsTrim st.inputValue = "" →
      formatCode fmt st = hideError { st with outputValue := "" } ∧
      formatCode fmt st = formatCode fmt' st) ∧
    ((formatCode fmt st).outputValue =
        (formatCode fmt { st with inputValue := jsTrim st.inputValue }).outputValue ∧
      (formatCode fmt st).errorText =
        (formatCode fmt { st with inputValue := jsTrim st.inputValue }).errorText ∧
      (formatCode fmt st).errorVisible =
        (formatCode fmt { st with inputValue := jsTrim st.inputValue }).errorVisible) := by
  constructor
  · intro hempty
    constructor <;> rw [formatCode_ready_eq fmt st hready, if_pos hempty]
    rw [formatCode_ready_eq fmt' st hready, if_pos hempty]
  · rw [formatCode_ready_eq fmt st hready,
      formatCode_ready_eq fmt { st with inputValue := jsTrim st.inputValue } hready]
    show _ ∧ _ ∧ _
    rw [show ({ st with inputValue := jsTrim st.inputValue } : UIState).inputValue
        = jsTrim st.inputValue from rfl, jsTrim_idem]
    by_cases hempty : jsTrim st.inputValue = ""
    · rw [if_pos hempty, if_pos hempty]
      exact ⟨rfl, rfl, rfl⟩
    · rw [if_neg hempty, if_neg hempty]
      cases fmt (jsTrim st.inputValue) (effectiveMaxWidth st.maxWidthValue)
          (effectiveIndentWidth st.indentWidthValue) st.useTabsChecked st.trailingCommaChecked with
      | ok f => exact ⟨rfl, rfl, rfl⟩
      | error e => exact ⟨rfl, rfl, rfl⟩

/-- Witness for `formatCode_empty_input_ready` at a concrete state. -/
theorem formatCode_empty_input_ready_witness :
    (⟨"  ", "old", "", false, true, "80", "2", false, true⟩ : UIState).wasmReady = true ∧
    ((jsTrim ("  " : String) = "" →
      formatCode (fun s _ _ _ _ => .ok s)
          (⟨"  ", "old", "", false, true, "80", "2", false, true⟩ : UIState) =
        hideError { (⟨"  ", "old", "", false, true, "80", "2", false, true⟩ : UIState) with
          outputValue := "" } ∧
      formatCode (fun s _ _ _ _ => .ok s)
          (⟨"  ", "old", "", false, true, "80", "2", false, true⟩ : UIState) =
        formatCode (fun _ _ _ _ _ => .error "boom")
          (⟨"  ", "old", "", false, true, "80", "2", false, true⟩ : UIState)) ∧
    ((formatCode (fun s _ _ _ _ => .ok s)
        (⟨"  ", "old", "", false, true, "80", "2", false, true⟩ : UIState)).outputValue =
      (formatCode (fun s _ _ _ _ => .ok s)
        { (⟨"  ", "old", "", false, true, "80", "2", false, true⟩ : UIState) with
          inputValue := jsTrim "  " }).outputValue ∧
     (formatCode (fun s _ _ _ _ => .ok s)
        (⟨"  ", "old", "", false, true, "80", "2", false, true⟩ : UIState)).errorText =
      (formatCode (fun s _ _ _ _ => .ok s)
        { (⟨"  ", "old", "", false, true, "80", "2", false, true⟩ : UIState) with
          inputValue := jsTrim "  " }).errorText ∧
     (formatCode (fun s _ _ _ _ => .ok s)
        (⟨"  ", "old", "", false, true, "80", "2", false, true⟩ : UIState)).errorVisible =
      (formatCode (fun s _ _ _ _ => .ok s)
        { (⟨"  ", "old", "", false, true, "80", "2", false, true⟩ : UIState) with
          inputValue := jsTrim "  " }).errorVisible)) :=
  ⟨rfl, formatCode_empty_input_ready (fun s _ _ _ _ => .ok s) (fun _ _ _ _ _ => .error "boom")
    ⟨"  ", "old", "", false, true, "80", "2", false, true⟩ rfl⟩

/-- Counterexample to C10 as stated: before the WASM module has loaded, a
completed `formatCode` call shows the loading error while stale formatted
text stays in the output element. -/
theorem formatCode_exclusivity_counterexample :
    (formatCode (fun s _ _ _ _ => .ok s)
        ⟨"a", "stale formatted text", "", false, false, "80", "2", false, true⟩).errorVisible
      = true ∧
    (formatCode (fun s _ _ _ _ => .ok s)
        ⟨"a", "stale formatted text", "", false, false, "80", "2", false, true⟩).outputValue
      = "stale formatted text" := by
  exact ⟨rfl, rfl⟩

/-- Error/output exclusivity of `formatCode` once the module is ready, C10
amended: with `wasmReady` set, a visible error after the call implies the
output element holds the empty string, and a successful format call leaves
the error hidden with the formatted text in the output element. -/
theorem formatCode_error_exclusivity
    (fmt : String → Int → Int → Bool → Bool → Except String String)
    (st : UIState) (hready : st.wasmReady = true) :
    ((formatCode fmt st).errorVisible = true → (formatCode fmt st).outputValue = "") ∧
    (∀ t, ¬jsTrim st.inputValue = "" →
      fmt (jsTrim st.inputValue) (effectiveMaxWidth st.maxWidthValue)
          (effectiveIndentWidth st.indentWidthValue)
          st.useTabsChecked st.trailingCommaChecked = .ok t →
      (formatCode fmt st).errorVisible = false ∧ (formatCode fmt st).outputValue = t) := by
  rw [formatCode_ready_eq fmt st hready]
  by_cases hempty : jsTrim st.inputValue = ""
  · rw [if_pos hempty]
    exact ⟨fun h => absurd h (by simp [hideError]), fun t hne _ => absurd hempty hne⟩
  · rw [if_neg hempty]
    cases hfmt : fmt (jsTrim st.inputValue) (effectiveMaxWidth st.maxWidthValue)
        (effectiveIndentWidth st.indentWidthValue) st.useTabsChecked st.trailingCommaChecked with
    | ok f =>
      refine ⟨fun h => absurd h (by simp [hideError]), fun t hne hok => ?_⟩
      cases hok
      exact ⟨rfl, rfl⟩
    | error e =>
      exact ⟨fun _ => rfl, fun t hne hok => by cases hok⟩

/-- Witness for `formatCode_error_exclusivity` at a concrete state. -/
theorem formatCode_error_exclusivity_witness :
    (⟨"a", "old", "", false, true, "80", "2", false, true⟩ : UIState).wasmReady = true ∧
    (((formatCode (fun _ _ _ _ _ => .error "bad")
          (⟨"a", "old", "", false, true, "80", "2", false, true⟩ : UIState)).errorVisible = true →
        (formatCode (fun _ _ _ _ _ => .error "bad")
          (⟨"a", "old", "", false, true, "80", "2", false, true⟩ : UIState)).outputValue = "") ∧
      (∀ t, ¬jsTrim ("a" : String) = "" →
        (fun (_ : String) (_ : Int) (_ : Int) (_ : Bool) (_ : Bool) =>
            (Except.error "bad" : Except String String)) (jsTrim "a")
            (effectiveMaxWidth "80") (effectiveIndentWidth "2") false true = .ok t →
        (formatCode (fun _ _ _ _ _ => .error "bad")
            (⟨"a", "old", "", false, true, "80", "2", false, true⟩ : UIState)).errorVisible = false ∧
        (formatCode (fun _ _ _ _ _ => .error "bad")
            (⟨"a", "old", "", false, true, "80", "2", false, true⟩ : UIState)).outputValue = t)) :=
  ⟨rfl, formatCode_error_exclusivity (fun _ _ _ _ _ => .error "bad")
    ⟨"a", "old", "", false, true, "80", "2", false, true⟩ rfl⟩

/-- Minimal parenthesization, C2: for `a op1 (b op2 c)` the pure function
`needs_parens` answers exactly the precedence-table test — right subtree
wrapped iff `op2` binds more weakly than `op1` or equally with the
left-associative conflict — and both the single-line renderer and the
breaking layout path wrap the right subtree according to `needs_parens`
alone. -/
theorem needs_parens_sole_authority (op1 op2 : BinOp) (a b c : Expr)
    (o : FormatOptions) (d pre suf : Nat)
    (hbreak : ¬(d * o.indentWidth + (renderSL (.binary op1 a (.binary op2 b c))).length
        + pre + suf ≤ o.maxWidth)) :
    (needs_parens (.binary op2 b c) op1 .right = true ↔
      (op2.prec < op1.prec ∨ (op2.prec = op1.prec ∧ op1.assoc = .left))) ∧
    renderSL (.binary op1 a (.binary op2 b c)) =
      renderOperand a op1 .left ++ " " ++ op1.str ++ " " ++
        (if needs_parens (.binary op2 b c) op1 .right
         then "(" ++ renderSL (.binary op2 b c) ++ ")"
         else renderSL (.binary op2 b c)) ∧
    renderLines o d pre suf (.binary op1 a (.binary op2 b c)) =
      appendToLast (" " ++ op1.str)
        (if needs_parens a op1 .left
         then wrapParens (renderLines o d (pre + 1) (op1.str.length + 2) a)
         else renderLines o d pre (op1.str.length + 1) a) ++
      (if needs_parens (.binary op2 b c) op1 .right
       then wrapParens (renderLines o (d + 1) 1 (suf + 1) (.binary op2 b c))
       else renderLines o (d + 1) 0 suf (.binary op2 b c)) := by
  refine ⟨?_, ?_, ?_⟩
  · simp only [needs_parens, Expr.prec, BinOp.assoc, Bool.or_eq_true, Bool.and_eq_true,
      decide_eq_true_eq, beq_iff_eq, and_true]
  · rw [renderSL_binary]
    simp only [renderOperand]
  · rw [renderLines]
    simp only [if_neg hbreak]

/-- Witness for `needs_parens_sole_authority` at a concrete instance. -/
theorem needs_parens_sole_authority_witness :
    ¬((0 : Nat) * (⟨10, 2, false, true⟩ : FormatOptions).indentWidth
        + (renderSL (.binary .land (.ident "x")
            (.binary .lor (.ident "y") (.ident "z")))).length + 0 + 0
        ≤ (⟨10, 2, false, true⟩ : FormatOptions).maxWidth) ∧
    ((needs_parens (.binary .lor (.ident "y") (.ident "z")) .land .right = true ↔
      (BinOp.lor.prec < BinOp.land.prec ∨
        (BinOp.lor.prec = BinOp.land.prec ∧ BinOp.land.assoc = .left))) ∧
    renderSL (.binary .land (.ident "x") (.binary .lor (.ident "y") (.ident "z"))) =
      renderOperand (.ident "x") .land .left ++ " " ++ BinOp.land.str ++ " " ++
        (if needs_parens (.binary .lor (.ident "y") (.ident "z")) .land .right
         then "(" ++ renderSL (.binary .lor (.ident "y") (.ident "z")) ++ ")"
         else renderSL (.binary .lor (.ident "y") (.ident "z"))) ∧
    renderLines ⟨10, 2, false, true⟩ 0 0 0
        (.binary .land (.ident "x") (.binary .lor (.ident "y") (.ident "z"))) =
      appendToLast (" " ++ BinOp.land.str)
        (if needs_parens (.ident "x") .land .left
         then wrapParens (renderLines ⟨10, 2, false, true⟩ 0 (0 + 1) (BinOp.land.str.length + 2)
            (.ident "x"))
         else renderLines ⟨10, 2, false, true⟩ 0 0 (BinOp.land.str.length + 1) (.ident "x")) ++
      (if needs_parens (.binary .lor (.ident "y") (.ident "z")) .land .right
       then wrapParens (renderLines ⟨10, 2, false, true⟩ (0 + 1) 1 (0 + 1)
          (.binary .lor (.ident "y") (.ident "z")))
       else renderLines ⟨10, 2, false, true⟩ (0 + 1) 0 0
          (.binary .lor (.ident "y") (.ident "z")))) :=
  ⟨by decide, needs_parens_sole_authority .land .lor (.ident "x") (.ident "y") (.ident "z")
    ⟨10, 2, false, true⟩ 0 0 0 (by decide)⟩

/-- Semantic round-trip, C4: whenever the facade formats a source
successfully, re-parsing the formatted text yields an expression tree
structurally equal to the tree parsed from the original source. -/
theorem format_round_trip (s t : String) (o : FormatOptions)
    (h : format_with_options s o = .ok t) : parseCel t = parseCel s := by
  rw [format_with_options] at h
  cases hp : parseCel s with
  | error err => rw [hp] at h; exact absurd h (by simp)
  | ok e =>
    rw [hp] at h
    have h2 : (Except.ok (renderText o e) : Except ParseError String) = .ok t := h
    cases h2
    rw [parseCel_renderText o e (parseCel_valid hp)]

/-- Witness for `format_round_trip`: a list that wraps across lines with a
trailing comma still re-parses to the original tree. -/
theorem format_round_trip_witness :
    format_with_options "[100,200,300]" ⟨10, 2, false, true⟩ =
      .ok "[\n  100,\n  200,\n  300,\n]\n" ∧
    parseCel "[\n  100,\n  200,\n  300,\n]\n" = parseCel "[100,200,300]" :=
  ⟨rfl, format_round_trip "[100,200,300]" "[\n  100,\n  200,\n  300,\n]\n"
    ⟨10, 2, false, true⟩ rfl⟩

/-- Idempotence, C1: formatting the output of a successful format call is
a no-op — the second pass returns the same text byte for byte. -/
theorem format_idempotent (s t : String) (o : FormatOptions)
    (h : format_with_options s o = .ok t) : format_with_options t o = .ok t := by
  rw [format_with_options] at h
  cases hp : parseCel s with
  | error err => rw [hp] at h; exact absurd h (by simp)
  | ok e =>
    rw [hp] at h
    have h2 : (Except.ok (renderText o e) : Except ParseError String) = .ok t := h
    cases h2
    rw [format_with_options, parseCel_renderText o e (parseCel_valid hp)]

/-- Witness for `format_idempotent` at a concrete source and option set. -/
theorem format_idempotent_witness :
    format_with_options "1+2*3" ⟨80, 2, false, true⟩ = .ok "1 + 2 * 3\n" ∧
    format_with_options "1 + 2 * 3\n" ⟨80, 2, false, true⟩ = .ok "1 + 2 * 3\n" :=
  ⟨rfl, format_idempotent "1+2*3" "1 + 2 * 3\n" ⟨80, 2, false, true⟩ rfl⟩

/-- Output shape, C6: a successful format call returns exactly the
newline-joined lines of the layout engine driven from indent depth 0; the
text ends with exactly one trailing newline, and no line carries trailing
whitespace. -/
theorem format_output_shape (s t : String) (o : FormatOptions)
    (h : format_with_options s o = .ok t) :
    ∃ e, parseCel s = .ok e ∧
      t = joinNL ((renderLines o 0 0 0 e).map (lineText o)) ∧
      (∃ body, t.toList = body ++ ['\n'] ∧ ∀ c, body.getLast? = some c → c ≠ '\n') ∧
      ∀ l ∈ renderLines o 0 0 0 e,
        (∀ c ∈ (lineText o l).toList, c ≠ '\n') ∧
        (∀ c, (lineText o l).toList.getLast? = some c → c ≠ ' ' ∧ c ≠ '\t') := by
  rw [format_with_options] at h
  cases hp : parseCel s with
  | error err => rw [hp] at h; exact absurd h (by simp)
  | ok e =>
    rw [hp] at h
    have h2 : (Except.ok (renderText o e) : Except ParseError String) = .ok t := h
    cases h2
    have hv := parseCel_valid hp
    have hgood := goodLines e hv o 0 0 0
    refine ⟨e, rfl, rfl, ⟨flattenL o (renderLines o 0 0 0 e), renderText_toList o e, ?_⟩, ?_⟩
    · intro c hc
      obtain ⟨l, hl, he⟩ := flattenL_getLast o _ (fun l hl => (hgood l hl).1) c hc
      have hsoft := (hgood l hl).2.2
      rw [softLastOK, he] at hsoft
      have h3 : (!(c == '\n') && !(c == ' ') && !(c == '\t')) = true := hsoft
      simp only [Bool.and_eq_true, Bool.not_eq_true', beq_eq_false_iff_ne] at h3
      exact h3.1.1
    · intro l hl
      obtain ⟨hne, hnl, hsoft⟩ := hgood l hl
      constructor
      · intro c hc
        rw [lineText, toList_append] at hc
        rcases List.mem_append.mp hc with h1 | h2
        · rw [indentText] at h1
          by_cases ht : o.useTabs = true
          · rw [if_pos ht] at h1
            have hr : c ∈ List.replicate l.1 '\t' := h1
            rw [List.eq_of_mem_replicate hr]
            decide
          · rw [if_neg ht] at h1
            have hr : c ∈ List.replicate (l.1 * o.indentWidth) ' ' := h1
            rw [List.eq_of_mem_replicate hr]
            decide
        · rw [noNL, List.all_eq_true] at hnl
          have h4 := hnl c h2
          simp only [Bool.not_eq_true', beq_eq_false_iff_ne] at h4
          exact h4
      · intro c hc
        rw [lineText, toList_append, List.getLast?_append_of_ne_nil _ hne] at hc
        rw [softLastOK, hc] at hsoft
        have h3 : (!(c == '\n') && !(c == ' ') && !(c == '\t')) = true := hsoft
        simp only [Bool.and_eq_true, Bool.not_eq_true', beq_eq_false_iff_ne] at h3
        exact ⟨h3.1.2, h3.2⟩

/-- Witness for `format_output_shape` at a concrete source. -/
theorem format_output_shape_witness :
    format_with_options "1+2*3" ⟨80, 2, false, true⟩ = .ok "1 + 2 * 3\n" ∧
    (∃ e, parseCel "1+2*3" = .ok e ∧
      "1 + 2 * 3\n" = joinNL ((renderLines ⟨80, 2, false, true⟩ 0 0 0 e).map
        (lineText ⟨80, 2, false, true⟩)) ∧
      (∃ body, ("1 + 2 * 3\n" : String).toList = body ++ ['\n'] ∧
        ∀ c, body.getLast? = some c → c ≠ '\n') ∧
      ∀ l ∈ renderLines ⟨80, 2, false, true⟩ 0 0 0 e,
        (∀ c ∈ (lineText ⟨80, 2, false, true⟩ l).toList, c ≠ '\n') ∧
        (∀ c, (lineText ⟨80, 2, false, true⟩ l).toList.getLast? = some c →
          c ≠ ' ' ∧ c ≠ '\t')) :=
  ⟨rfl, format_output_shape "1+2*3" "1 + 2 * 3\n" ⟨80, 2, false, true⟩ rfl⟩

/-- Trailing comma toggle, C5: a three-element list that fits on one line
is emitted as that single line, whose element text never ends in a comma,
regardless of the flag; when the list wraps, the final element line ends
with a comma exactly when `trailing_comma` is set. -/
theorem trailing_comma_toggle (a b c : Expr) (o : FormatOptions) (d pre suf : Nat)
    (hva : a.valid = true) (hvb : b.valid = true) (hvc : c.valid = true) :
    (d * o.indentWidth + (renderSL (.listE (threeList a b c))).length + pre + suf
        ≤ o.maxWidth →
      renderLines o d pre suf (.listE (threeList a b c)) =
        [(d, renderSL (.listE (threeList a b c)))] ∧
      ∀ c0, (renderSLElems (threeList a b c)).toList.getLast? = some c0 → c0 ≠ ',') ∧
    (¬ (d * o.indentWidth + (renderSL (.listE (threeList a b c))).length + pre + suf
        ≤ o.maxWidth) →
      renderLines o d pre suf (.listE (threeList a b c)) =
        (d, "[") :: renderElemsLines o (d + 1) (threeList a b c) ++ [(d, "]")] ∧
      ∀ l, (renderElemsLines o (d + 1) (threeList a b c)).getLast? = some l →
        (l.2.toList.getLast? = some ',' ↔ o.trailingComma = true)) := by
  have hvlist : ExprList.valid (threeList a b c) = true := by
    rw [threeList, ExprList.valid, ExprList.valid, ExprList.valid, ExprList.valid]
    rw [hva, hvb, hvc]
    rfl
  constructor
  · intro hfit
    refine ⟨?_, ?_⟩
    · rw [show renderLines o d pre suf (.listE (threeList a b c)) =
        (if d * o.indentWidth + (renderSL (.listE (threeList a b c))).length + pre + suf
            ≤ o.maxWidth
         then [(d, renderSL (.listE (threeList a b c)))]
         else (d, "[") :: renderElemsLines o (d + 1) (threeList a b c) ++ [(d, "]")])
        from rfl, if_pos hfit]
    · intro c0 hc0
      obtain ⟨hnl, hrest⟩ := goodSLElems (threeList a b c) hvlist
      obtain ⟨hne, hlast⟩ := hrest (by rw [threeList]; intro hx; cases hx)
      rw [lastOK, hc0] at hlast
      have h3 : (!(c0 == '\n') && !(c0 == ' ') && !(c0 == '\t') && !(c0 == ',')) = true :=
        hlast
      simp only [Bool.and_eq_true, Bool.not_eq_true', beq_eq_false_iff_ne] at h3
      exact h3.2
  · intro hfit
    refine ⟨?_, ?_⟩
    · rw [show renderLines o d pre suf (.listE (threeList a b c)) =
        (if d * o.indentWidth + (renderSL (.listE (threeList a b c))).length + pre + suf
            ≤ o.maxWidth
         then [(d, renderSL (.listE (threeList a b c)))]
         else (d, "[") :: renderElemsLines o (d + 1) (threeList a b c) ++ [(d, "]")])
        from rfl, if_neg hfit]
    · intro l hl
      rw [show renderElemsLines o (d + 1) (threeList a b c) =
        appendToLast "," (renderLines o (d + 1) 0 1 a) ++
          renderElemsLines o (d + 1) (.cons b (.cons c .nil)) from rfl,
        List.getLast?_append_of_ne_nil _
          (renderElemsLines_ne_nil (.cons b (.cons c .nil))
            (by intro hx; cases hx) o (d + 1)),
        show renderElemsLines o (d + 1) (.cons b (.cons c .nil)) =
          appendToLast "," (renderLines o (d + 1) 0 1 b) ++
            renderElemsLines o (d + 1) (.cons c .nil) from rfl,
        List.getLast?_append_of_ne_nil _
          (renderElemsLines_ne_nil (.cons c .nil) (by intro hx; cases hx) o (d + 1)),
        show renderElemsLines o (d + 1) (.cons c .nil) =
          (if o.trailingComma then appendToLast "," (renderLines o (d + 1) 0 1 c)
           else renderLines o (d + 1) 0 0 c) from rfl] at hl
      by_cases ht : o.trailingComma = true
      · rw [if_pos ht] at hl
        obtain ⟨l0, _, he⟩ := appendToLast_getLast "," _
          (renderLines_ne_nil c o (d + 1) 0 1) l hl
        rw [he, ht]
        simp only [iff_true]
        show (l0.2 ++ ",").toList.getLast? = some ','
        rw [toList_append, List.getLast?_append_of_ne_nil _ (by decide)]
        rfl
      · rw [if_neg ht] at hl
        obtain ⟨hne, hlast⟩ := lastLine_renderLines c hvc o (d + 1) 0 0 l hl
        rw [Bool.not_eq_true] at ht
        rw [ht]
        constructor
        · intro hcomma
          rw [lastOK, hcomma] at hlast
          have h3 :
              (!(',' == '\n') && !(',' == ' ') && !(',' == '\t') && !(',' == ',')) = true :=
            hlast
          exact absurd h3 (by decide)
        · intro hx
          exact absurd hx (by decide)

/-- Witness for `trailing_comma_toggle` on three numeric literals. -/
theorem trailing_comma_toggle_witness :
    (Expr.lit 100).valid = true ∧ (Expr.lit 200).valid = true ∧
    (Expr.lit 300).valid = true ∧
    ((0 * (2 : Nat) +
        (renderSL (.listE (threeList (.lit 100) (.lit 200) (.lit 300)))).length
        + 0 + 0 ≤ (10 : Nat) →
      renderLines ⟨10, 2, false, true⟩ 0 0 0
          (.listE (threeList (.lit 100) (.lit 200) (.lit 300))) =
        [(0, renderSL (.listE (threeList (.lit 100) (.lit 200) (.lit 300))))] ∧
      ∀ c0, (renderSLElems (threeList (.lit 100) (.lit 200) (.lit 300))).toList.getLast? =
          some c0 → c0 ≠ ',') ∧
    (¬ (0 * (2 : Nat) +
        (renderSL (.listE (threeList (.lit 100) (.lit 200) (.lit 300)))).length
        + 0 + 0 ≤ (10 : Nat)) →
      renderLines ⟨10, 2, false, true⟩ 0 0 0
          (.listE (threeList (.lit 100) (.lit 200) (.lit 300))) =
        (0, "[") :: renderElemsLines ⟨10, 2, false, true⟩ 1
          (threeList (.lit 100) (.lit 200) (.lit 300)) ++ [(0, "]")] ∧
      ∀ l, (renderElemsLines ⟨10, 2, false, true⟩ 1
          (threeList (.lit 100) (.lit 200) (.lit 300))).getLast? = some l →
        (l.2.toList.getLast? = some ',' ↔
          FormatOptions.trailingComma ⟨10, 2, false, true⟩ = true))) :=
  ⟨rfl, rfl, rfl,
    trailing_comma_toggle (.lit 100) (.lit 200) (.lit 300) ⟨10, 2, false, true⟩ 0 0 0
      rfl rfl rfl⟩

/-- Width boundary, C3: a binary chain whose single-line form exceeds
`max_width` is emitted on more than one line; and whenever a legal break
point exists everywhere one is needed (`atomsFit`), no output line —
content measured beyond its nesting indentation — exceeds `max_width`. -/
theorem width_boundary (op : BinOp) (l r : Expr) (o : FormatOptions)
    (hover : o.maxWidth < (renderSL (.binary op l r)).length) :
    2 ≤ (renderLines o 0 0 0 (.binary op l r)).length ∧
    (atomsFit o 0 0 0 (.binary op l r) = true →
      ∀ ln ∈ renderLines o 0 0 0 (.binary op l r), ln.2.length ≤ o.maxWidth) := by
  have hnofit : ¬ (0 * o.indentWidth + (renderSL (.binary op l r)).length + 0 + 0
      ≤ o.maxWidth) := by omega
  constructor
  · rw [show renderLines o 0 0 0 (.binary op l r) =
      (if 0 * o.indentWidth + (renderSL (.binary op l r)).length + 0 + 0 ≤ o.maxWidth
       then [(0, renderSL (.binary op l r))]
       else appendToLast (" " ++ op.str)
          (if needs_parens l op .left then
            wrapParens (renderLines o 0 (0 + 1) (op.str.length + 2) l)
          else renderLines o 0 0 (op.str.length + 1) l) ++
          (if needs_parens r op .right then
            wrapParens (renderLines o (0 + 1) 1 (0 + 1) r)
          else renderLines o (0 + 1) 0 0 r)) from rfl, if_neg hnofit]
    rw [List.length_append]
    have h1 : 0 < (appendToLast (" " ++ op.str)
        (if needs_parens l op .left then
          wrapParens (renderLines o 0 (0 + 1) (op.str.length + 2) l)
        else renderLines o 0 0 (op.str.length + 1) l)).length := by
      refine List.length_pos.mpr (appendToLast_ne_nil ?_)
      by_cases hbl : needs_parens l op .left = true
      · rw [if_pos hbl]
        exact wrapParens_ne_nil (renderLines_ne_nil l o 0 (0 + 1) (op.str.length + 2))
      · rw [if_neg hbl]
        exact renderLines_ne_nil l o 0 0 (op.str.length + 1)
    have h2 : 0 < (if needs_parens r op .right then
        wrapParens (renderLines o (0 + 1) 1 (0 + 1) r)
      else renderLines o (0 + 1) 0 0 r).length := by
      refine List.length_pos.mpr ?_
      by_cases hbr : needs_parens r op .right = true
      · rw [if_pos hbr]
        exact wrapParens_ne_nil (renderLines_ne_nil r o (0 + 1) 1 (0 + 1))
      · rw [if_neg hbr]
        exact renderLines_ne_nil r o (0 + 1) 0 0
    omega
  · intro hA ln hln
    have hb := boundsOK_mem (renderLines_bounds (.binary op l r) o 0 0 0 hA) ln hln
    omega

/-- Witness for `width_boundary`: a sum of two three-digit literals at
width 5 wraps into two lines that both fit. -/
theorem width_boundary_witness :
    (5 : Nat) < (renderSL (.binary .add (.lit 100) (.lit 200))).length ∧
    (2 ≤ (renderLines ⟨5, 2, false, true⟩ 0 0 0
        (.binary .add (.lit 100) (.lit 200))).length ∧
      (atomsFit ⟨5, 2, false, true⟩ 0 0 0 (.binary .add (.lit 100) (.lit 200)) = true →
        ∀ ln ∈ renderLines ⟨5, 2, false, true⟩ 0 0 0 (.binary .add (.lit 100) (.lit 200)),
          ln.2.length ≤ (5 : Nat))) :=
  ⟨by decide, width_boundary .add (.lit 100) (.lit 200) ⟨5, 2, false, true⟩ (by decide)⟩

end CelFmt
